import Mathlib

/-!
# MazeForge — shallow embedding and verification

This file embeds the maze-formation engine of the MazeForge repository
(`mazeforge/Maze.py`, `mazeforge/maze_generator.py`) in Lean 4 and settles the
frozen claims about it.

Embedding conventions:
* Python `int` coordinates and sizes become `Int`; tile positions are `Int × Int`
  pairs `(x, y)`.
* The mutable `Maze` object becomes the record `MS`; the nested `mazeList` of
  tile objects becomes function-valued fields (`conn` for `connectTo`,
  `workedOn`, `isEntry` for `is_entry`), updated with `Function.update`.
  Tiles of an unformed maze all carry empty data, exactly as the freshly
  generated `mazeList` does.
* The global `random` module is an explicit oracle stream `RNG = Nat → Nat`.
  `rnd.choice(l)` is embedded as indexing by `oracle-value % l.length`;
  `rnd.shuffle(l)` followed by `pop()` (which removes a uniformly random
  element) is embedded as removal at a random index; `rnd.shuffle` of a
  duplicate-free list is embedded as repeated random selection-without-
  replacement; the uniform real `rnd.random() * 100` is discretized to an
  oracle-drawn integer number of tenths in `[0, 1000)`, compared against
  `10 ×` the integer weights.  Universally quantifying over the oracle covers
  every branch behaviour the Python code can exhibit.
* Unbounded `while` loops become fueled recursion returning `Option`
  (`none` = the loop has not finished within the given fuel, or the Python
  code would raise an uncaught `IndexError`); raised `__MazeError`s become
  `Except MErr`.
* Pillow rendering is out of the spec's scope; `makePP` is modelled up to its
  guard/validation and the size of the produced image.
-/

/-- Compass directions, the strings `"N" "S" "W" "E"` stored in `connectTo`. -/
inductive Dir : Type where
  | N | S | W | E
deriving DecidableEq, Repr

/-- The opposite compass direction (the label the partner tile receives). -/
def Dir.opp : Dir → Dir
  | .N => .S
  | .S => .N
  | .W => .E
  | .E => .W

/-- A tile position `(x, y)`. -/
abbrev Pos := Int × Int

/-- The neighbouring position one step in a direction (y grows southward). -/
def target (p : Pos) (d : Dir) : Pos :=
  match d with
  | .N => (p.1, p.2 - 1)
  | .S => (p.1, p.2 + 1)
  | .W => (p.1 - 1, p.2)
  | .E => (p.1 + 1, p.2)

/-- The oracle stream standing for the global `random` generator. -/
abbrev RNG := Nat → Nat

/-- Next oracle value. -/
def rhead (r : RNG) : Nat := r 0

/-- The stream after consuming one value. -/
def rtail (r : RNG) : RNG := fun n => r (n + 1)

/-- `__MazeError`: message and `errorcode`. -/
structure MErr where
  msg : String
  errorcode : Int
deriving DecidableEq, Repr

/-- The `Maze` object: sizes, per-tile data, the `__mazeIsDone` flag and the
entry/exit wall configuration. -/
structure MS where
  sizeX : Int
  sizeY : Int
  conn : Pos → List Dir
  workedOn : Pos → Bool
  isEntry : Pos → Option Bool
  mazeIsDone : Bool
  start_wall : String
  end_wall : String

/-- `Maze.__init__` for valid dimensions: empty tiles, unformed, walls `Any`. -/
def initMaze (sx sy : Int) : MS where
  sizeX := sx
  sizeY := sy
  conn := fun _ => []
  workedOn := fun _ => false
  isEntry := fun _ => none
  mazeIsDone := false
  start_wall := "Any"
  end_wall := "Any"

/-- A position lies on the tile grid. -/
def InGrid (m : MS) (p : Pos) : Prop :=
  0 ≤ p.1 ∧ p.1 < m.sizeX ∧ 0 ≤ p.2 ∧ p.2 < m.sizeY

instance (m : MS) (p : Pos) : Decidable (InGrid m p) := by
  unfold InGrid; infer_instance

/-- All grid positions in row-major order (the order of
`for row in self.mazeList: for tile in row`). -/
def gridList (m : MS) : List Pos :=
  (List.range m.sizeY.toNat).flatMap
    (fun y => (List.range m.sizeX.toNat).map (fun x => (((x : Nat) : Int), ((y : Nat) : Int))))

/-- Append a direction to one tile's `connectTo` list. -/
def appendConn (m : MS) (p : Pos) (d : Dir) : MS :=
  { m with conn := Function.update m.conn p (m.conn p ++ [d]) }

/-- `__getNextTiles`: in-grid orthogonal neighbours of an in-grid tile, in the
order N, S, W, E produced by the source's four `try` blocks. -/
def nextTiles (m : MS) (p : Pos) : List Pos :=
  (if p.2 > 0 then [(p.1, p.2 - 1)] else []) ++
  (if p.2 + 1 < m.sizeY then [(p.1, p.2 + 1)] else []) ++
  (if p.1 > 0 then [(p.1 - 1, p.2)] else []) ++
  (if p.1 + 1 < m.sizeX then [(p.1 + 1, p.2)] else [])

/-- `__connectTiles`: append the facing direction pair decided by comparing the
two tiles' coordinates. -/
def connectTiles (m : MS) (a b : Pos) : MS :=
  if a.1 = b.1 then
    if a.2 < b.2 then appendConn (appendConn m a .S) b .N
    else if a.2 > b.2 then appendConn (appendConn m a .N) b .S
    else m
  else if a.1 < b.1 then appendConn (appendConn m a .E) b .W
  else appendConn (appendConn m a .W) b .E

/-- `__connectTilesWithString` on an in-grid tile: errorcode 2 exactly when the
requested step leaves the grid (the source's guarded `IndexError`s); otherwise
the neighbour's opposite direction is appended first, then the tile's. -/
def connectTilesWithString (m : MS) (p : Pos) (d : Dir) : Except MErr MS :=
  match d with
  | .N =>
    if p.2 = 0 then .error ⟨"This tile can not connect in this direction", 2⟩
    else .ok (appendConn (appendConn m (target p .N) .S) p .N)
  | .S =>
    if m.sizeY ≤ p.2 + 1 then .error ⟨"This tile can not connect in this direction", 2⟩
    else .ok (appendConn (appendConn m (target p .S) .N) p .S)
  | .W =>
    if p.1 = 0 then .error ⟨"This tile can not connect in this direction", 2⟩
    else .ok (appendConn (appendConn m (target p .W) .E) p .W)
  | .E =>
    if m.sizeX ≤ p.1 + 1 then .error ⟨"This tile can not connect in this direction", 2⟩
    else .ok (appendConn (appendConn m (target p .E) .W) p .E)

/-- `get_wall_tiles` of `__makeEntryandExit`: candidate tiles for one wall;
any string other than N/S/W/E falls into the `Any` branch, exactly as the
source's final `else`. -/
def get_wall_tiles (m : MS) (wall : String) : List Pos :=
  if wall = "N" then (List.range m.sizeX.toNat).map (fun x => (((x : Nat) : Int), 0))
  else if wall = "S" then (List.range m.sizeX.toNat).map (fun x => (((x : Nat) : Int), m.sizeY - 1))
  else if wall = "W" then (List.range m.sizeY.toNat).map (fun y => (0, ((y : Nat) : Int)))
  else if wall = "E" then (List.range m.sizeY.toNat).map (fun y => (m.sizeX - 1, ((y : Nat) : Int)))
  else
    (List.range m.sizeX.toNat).map (fun x => (((x : Nat) : Int), 0)) ++
    (List.range m.sizeX.toNat).map (fun x => (((x : Nat) : Int), m.sizeY - 1)) ++
    (List.range (m.sizeY - 2).toNat).map (fun y => (0, ((y : Nat) : Int) + 1)) ++
    (List.range (m.sizeY - 2).toNat).map (fun y => (m.sizeX - 1, ((y : Nat) : Int) + 1))

/-- The outward direction appended to an entry/exit tile: the source's
`if`/`elif` chain, row tests (top, bottom) before column tests (left, right). -/
def outwardDir (m : MS) (p : Pos) : Dir :=
  if p.2 = 0 then .N
  else if p.2 = m.sizeY - 1 then .S
  else if p.1 = 0 then .W
  else .E

/-- The `while True` draw of `__makeEntryandExit`: one uniform draw from each
candidate list per round, repeated until the two positions differ. -/
def entryExitLoop : Nat → List Pos → List Pos → RNG → Option (Pos × Pos × RNG)
  | 0, _, _, _ => none
  | fuel + 1, startTiles, endTiles, r =>
    let e := startTiles.getD (rhead r % startTiles.length) (0, 0)
    let x := endTiles.getD (rhead (rtail r) % endTiles.length) (0, 0)
    let r' := rtail (rtail r)
    if e ≠ x then some (e, x, r') else entryExitLoop fuel startTiles endTiles r'

/-- `__makeEntryandExit`: draw distinct entry/exit positions, mark their roles
and append each tile's outward direction. -/
def makeEntryandExit (m : MS) (r : RNG) (fuel : Nat) : Option (MS × RNG) :=
  let startTiles := get_wall_tiles m m.start_wall
  let endTiles := get_wall_tiles m m.end_wall
  match entryExitLoop fuel startTiles endTiles r with
  | none => none
  | some (e, x, r') =>
    let m1 := { m with isEntry := Function.update m.isEntry e (some true) }
    let m2 := appendConn m1 e (outwardDir m1 e)
    let m3 := { m2 with isEntry := Function.update m2.isEntry x (some false) }
    let m4 := appendConn m3 x (outwardDir m3 x)
    some (m4, r')

/-- One round of `makeMazeSimple`'s frontier loop plus recursion: remove a
random frontier tile, mark it, extend the frontier with its fresh unvisited
neighbours, and connect it to one random already-visited neighbour.  `none`
on fuel exhaustion, or where the source would crash on `workedOnList[0]`. -/
def primLoop : Nat → MS → List Pos → RNG → Option (MS × RNG)
  | 0, _, _, _ => none
  | fuel + 1, m, front, r =>
    if front.isEmpty then some (m, r)
    else
      let i := rhead r % front.length
      let nextT := front.getD i (0, 0)
      let front1 := front.eraseIdx i
      let m1 := { m with workedOn := Function.update m.workedOn nextT true }
      let nbrs := nextTiles m1 nextT
      let workedOnL := nbrs.filter (fun t => m1.workedOn t)
      let newFront := nbrs.filter (fun t => !m1.workedOn t && !(decide (t ∈ front1)))
      let front2 := front1 ++ newFront
      match workedOnL with
      | [] => none
      | _ :: _ =>
        let j := rhead (rtail r) % workedOnL.length
        let connectT :=
          if workedOnL.length > 1 then workedOnL.getD j (0, 0) else workedOnL.getD 0 (0, 0)
        primLoop fuel (connectTiles m1 nextT connectT) front2 (rtail (rtail r))

/-- `makeMazeSimple`: guard, random starting tile, frontier loop, then entry
and exit placement and the `__mazeIsDone` flag. -/
def makeMazeSimple (m : MS) (r : RNG) (fuel : Nat) : Option (Except MErr (MS × RNG)) :=
  if m.mazeIsDone then some (.error ⟨"Maze is already done", 3⟩)
  else
    let y : Int := (rhead r % m.sizeY.toNat : Nat)
    let x : Int := (rhead (rtail r) % m.sizeX.toNat : Nat)
    let start : Pos := (x, y)
    let m1 := { m with workedOn := Function.update m.workedOn start true }
    let front := nextTiles m1 start
    match primLoop fuel m1 front (rtail (rtail r)) with
    | none => none
    | some (m2, r2) =>
      match makeEntryandExit m2 r2 fuel with
      | none => none
      | some (m3, r3) => some (.ok ({ m3 with mazeIsDone := true }, r3))

/-- One round of `makeMazeGrowTree`'s loop plus recursion: the weighted pick
from the active list, then either drops a tile with no unvisited neighbours or
connects it to a random fresh neighbour which joins the list. -/
def growLoop : Nat → MS → List Pos → Int → Int → RNG → Option (MS × RNG)
  | 0, _, _, _, _, _ => none
  | fuel + 1, m, choiceList, weightHigh, weightLow, r =>
    if choiceList.isEmpty then some (m, r)
    else
      let choice_ : Int := (rhead r % 1000 : Nat)
      let r1 := rtail r
      let pick :=
        if choice_ ≤ 10 * weightLow then ((choiceList.getLast?).getD (0, 0), r1)
        else if 10 * weightLow < choice_ ∧ choice_ < 10 * weightHigh then
          (choiceList.getD (rhead r1 % choiceList.length) (0, 0), rtail r1)
        else (choiceList.headD (0, 0), r1)
      let nextT := pick.1
      let r2 := pick.2
      let neiList := (nextTiles m nextT).filter (fun t => !m.workedOn t)
      match neiList with
      | [] => growLoop fuel m (choiceList.erase nextT) weightHigh weightLow r2
      | _ :: _ =>
        let connectT := neiList.getD (rhead r2 % neiList.length) (0, 0)
        let m1 := { m with workedOn := Function.update m.workedOn connectT true }
        growLoop fuel (connectTiles m1 nextT connectT) (choiceList ++ [connectT])
          weightHigh weightLow (rtail r2)

/-- `makeMazeGrowTree`: guard, random starting tile, weighted growing-tree
loop, then entry and exit placement and the `__mazeIsDone` flag. -/
def makeMazeGrowTree (m : MS) (weightHigh weightLow : Int) (r : RNG) (fuel : Nat) :
    Option (Except MErr (MS × RNG)) :=
  if m.mazeIsDone then some (.error ⟨"Maze is already done", 3⟩)
  else
    let y : Int := (rhead r % m.sizeY.toNat : Nat)
    let x : Int := (rhead (rtail r) % m.sizeX.toNat : Nat)
    let start : Pos := (x, y)
    let m1 := { m with workedOn := Function.update m.workedOn start true }
    match growLoop fuel m1 [start] weightHigh weightLow (rtail (rtail r)) with
    | none => none
    | some (m2, r2) =>
      match makeEntryandExit m2 r2 fuel with
      | none => none
      | some (m3, r3) => some (.ok ({ m3 with mazeIsDone := true }, r3))

/-- `rnd.shuffle` of a duplicate-free list, embedded as oracle-driven
selection without replacement. -/
def shuffleGo : Nat → RNG → List Dir → List Dir × RNG
  | 0, r, _ => ([], r)
  | n + 1, r, l =>
    if l.isEmpty then ([], r)
    else
      let d := l.getD (rhead r % l.length) .N
      let rest := shuffleGo n (rtail r) (l.erase d)
      (d :: rest.1, rest.2)

/-- Shuffle a direction list. -/
def shuffleO (r : RNG) (l : List Dir) : List Dir × RNG := shuffleGo l.length r l

/-- The braiding inner `for direction in directionList` loop: try each
direction until one connects, swallowing errorcode-2 failures and re-raising
anything else; if every direction fails the tile is left as it is. -/
def tryDirs (m : MS) (p : Pos) : List Dir → Except MErr MS
  | [] => .ok m
  | d :: rest =>
    match connectTilesWithString m p d with
    | .ok m' => .ok m'
    | .error e => if e.errorcode = 2 then tryDirs m p rest else .error e

/-- One tile of the dead-end removal pass (`weightBraid == -1`): a tile whose
connection list currently has exactly one member tries the three other
directions in a random order. -/
def deadStep (acc : Except MErr (MS × RNG)) (p : Pos) : Except MErr (MS × RNG) :=
  match acc with
  | .error e => .error e
  | .ok (m, r) =>
    if (m.conn p).length = 1 then
      let directionList := [Dir.N, Dir.S, Dir.W, Dir.E].erase ((m.conn p).headD .N)
      let sh := shuffleO r directionList
      match tryDirs m p sh.1 with
      | .ok m' => .ok (m', sh.2)
      | .error e => .error e
    else .ok (m, r)

/-- Dead-end removal pass: `deadStep` over every tile in row-major order. -/
def braidDeadEnds (m : MS) (r : RNG) : Except MErr (MS × RNG) :=
  (gridList m).foldl deadStep (.ok (m, r))

/-- One tile of the loop-injection pass (`weightBraid` in `[0, 100]`): the
tile draws a uniform value and, if selected, tries one extra connection among
the directions it does not already have. -/
def loopStep (weightBraid : Int) (acc : Except MErr (MS × RNG)) (p : Pos) :
    Except MErr (MS × RNG) :=
  match acc with
  | .error e => .error e
  | .ok (m, r) =>
    let q : Int := (rhead r % 1000 : Nat)
    let r1 := rtail r
    if 10 * weightBraid ≥ q then
      let directionList :=
        (m.conn p).foldl (fun l c => l.erase c) [Dir.N, Dir.S, Dir.W, Dir.E]
      let sh := shuffleO r1 directionList
      match tryDirs m p sh.1 with
      | .ok m' => .ok (m', sh.2)
      | .error e => .error e
    else .ok (m, r1)

/-- Loop-injection pass: `loopStep` over every tile in row-major order. -/
def braidLoops (m : MS) (weightBraid : Int) (r : RNG) : Except MErr (MS × RNG) :=
  (gridList m).foldl (loopStep weightBraid) (.ok (m, r))

/-- `makeMazeBraided`: guard against unformed mazes, validate the weight,
then run the dead-end-removal or loop-injection pass. -/
def makeMazeBraided (m : MS) (weightBraid : Int) (r : RNG) : Except MErr (MS × RNG) :=
  if ¬ m.mazeIsDone then .error ⟨"Maze needs to be formed first", 4⟩
  else if weightBraid < -1 ∨ weightBraid > 100 then .error ⟨"weightBraid has to be >= -1", 1⟩
  else if weightBraid = -1 then braidDeadEnds m r
  else braidLoops m weightBraid r

/-- A mixed string/int cell of the distance-annotated export grid. -/
inductive DVal : Type where
  | ch (c : Char)
  | num (n : Int)
deriving DecidableEq, Repr

/-- A record cell of the detailed export grid (`index`, `distance` and the
four neighbour booleans). -/
structure DetCell where
  index : Char
  distance : Option Int
  n : Bool
  s : Bool
  w : Bool
  e : Bool
deriving DecidableEq, Repr

/-- The display coordinate of a tile's centre: `(X+1)*2-1`, `(Y+1)*2-1`. -/
def tileCenter (p : Pos) : Pos := ((p.1 + 1) * 2 - 1, (p.2 + 1) * 2 - 1)

/-- Materialise a display-grid function into the exported nested list:
`sizeY*2+1` rows of `sizeX*2+1` cells. -/
def matGrid {α : Type} (m : MS) (g : Pos → α) : List (List α) :=
  (List.range (m.sizeY * 2 + 1).toNat).map
    (fun y => (List.range (m.sizeX * 2 + 1).toNat).map (fun x => g (((x : Nat) : Int), ((y : Nat) : Int))))

/-- One tile's marking step of `get_maze_as_list`: open the centre cell, then
for each connection open the adjacent display cell, classifying it as
start/end when the tile is entry/exit and the cell lies on the display
border. -/
def markTile (m : MS) (g : Pos → Char) (p : Pos) : Pos → Char :=
  let c := tileCenter p
  let g1 := Function.update g c ' '
  (m.conn p).foldl
    (fun g d =>
      let t := target c d
      let v :=
        if (m.isEntry p).isSome ∧
            (t.2 = 0 ∨ t.2 = m.sizeY * 2 ∨ t.1 = 0 ∨ t.1 = m.sizeX * 2) then
          if m.isEntry p = some true then 'S' else 'E'
        else ' '
      Function.update g t v)
    g1

/-- The fully marked symbolic display grid of `get_maze_as_list`. -/
def symGrid (m : MS) : Pos → Char :=
  (gridList m).foldl (markTile m) (fun _ => '#')

/-- `get_maze_as_list`: guard, then the marked symbolic grid as a nested
list. -/
def get_maze_as_list (m : MS) : Except MErr (List (List Char)) :=
  if ¬ m.mazeIsDone then .error ⟨"Maze needs to be formed first", 4⟩
  else .ok (matGrid m (symGrid m))

/-- The marking phase of `get_maze_with_distances`: the same cell writes as
`get_maze_as_list`, additionally recording the display position of the last
`S` cell written. -/
def markTileD (m : MS) (st : (Pos → Char) × Option Pos) (p : Pos) :
    (Pos → Char) × Option Pos :=
  let c := tileCenter p
  let g1 := Function.update st.1 c ' '
  (m.conn p).foldl
    (fun st d =>
      let t := target c d
      if (m.isEntry p).isSome ∧
          (t.2 = 0 ∨ t.2 = m.sizeY * 2 ∨ t.1 = 0 ∨ t.1 = m.sizeX * 2) then
        if m.isEntry p = some true then (Function.update st.1 t 'S', some t)
        else (Function.update st.1 t 'E', st.2)
      else (Function.update st.1 t ' ', st.2))
    (g1, st.2)

/-- Marked grid and recorded start position of `get_maze_with_distances`. -/
def distMark (m : MS) : (Pos → Char) × Option Pos :=
  (gridList m).foldl (markTileD m) ((fun _ => '#'), none)

/-- The BFS of `get_maze_with_distances` over the display grid: pop from the
front, record the popped cell's distance, and enqueue in-bounds unvisited `' '`
neighbours in the order N, S, W, E. -/
def bfsD (g : Pos → Char) (W H : Int) :
    Nat → List (Pos × Int) → List Pos → List (Pos × Int) → List (Pos × Int)
  | 0, _, _, dist => dist
  | _ + 1, [], _, dist => dist
  | fuel + 1, (p, d) :: rest, visited, dist =>
    let dist1 := dist ++ [(p, d)]
    let res :=
      [((-1 : Int), (0 : Int)), (1, 0), (0, -1), (0, 1)].foldl
        (fun (acc : List (Pos × Int) × List Pos) off =>
          let q := (p.1 + off.2, p.2 + off.1)
          if 0 ≤ q.1 ∧ q.1 < W ∧ 0 ≤ q.2 ∧ q.2 < H ∧ g q = ' ' ∧ ¬ q ∈ acc.2 then
            (acc.1 ++ [(q, d + 1)], acc.2 ++ [q])
          else acc)
        (rest, visited)
    bfsD g W H fuel res.1 res.2 dist1

/-- The final cell value of the distance grid: recorded distance, `-1` for an
unreached non-wall non-end cell, otherwise the symbolic character. -/
def distVal (g : Pos → Char) (dist : List (Pos × Int)) (p : Pos) : DVal :=
  match dist.lookup p with
  | some d => .num d
  | none => if g p ≠ '#' ∧ g p ≠ 'E' then .num (-1) else .ch (g p)

/-- `get_maze_with_distances`: guard, marking, start lookup (errorcode 5 when
missing), display BFS, then the filled grid. -/
def get_maze_with_distances (m : MS) : Except MErr (List (List DVal)) :=
  if ¬ m.mazeIsDone then .error ⟨"Maze needs to be formed first", 4⟩
  else
    let mk := distMark m
    match mk.2 with
    | none => .error ⟨"Could not find start position", 5⟩
    | some sp =>
      let W := m.sizeX * 2 + 1
      let H := m.sizeY * 2 + 1
      let dist := bfsD mk.1 W H (W * H + 2).toNat [(sp, 0)] [sp] []
      .ok (matGrid m (fun p => distVal mk.1 dist p))

/-- The marking phase of `get_maze_detailed_info`: like the symbolic marking
but through the `index` field, with the source's explicit bounds check, its
coordinate-based border test, its first-write-wins start recording, and its
`elif == '#'` guard on plain path writes. -/
def markTileDet (m : MS) (st : (Pos → DetCell) × Option Pos) (p : Pos) :
    (Pos → DetCell) × Option Pos :=
  let c := tileCenter p
  let g1 := Function.update st.1 c { st.1 c with index := ' ' }
  (m.conn p).foldl
    (fun (st : (Pos → DetCell) × Option Pos) d =>
      let t := target c d
      if 0 ≤ t.1 ∧ t.1 < m.sizeX * 2 + 1 ∧ 0 ≤ t.2 ∧ t.2 < m.sizeY * 2 + 1 then
        let isBorder :=
          (m.isEntry p).isSome ∧
            ((d = .N ∧ p.2 = 0) ∨ (d = .S ∧ p.2 = m.sizeY - 1) ∨
             (d = .W ∧ p.1 = 0) ∨ (d = .E ∧ p.1 = m.sizeX - 1))
        if isBorder then
          if m.isEntry p = some true then
            (Function.update st.1 t { st.1 t with index := 'S' },
             if st.2 = none then some t else st.2)
          else (Function.update st.1 t { st.1 t with index := 'E' }, st.2)
        else if (st.1 t).index = '#' then
          (Function.update st.1 t { st.1 t with index := ' ' }, st.2)
        else st
      else st)
    (g1, st.2)

/-- Marked detailed grid and recorded start position. -/
def detMark (m : MS) : (Pos → DetCell) × Option Pos :=
  (gridList m).foldl (markTileDet m)
    ((fun _ => { index := '#', distance := none, n := false, s := false, w := false, e := false }),
     none)

/-- The display positions in the row-major order of the source's fallback
start scan. -/
def dispList (m : MS) : List Pos :=
  (List.range (m.sizeY * 2 + 1).toNat).flatMap
    (fun y => (List.range (m.sizeX * 2 + 1).toNat).map (fun x => (((x : Nat) : Int), ((y : Nat) : Int))))

/-- The BFS of `get_maze_detailed_info`: distances are recorded at discovery
time (the start is pre-seeded with 0), neighbours qualify when their `index`
is `' '` or `'E'`. -/
def bfsDet (g : Pos → DetCell) (W H : Int) :
    Nat → List (Pos × Int) → List Pos → List (Pos × Int) → List (Pos × Int)
  | 0, _, _, dist => dist
  | _ + 1, [], _, dist => dist
  | fuel + 1, (p, d) :: rest, visited, dist =>
    let res :=
      [((-1 : Int), (0 : Int)), (1, 0), (0, -1), (0, 1)].foldl
        (fun (acc : List (Pos × Int) × List Pos × List (Pos × Int)) off =>
          let q := (p.1 + off.2, p.2 + off.1)
          if 0 ≤ q.1 ∧ q.1 < W ∧ 0 ≤ q.2 ∧ q.2 < H ∧
              ((g q).index = ' ' ∨ (g q).index = 'E') ∧ ¬ q ∈ acc.2.1 then
            (acc.1 ++ [(q, d + 1)], acc.2.1 ++ [q], acc.2.2 ++ [(q, d + 1)])
          else acc)
        (rest, visited, dist)
    bfsDet g W H fuel res.1 res.2.1 res.2.2

/-- The final cell of the detailed grid: distance filled from the BFS map
(`-1` for unreached path cells), and the four booleans read off the
neighbouring cells' `index` fields. -/
def detVal (g : Pos → DetCell) (dist : List (Pos × Int)) (W H : Int) (p : Pos) : DetCell :=
  let c := g p
  let pathIdx := fun (q : Pos) =>
    (g q).index = ' ' ∨ (g q).index = 'S' ∨ (g q).index = 'E'
  { index := c.index
    distance :=
      match dist.lookup p with
      | some d => some d
      | none => if c.index = ' ' then some (-1) else c.distance
    n := decide (0 < p.2 ∧ pathIdx (p.1, p.2 - 1))
    s := decide (p.2 < H - 1 ∧ pathIdx (p.1, p.2 + 1))
    w := decide (0 < p.1 ∧ pathIdx (p.1 - 1, p.2))
    e := decide (p.1 < W - 1 ∧ pathIdx (p.1 + 1, p.2)) }

/-- `get_maze_detailed_info`: guard, marking, start recovery (with the
fallback row-major scan for an `S` cell, errorcode 5 when none), discovery
BFS seeded with distance 0, then the filled grid. -/
def get_maze_detailed_info (m : MS) : Except MErr (List (List DetCell)) :=
  if ¬ m.mazeIsDone then .error ⟨"Maze needs to be formed first", 4⟩
  else
    let mk := detMark m
    let sp? :=
      match mk.2 with
      | some sp => some sp
      | none => (dispList m).find? (fun p => (mk.1 p).index = 'S')
    match sp? with
    | none => .error ⟨"Could not find start position for detailed info", 5⟩
    | some sp =>
      let W := m.sizeX * 2 + 1
      let H := m.sizeY * 2 + 1
      let dist := bfsDet mk.1 W H (W * H + 2).toNat [(sp, 0)] [sp] [(sp, 0)]
      .ok (matGrid m (fun p => detVal mk.1 dist W H p))

/-- `makePP`, modelled up to its guard and scalar validation; the Pillow
image is abstracted to its pixel size (colour validation is part of the
external rendering adapter and out of the spec's scope). -/
def makePP (m : MS) (mode : String) (pixelSizeOfTile : Int) : Except MErr (Int × Int) :=
  if ¬ m.mazeIsDone then .error ⟨"There is no Maze yet", 4⟩
  else if mode ≠ "1" ∧ mode ≠ "RGB" then
    .error ⟨"The mode was not recognized. Only 1 or RGB are allowed", 1⟩
  else if pixelSizeOfTile ≤ 0 then
    .error ⟨"the size of the tiles has to be an integer > 0", 1⟩
  else .ok (pixelSizeOfTile * (m.sizeX * 2 + 1), pixelSizeOfTile * (m.sizeY * 2 + 1))

/-- Replace the value under a key, or append the pair: one step of
`dict.update`. -/
def setKey (l : List (String × Int)) (k : String) (v : Int) : List (String × Int) :=
  if l.any (fun e => e.1 = k) then l.map (fun e => if e.1 = k then (k, v) else e)
  else l ++ [(k, v)]

/-- `default_algo_settings` after `update(algorithm_settings)`.  The defaults
are spelled exactly as in the source: the high-weight key is `"weighHigh"`. -/
def mergedAlgoSettings (algorithm_settings : Option (List (String × Int))) :
    List (String × Int) :=
  let defaults := [("weighHigh", (99 : Int)), ("weightLow", 97), ("weightBraid", -1)]
  match algorithm_settings with
  | none => defaults
  | some s => s.foldl (fun acc kv => setKey acc kv.1 kv.2) defaults

/-- Dictionary read (all reads in `generate_maze` hit keys present in the
defaults). -/
def dictGet (l : List (String × Int)) (k : String) : Int :=
  ((l.find? (fun e => e.1 = k)).map Prod.snd).getD 0

/-- The weight pair `generate_maze` passes to `makeMazeGrowTree`:
`default_algo_settings['weighHigh']` and `default_algo_settings['weightLow']`
after the caller's overrides. -/
def growTreeArgs (algorithm_settings : Option (List (String × Int))) : Int × Int :=
  (dictGet (mergedAlgoSettings algorithm_settings) "weighHigh",
   dictGet (mergedAlgoSettings algorithm_settings) "weightLow")

/-- The weight `generate_maze` passes to `makeMazeBraided`:
`default_algo_settings['weightBraid']` after the caller's overrides. -/
def braidArg (algorithm_settings : Option (List (String × Int))) : Int :=
  dictGet (mergedAlgoSettings algorithm_settings) "weightBraid"

/-- The pseudo-random stream determined by `rnd.seed(seed)`; any fixed
function of the seed is a faithful abstraction of the Mersenne Twister. -/
def seedStream (k : Int) : RNG := fun n => k.natAbs + 2 * n + 1

/-- The possible results of `generate_maze`, one constructor per `mode`. -/
inductive GenOut : Type where
  | lst (g : List (List Char))
  | dct (g : List (List DetCell))
  | dst (g : List (List DVal))
  | img (size : Int × Int)
deriving DecidableEq

/-- `generate_maze`: construct the maze (seeding the stream when a seed is
given), set the walls, run the selected algorithm and export by `mode`.  An
unrecognised algorithm string leaves the maze unformed, exactly as in the
source. -/
def generate_maze (width height : Int) (algorithm : String)
    (algorithm_settings : Option (List (String × Int))) (mode : String)
    (start_wall end_wall : String) (seed : Option Int) (g : RNG) (fuel : Nat) :
    Option (Except MErr GenOut) :=
  if width < 1 ∨ height < 1 then
    some (.error ⟨"Maze dimensions have to be an integer > 0", 1⟩)
  else
    let m := { initMaze width height with start_wall := start_wall, end_wall := end_wall }
    let r : RNG := match seed with | some k => seedStream k | none => g
    let formed : Option (Except MErr (MS × RNG)) :=
      if algorithm = "simple" then makeMazeSimple m r fuel
      else if algorithm = "growing_tree" then
        makeMazeGrowTree m (growTreeArgs algorithm_settings).1
          (growTreeArgs algorithm_settings).2 r fuel
      else if algorithm = "braided" then
        match makeMazeGrowTree m (growTreeArgs algorithm_settings).1
            (growTreeArgs algorithm_settings).2 r fuel with
        | none => none
        | some (.error e) => some (.error e)
        | some (.ok (m2, r2)) => some (makeMazeBraided m2 (braidArg algorithm_settings) r2)
      else some (.ok (m, r))
    match formed with
    | none => none
    | some (.error e) => some (.error e)
    | some (.ok (m2, _)) =>
      if mode = "list" then some ((get_maze_as_list m2).map .lst)
      else if mode = "dict" then some ((get_maze_detailed_info m2).map .dct)
      else if mode = "distances" then some ((get_maze_with_distances m2).map .dst)
      else some ((makePP m2 "RGB" 10).map .img)

/-!
## The tile connectivity graph
-/

/-- Two in-grid positions joined by one compass step (the grid graph). -/
def GridAdj (m : MS) (p q : Pos) : Prop :=
  InGrid m p ∧ InGrid m q ∧ ∃ d : Dir, target p d = q

/-- One step along a stored connection between in-grid tiles. -/
def ConnStep (m : MS) (p q : Pos) : Prop :=
  InGrid m p ∧ InGrid m q ∧ ∃ d ∈ m.conn p, target p d = q

/-- Reachability in the tile connectivity graph. -/
def Reaches (m : MS) : Pos → Pos → Prop := Relation.ReflTransGen (ConnStep m)

/-- The connectivity graph is connected over the whole grid. -/
def ConnectedMaze (m : MS) : Prop :=
  ∀ p q : Pos, InGrid m p → InGrid m q → Reaches m p q

/-- The grid positions as a finset. -/
def gridFinset (m : MS) : Finset Pos :=
  ((Finset.range m.sizeX.toNat) ×ˢ (Finset.range m.sizeY.toNat)).image
    (fun ab => ((ab.1 : Int), (ab.2 : Int)))

/-- The undirected edges of the connectivity graph, each represented once by
its north/west endpoint: pairs `(p, q)` of in-grid tiles with `q` one step
south or east of `p` and the corresponding direction stored on `p`.  Outward
entry/exit openings have no in-grid endpoint and are excluded by
construction. -/
def edgeFinset (m : MS) : Finset (Pos × Pos) :=
  ((gridFinset m) ×ˢ (gridFinset m)).filter
    (fun pq => (Dir.S ∈ m.conn pq.1 ∧ pq.2 = target pq.1 .S) ∨
               (Dir.E ∈ m.conn pq.1 ∧ pq.2 = target pq.1 .E))

/-- The visited tiles as a finset. -/
def visitedFinset (m : MS) : Finset Pos :=
  (gridFinset m).filter (fun p => m.workedOn p = true)

/-- The unvisited tiles as a finset (the termination measure's core). -/
def unvisitedFinset (m : MS) : Finset Pos :=
  (gridFinset m).filter (fun p => m.workedOn p = false)


/-!
## Basic lemmas about directions, the grid and the primitive operations
-/

theorem opp_opp (d : Dir) : d.opp.opp = d := by cases d <;> rfl

theorem target_opp (p : Pos) (d : Dir) : target (target p d) d.opp = p := by
  obtain ⟨a, b⟩ := p
  cases d <;> simp [target, Dir.opp]

theorem target_ne (p : Pos) (d : Dir) : target p d ≠ p := by
  obtain ⟨a, b⟩ := p
  cases d <;> simp [target, Prod.ext_iff] <;> omega

theorem target_dir_inj {p : Pos} {d1 d2 : Dir} (h : target p d1 = target p d2) : d1 = d2 := by
  obtain ⟨a, b⟩ := p
  cases d1 <;> cases d2 <;> simp_all [target, Prod.ext_iff] <;> omega

theorem mem_gridList {m : MS} {p : Pos} : p ∈ gridList m ↔ InGrid m p := by
  obtain ⟨a, b⟩ := p
  simp only [gridList, List.mem_flatMap, List.mem_map, List.mem_range, InGrid, Prod.mk.injEq]
  constructor
  · rintro ⟨y, hy, x, hx, rfl, rfl⟩
    refine ⟨?_, ?_, ?_, ?_⟩ <;> omega
  · rintro ⟨h1, h2, h3, h4⟩
    exact ⟨b.toNat, by omega, a.toNat, by omega, by omega, by omega⟩

theorem nodup_gridList (m : MS) : (gridList m).Nodup := by
  rw [gridList, List.nodup_flatMap]
  constructor
  · intro y _
    refine List.Nodup.map ?_ (List.nodup_range _)
    intro u v h
    have h1 := (Prod.mk.injEq .. ▸ h).1
    omega
  · refine (List.nodup_range _).imp ?_
    intro y1 y2 hne
    intro p hp1 hp2
    simp only [List.mem_map, List.mem_range] at hp1 hp2
    obtain ⟨x1, _, rfl⟩ := hp1
    obtain ⟨x2, _, h⟩ := hp2
    have h2 := (Prod.mk.injEq .. ▸ h).2
    exact hne (by omega)

theorem mem_gridFinset {m : MS} {p : Pos} : p ∈ gridFinset m ↔ InGrid m p := by
  obtain ⟨a, b⟩ := p
  simp only [gridFinset, Finset.mem_image, Finset.mem_product, Finset.mem_range, InGrid,
    Prod.mk.injEq, Prod.exists]
  constructor
  · rintro ⟨x, y, ⟨hx, hy⟩, rfl, rfl⟩
    refine ⟨?_, ?_, ?_, ?_⟩ <;> omega
  · rintro ⟨h1, h2, h3, h4⟩
    exact ⟨a.toNat, b.toNat, ⟨by omega, by omega⟩, by omega, by omega⟩

theorem card_gridFinset (m : MS) : (gridFinset m).card = m.sizeX.toNat * m.sizeY.toNat := by
  rw [gridFinset, Finset.card_image_of_injective, Finset.card_product, Finset.card_range,
    Finset.card_range]
  intro u v h
  have h1 := (Prod.mk.injEq .. ▸ h).1
  have h2 := (Prod.mk.injEq .. ▸ h).2
  exact Prod.ext (by exact_mod_cast h1) (by exact_mod_cast h2)

theorem mem_nextTiles {m : MS} {p q : Pos} (hp : InGrid m p) :
    q ∈ nextTiles m p ↔ InGrid m q ∧ ∃ d : Dir, target p d = q := by
  obtain ⟨a, b⟩ := p
  obtain ⟨q1, q2⟩ := q
  obtain ⟨hx0, hx1, hy0, hy1⟩ := hp
  simp only [nextTiles, List.mem_append, List.mem_ite_nil_right, List.mem_singleton,
    Prod.mk.injEq] at *
  constructor
  · rintro (((⟨h, rfl, rfl⟩ | ⟨h, rfl, rfl⟩) | ⟨h, rfl, rfl⟩) | ⟨h, rfl, rfl⟩)
    · exact ⟨⟨hx0, hx1, by omega, by omega⟩, .N, rfl⟩
    · exact ⟨⟨hx0, hx1, by omega, by omega⟩, .S, rfl⟩
    · exact ⟨⟨by omega, by omega, hy0, hy1⟩, .W, rfl⟩
    · exact ⟨⟨by omega, by omega, hy0, hy1⟩, .E, rfl⟩
  · rintro ⟨⟨hq1, hq2, hq3, hq4⟩, d, hd⟩
    cases d with
    | N =>
      simp only [target, Prod.mk.injEq] at hd
      obtain ⟨rfl, rfl⟩ := hd
      exact Or.inl (Or.inl (Or.inl ⟨by omega, rfl, rfl⟩))
    | S =>
      simp only [target, Prod.mk.injEq] at hd
      obtain ⟨rfl, rfl⟩ := hd
      exact Or.inl (Or.inl (Or.inr ⟨by omega, rfl, rfl⟩))
    | W =>
      simp only [target, Prod.mk.injEq] at hd
      obtain ⟨rfl, rfl⟩ := hd
      exact Or.inl (Or.inr ⟨by omega, rfl, rfl⟩)
    | E =>
      simp only [target, Prod.mk.injEq] at hd
      obtain ⟨rfl, rfl⟩ := hd
      exact Or.inr ⟨by omega, rfl, rfl⟩

theorem nodup_nextTiles (m : MS) (p : Pos) : (nextTiles m p).Nodup := by
  obtain ⟨a, b⟩ := p
  unfold nextTiles
  split <;> split <;> split <;> split <;>
    simp [List.nodup_cons, List.nodup_append, List.disjoint_singleton, Prod.mk.injEq] <;> omega

theorem length_nextTiles_le (m : MS) (p : Pos) : (nextTiles m p).length ≤ 4 := by
  unfold nextTiles
  split <;> split <;> split <;> split <;> simp

theorem self_not_mem_nextTiles (m : MS) (p : Pos) : p ∉ nextTiles m p := by
  intro h
  obtain ⟨a, b⟩ := p
  simp only [nextTiles, List.mem_append, List.mem_ite_nil_right, List.mem_singleton,
    Prod.mk.injEq] at h
  rcases h with (((⟨_, _, h⟩ | ⟨_, _, h⟩) | ⟨_, h, _⟩) | ⟨_, h, _⟩) <;> omega

theorem conn_appendConn (m : MS) (p : Pos) (d : Dir) (q : Pos) :
    (appendConn m p d).conn q = if q = p then m.conn q ++ [d] else m.conn q := by
  by_cases h : q = p
  · subst h; simp [appendConn, Function.update_same]
  · simp [appendConn, Function.update_noteq h, h]

theorem appendConn_frame (m : MS) (p : Pos) (d : Dir) :
    (appendConn m p d).sizeX = m.sizeX ∧ (appendConn m p d).sizeY = m.sizeY ∧
    (appendConn m p d).workedOn = m.workedOn ∧ (appendConn m p d).isEntry = m.isEntry ∧
    (appendConn m p d).mazeIsDone = m.mazeIsDone ∧
    (appendConn m p d).start_wall = m.start_wall ∧ (appendConn m p d).end_wall = m.end_wall := by
  simp [appendConn]

/-- `__connectTiles` on two tiles one step apart appends the facing pair. -/
theorem connectTiles_target (m : MS) (a : Pos) (d : Dir) :
    connectTiles m a (target a d) = appendConn (appendConn m a d) (target a d) d.opp := by
  obtain ⟨x, y⟩ := a
  cases d with
  | N =>
    simp [connectTiles, target, Dir.opp, show ¬(y < y - 1) by omega, show y > y - 1 by omega]
  | S =>
    simp [connectTiles, target, Dir.opp, show y < y + 1 by omega]
  | W =>
    simp [connectTiles, target, Dir.opp, show ¬(x = x - 1) by omega, show ¬(x < x - 1) by omega]
  | E =>
    simp [connectTiles, target, Dir.opp, show ¬(x = x + 1) by omega, show x < x + 1 by omega]

/-!
## Reachability lemmas
-/

theorem rtg_symm {α : Type} {R : α → α → Prop} (hsym : ∀ x y, R x y → R y x) {a b : α}
    (h : Relation.ReflTransGen R a b) : Relation.ReflTransGen R b a := by
  induction h with
  | refl => exact .refl
  | tail _ hstep ih => exact Relation.ReflTransGen.head (hsym _ _ hstep) ih

theorem rtg_closed {α : Type} {R : α → α → Prop} {W : α → Prop}
    (hclosed : ∀ u v, W u → R u v → W v) {a b : α} (h : Relation.ReflTransGen R a b)
    (ha : W a) : W b := by
  induction h with
  | refl => exact ha
  | tail _ hstep ih => exact hclosed _ _ ih hstep

theorem gridAdj_symm {m : MS} {p q : Pos} (h : GridAdj m p q) : GridAdj m q p := by
  obtain ⟨hp, hq, d, rfl⟩ := h
  exact ⟨hq, hp, d.opp, target_opp p d⟩

theorem connStep_gridAdj {m : MS} {p q : Pos} (h : ConnStep m p q) : GridAdj m p q := by
  obtain ⟨hp, hq, d, _, rfl⟩ := h
  exact ⟨hp, hq, d, rfl⟩

/-- Growing the connection lists (sizes unchanged) preserves reachability. -/
theorem reaches_mono {m m' : MS} (hx : m'.sizeX = m.sizeX) (hy : m'.sizeY = m.sizeY)
    (hconn : ∀ p, ∀ d ∈ m.conn p, d ∈ m'.conn p) {p q : Pos} (h : Reaches m p q) :
    Reaches m' p q := by
  refine Relation.ReflTransGen.mono ?_ h
  intro u v ⟨hu, hv, d, hd, ht⟩
  refine ⟨?_, ?_, d, hconn u d hd, ht⟩ <;>
    · unfold InGrid at *
      rw [hx, hy]
      assumption

/-- If every stored direction has a symmetric partner, reachability is
symmetric. -/
theorem reaches_symm {m : MS}
    (hsym : ∀ p d, d ∈ m.conn p → d.opp ∈ m.conn (target p d)) {p q : Pos}
    (h : Reaches m p q) : Reaches m q p := by
  refine rtg_symm ?_ h
  intro u v ⟨hu, hv, d, hd, ht⟩
  refine ⟨hv, hu, d.opp, ?_, ?_⟩
  · rw [← ht]; exact hsym u d hd
  · rw [← ht]; exact target_opp u d

/-- The full grid graph is connected: first along the row, then the column. -/
theorem grid_connected {m : MS} {p q : Pos} (hp : InGrid m p) (hq : InGrid m q) :
    Relation.ReflTransGen (GridAdj m) p q := by
  have key : ∀ s : Pos, InGrid m s → Relation.ReflTransGen (GridAdj m) (0, 0) s := by
    rintro ⟨a, b⟩ ⟨ha0, ha1, hb0, hb1⟩
    have hx : ∀ n : Nat, ((n : Int)) < m.sizeX →
        Relation.ReflTransGen (GridAdj m) (0, 0) (((n : Int)), 0) := by
      intro n
      induction n with
      | zero => intro _; exact .refl
      | succ k ih =>
        intro hlt
        have hc : (((k + 1 : Nat) : Int)) = ((k : Int)) + 1 := by push_cast; ring
        rw [hc] at hlt ⊢
        refine Relation.ReflTransGen.tail (ih (by omega)) ?_
        exact ⟨⟨by omega, by omega, by omega, by omega⟩,
          ⟨by omega, by omega, by omega, by omega⟩, .E, rfl⟩
    have hy : ∀ n : Nat, ((n : Int)) < m.sizeY →
        Relation.ReflTransGen (GridAdj m) (a, 0) (a, ((n : Int))) := by
      intro n
      induction n with
      | zero => intro _; exact .refl
      | succ k ih =>
        intro hlt
        have hc : (((k + 1 : Nat) : Int)) = ((k : Int)) + 1 := by push_cast; ring
        rw [hc] at hlt ⊢
        refine Relation.ReflTransGen.tail (ih (by omega)) ?_
        exact ⟨⟨by omega, by omega, by omega, by omega⟩,
          ⟨by omega, by omega, by omega, by omega⟩, .S, rfl⟩
    have ha : ((a.toNat : Nat) : Int) = a := by omega
    have hb : ((b.toNat : Nat) : Int) = b := by omega
    have h1 := hx a.toNat (by omega)
    have h2 := hy b.toNat (by omega)
    rw [ha] at h1
    rw [hb] at h2
    exact h1.trans h2
  exact (rtg_symm (fun x y h => gridAdj_symm h) (key p hp)).trans (key q hq)

/-!
## The formation invariant

Both generation algorithms grow a spanning tree by repeatedly connecting one
fresh tile to one already-visited tile; `FormInv` is the state invariant they
share, and `formInv_step` is the effect of one connect step.
-/

structure FormInv (m : MS) : Prop where
  outside : ∀ p : Pos, ¬ InGrid m p → m.conn p = [] ∧ m.workedOn p = false
  internal : ∀ p d, d ∈ m.conn p → InGrid m p ∧ InGrid m (target p d)
  symm : ∀ p d, d ∈ m.conn p → d.opp ∈ m.conn (target p d)
  nodupC : ∀ p, (m.conn p).Nodup
  connVisited : ∀ p, m.conn p ≠ [] → m.workedOn p = true
  visConn : ∀ p q, m.workedOn p = true → m.workedOn q = true → Reaches m p q
  count : (edgeFinset m).card + 1 = (visitedFinset m).card
  noEntry : ∀ p, m.isEntry p = none

theorem mem_edgeFinset {m : MS} {pq : Pos × Pos} :
    pq ∈ edgeFinset m ↔ InGrid m pq.1 ∧ InGrid m pq.2 ∧
      ((Dir.S ∈ m.conn pq.1 ∧ pq.2 = target pq.1 .S) ∨
       (Dir.E ∈ m.conn pq.1 ∧ pq.2 = target pq.1 .E)) := by
  simp only [edgeFinset, Finset.mem_filter, Finset.mem_product, mem_gridFinset, and_assoc]

/-- The state after marking the fresh tile `t` and connecting it, in either
argument order, to the visited tile one step in direction `d`. -/
def connectNew (m : MS) (t : Pos) (d : Dir) : MS :=
  appendConn (appendConn { m with workedOn := Function.update m.workedOn t true } t d)
    (target t d) d.opp

theorem connectNew_conn (m : MS) (t : Pos) (d : Dir) (p : Pos) :
    (connectNew m t d).conn p =
      if p = target t d then m.conn (target t d) ++ [d.opp]
      else if p = t then m.conn t ++ [d] else m.conn p := by
  have hne := target_ne t d
  by_cases h1 : p = target t d
  · subst h1
    simp [connectNew, conn_appendConn, hne]
  · by_cases h2 : p = t
    · subst h2
      simp [connectNew, conn_appendConn, h1, Ne.symm hne]
    · simp [connectNew, conn_appendConn, h1, h2]

theorem appendConn_comm (m : MS) {p q : Pos} (h : p ≠ q) (dp dq : Dir) :
    appendConn (appendConn m p dp) q dq = appendConn (appendConn m q dq) p dp := by
  obtain ⟨sx, sy, co, wo, ie, dn, sw, ew⟩ := m
  simp only [appendConn]
  congr 1
  rw [Function.update_noteq (Ne.symm h), Function.update_noteq h]
  exact Function.update_comm h _ _ _

theorem connectNew_workedOn (m : MS) (t : Pos) (d : Dir) :
    (connectNew m t d).workedOn = Function.update m.workedOn t true := by
  simp [connectNew, appendConn]

theorem connectNew_frame (m : MS) (t : Pos) (d : Dir) :
    (connectNew m t d).sizeX = m.sizeX ∧ (connectNew m t d).sizeY = m.sizeY ∧
    (connectNew m t d).isEntry = m.isEntry ∧
    (connectNew m t d).mazeIsDone = m.mazeIsDone ∧
    (connectNew m t d).start_wall = m.start_wall ∧
    (connectNew m t d).end_wall = m.end_wall := by
  simp [connectNew, appendConn]

theorem inGrid_connectNew (m : MS) (t : Pos) (d : Dir) (p : Pos) :
    InGrid (connectNew m t d) p ↔ InGrid m p := by
  simp [InGrid, connectNew, appendConn]

theorem connectTiles_fresh_first (m : MS) (t : Pos) (d : Dir) :
    connectTiles { m with workedOn := Function.update m.workedOn t true } t (target t d) =
      connectNew m t d :=
  connectTiles_target _ t d

theorem connectTiles_fresh_second (m : MS) (t : Pos) (d : Dir) :
    connectTiles { m with workedOn := Function.update m.workedOn t true } (target t d) t =
      connectNew m t d := by
  have h2 := connectTiles_target { m with workedOn := Function.update m.workedOn t true }
    (target t d) d.opp
  rw [target_opp, opp_opp] at h2
  rw [h2]
  exact appendConn_comm _ (target_ne t d) d.opp d

theorem gridFinset_congr {m m' : MS} (hx : m'.sizeX = m.sizeX) (hy : m'.sizeY = m.sizeY) :
    gridFinset m' = gridFinset m := by
  simp [gridFinset, hx, hy]

/-- A north/west append adds no represented edge. -/
theorem edgeFinset_appendConn_nw (m : MS) (p : Pos) (d : Dir) (hNW : d = Dir.N ∨ d = Dir.W) :
    edgeFinset (appendConn m p d) = edgeFinset m := by
  have hgrid : ∀ q, InGrid (appendConn m p d) q ↔ InGrid m q := by
    intro q; simp [InGrid, appendConn]
  ext ⟨a, b⟩
  simp only [mem_edgeFinset, hgrid, conn_appendConn]
  by_cases hap : a = p
  · subst hap
    rcases hNW with rfl | rfl <;>
      simp [List.mem_append]
  · simp [hap]

/-- A south/east append on a tile that does not yet store that direction adds
exactly the edge it represents. -/
theorem edgeFinset_appendConn_se (m : MS) (p : Pos) (d : Dir) (hSE : d = Dir.S ∨ d = Dir.E)
    (hp : InGrid m p) (ht : InGrid m (target p d)) (hd : d ∉ m.conn p) :
    edgeFinset (appendConn m p d) = insert (p, target p d) (edgeFinset m) := by
  have hgrid : ∀ q, InGrid (appendConn m p d) q ↔ InGrid m q := by
    intro q; simp [InGrid, appendConn]
  ext ⟨a, b⟩
  simp only [mem_edgeFinset, hgrid, conn_appendConn, Finset.mem_insert, Prod.mk.injEq]
  by_cases hap : a = p
  · subst hap
    rw [if_pos rfl]
    simp only [List.mem_append, List.mem_singleton]
    rcases hSE with rfl | rfl
    · constructor
      · rintro ⟨h1, h2, ⟨hS | hSS, rfl⟩ | ⟨hE | hES, rfl⟩⟩
        · exact absurd hS hd
        · exact Or.inl ⟨trivial, rfl⟩
        · exact Or.inr ⟨h1, h2, Or.inr ⟨hE, rfl⟩⟩
        · exact absurd hES (by decide)
      · rintro (⟨-, rfl⟩ | ⟨h1, h2, ⟨hS, rfl⟩ | ⟨hE, rfl⟩⟩)
        · exact ⟨hp, ht, Or.inl ⟨Or.inr rfl, rfl⟩⟩
        · exact absurd hS hd
        · exact ⟨h1, h2, Or.inr ⟨Or.inl hE, rfl⟩⟩
    · constructor
      · rintro ⟨h1, h2, ⟨hS | hSE', rfl⟩ | ⟨hE | hEE, rfl⟩⟩
        · exact Or.inr ⟨h1, h2, Or.inl ⟨hS, rfl⟩⟩
        · exact absurd hSE' (by decide)
        · exact absurd hE hd
        · exact Or.inl ⟨trivial, rfl⟩
      · rintro (⟨-, rfl⟩ | ⟨h1, h2, ⟨hS, rfl⟩ | ⟨hE, rfl⟩⟩)
        · exact ⟨hp, ht, Or.inr ⟨Or.inr rfl, rfl⟩⟩
        · exact ⟨h1, h2, Or.inl ⟨Or.inl hS, rfl⟩⟩
        · exact absurd hE hd
  · simp only [if_neg hap]
    constructor
    · intro h
      exact Or.inr h
    · rintro (⟨rfl, -⟩ | h)
      · exact absurd rfl hap
      · exact h

/-- The edge the connect step adds, represented by its north/west endpoint. -/
def spineEdge (t : Pos) (d : Dir) : Pos × Pos :=
  match d with
  | .S => (t, target t .S)
  | .E => (t, target t .E)
  | .N => (target t .N, t)
  | .W => (target t .W, t)

theorem visitedFinset_connectNew (m : MS) (t : Pos) (d : Dir) (ht : InGrid m t) :
    visitedFinset (connectNew m t d) = insert t (visitedFinset m) := by
  ext q
  simp only [visitedFinset, Finset.mem_filter, Finset.mem_insert, connectNew_workedOn,
    mem_gridFinset]
  have hgrid : ∀ q, InGrid (connectNew m t d) q ↔ InGrid m q := inGrid_connectNew m t d
  by_cases hq : q = t
  · subst hq
    simp [hgrid, Function.update_same, ht]
  · simp [hgrid, Function.update_noteq hq, hq]

theorem unvisitedFinset_connectNew (m : MS) (t : Pos) (d : Dir) :
    unvisitedFinset (connectNew m t d) = (unvisitedFinset m).erase t := by
  ext q
  simp only [unvisitedFinset, Finset.mem_filter, Finset.mem_erase, connectNew_workedOn,
    mem_gridFinset]
  have hgrid : ∀ q, InGrid (connectNew m t d) q ↔ InGrid m q := inGrid_connectNew m t d
  by_cases hq : q = t
  · subst hq
    simp [hgrid, Function.update_same]
  · simp [hgrid, Function.update_noteq hq, hq]

theorem edgeFinset_connectNew (m : MS) (t : Pos) (d : Dir) (ht : InGrid m t)
    (ho : InGrid m (target t d)) (hconnT : m.conn t = [])
    (hoppo : d.opp ∉ m.conn (target t d)) :
    edgeFinset (connectNew m t d) = insert (spineEdge t d) (edgeFinset m) := by
  have hmark : edgeFinset { m with workedOn := Function.update m.workedOn t true } =
      edgeFinset m := rfl
  have hgridm : ∀ q, InGrid { m with workedOn := Function.update m.workedOn t true } q ↔
      InGrid m q := fun q => Iff.rfl
  have hgrid1 : ∀ q, InGrid (appendConn
      { m with workedOn := Function.update m.workedOn t true } t d) q ↔ InGrid m q := by
    intro q; simp [InGrid, appendConn]
  have hconn1 : ∀ q, (appendConn { m with workedOn := Function.update m.workedOn t true }
      t d).conn q = if q = t then m.conn t ++ [d] else m.conn q := by
    intro q
    rw [conn_appendConn]
    split <;> simp_all
  have htne : target t d ≠ t := target_ne t d
  cases d with
  | S =>
    show edgeFinset (appendConn (appendConn _ t Dir.S) (target t Dir.S) Dir.N) = _
    rw [edgeFinset_appendConn_nw _ _ _ (Or.inl rfl),
      edgeFinset_appendConn_se _ _ _ (Or.inl rfl) ((hgridm t).mpr ht) ho (by simp [hconnT]),
      hmark]
    rfl
  | E =>
    show edgeFinset (appendConn (appendConn _ t Dir.E) (target t Dir.E) Dir.W) = _
    rw [edgeFinset_appendConn_nw _ _ _ (Or.inr rfl),
      edgeFinset_appendConn_se _ _ _ (Or.inr rfl) ((hgridm t).mpr ht) ho (by simp [hconnT]),
      hmark]
    rfl
  | N =>
    show edgeFinset (appendConn (appendConn _ t Dir.N) (target t Dir.N) Dir.S) = _
    rw [edgeFinset_appendConn_se _ _ _ (Or.inl rfl) ((hgrid1 _).mpr ho)
        (by rw [show target (target t Dir.N) Dir.S = t from target_opp t Dir.N]
            exact (hgrid1 t).mpr ht)
        (by rw [hconn1, if_neg htne]
            exact hoppo),
      edgeFinset_appendConn_nw _ _ _ (Or.inl rfl), hmark]
    rw [show target (target t Dir.N) Dir.S = t from target_opp t Dir.N]
    rfl
  | W =>
    show edgeFinset (appendConn (appendConn _ t Dir.W) (target t Dir.W) Dir.E) = _
    rw [edgeFinset_appendConn_se _ _ _ (Or.inr rfl) ((hgrid1 _).mpr ho)
        (by rw [show target (target t Dir.W) Dir.E = t from target_opp t Dir.W]
            exact (hgrid1 t).mpr ht)
        (by rw [hconn1, if_neg htne]
            exact hoppo),
      edgeFinset_appendConn_nw _ _ _ (Or.inr rfl), hmark]
    rw [show target (target t Dir.W) Dir.E = t from target_opp t Dir.W]
    rfl

/-- One connect step of either algorithm: the invariant is preserved, the
fresh tile joins the visited set, and the edge and visited counts each grow
by one. -/
theorem formInv_step {m : MS} {t : Pos} {d : Dir} (inv : FormInv m) (ht : InGrid m t)
    (ho : InGrid m (target t d)) (hfresh : m.workedOn t = false)
    (hvis : m.workedOn (target t d) = true) :
    FormInv (connectNew m t d) ∧
    visitedFinset (connectNew m t d) = insert t (visitedFinset m) ∧
    unvisitedFinset (connectNew m t d) = (unvisitedFinset m).erase t := by
  have htne : target t d ≠ t := target_ne t d
  have hconnT : m.conn t = [] := by
    by_contra h
    have h2 := inv.connVisited t h
    rw [h2] at hfresh
    exact Bool.noConfusion hfresh
  have hoppo : d.opp ∉ m.conn (target t d) := by
    intro h
    have h2 := inv.symm (target t d) d.opp h
    rw [target_opp, opp_opp, hconnT] at h2
    exact List.not_mem_nil d h2
  have hgrid : ∀ q, InGrid (connectNew m t d) q ↔ InGrid m q := inGrid_connectNew m t d
  have hconn : ∀ p, (connectNew m t d).conn p =
      if p = target t d then m.conn (target t d) ++ [d.opp]
      else if p = t then m.conn t ++ [d] else m.conn p := connectNew_conn m t d
  have hwo : (connectNew m t d).workedOn = Function.update m.workedOn t true :=
    connectNew_workedOn m t d
  have hsup : ∀ p, ∀ d' ∈ m.conn p, d' ∈ (connectNew m t d).conn p := by
    intro p d' hd'
    rw [hconn]
    split
    · rename_i h; subst h; exact List.mem_append_left _ hd'
    · split
      · rename_i h; subst h; exact List.mem_append_left _ hd'
      · exact hd'
  have hwo_mono : ∀ p, m.workedOn p = true → (connectNew m t d).workedOn p = true := by
    intro p hp
    rw [hwo]
    by_cases h : p = t
    · subst h; simp
    · rw [Function.update_noteq h]; exact hp
  have hreach_mono : ∀ p q, Reaches m p q → Reaches (connectNew m t d) p q :=
    fun p q h => reaches_mono (connectNew_frame m t d).1 (connectNew_frame m t d).2.1 hsup h
  have hstep_to : ConnStep (connectNew m t d) t (target t d) := by
    refine ⟨(hgrid t).mpr ht, (hgrid _).mpr ho, d, ?_, rfl⟩
    rw [hconn, if_neg (Ne.symm htne), if_pos rfl]
    exact List.mem_append_right _ (List.mem_singleton.mpr rfl)
  have hstep_back : ConnStep (connectNew m t d) (target t d) t := by
    refine ⟨(hgrid _).mpr ho, (hgrid t).mpr ht, d.opp, ?_, target_opp t d⟩
    rw [hconn, if_pos rfl]
    exact List.mem_append_right _ (List.mem_singleton.mpr rfl)
  have hspine_not : spineEdge t d ∉ edgeFinset m := by
    intro hmem
    rw [mem_edgeFinset] at hmem
    cases d with
    | S =>
      simp only [spineEdge] at hmem
      rcases hmem.2.2 with ⟨hS, -⟩ | ⟨hE, -⟩
      · rw [hconnT] at hS; exact List.not_mem_nil _ hS
      · rw [hconnT] at hE; exact List.not_mem_nil _ hE
    | E =>
      simp only [spineEdge] at hmem
      rcases hmem.2.2 with ⟨hS, -⟩ | ⟨hE, -⟩
      · rw [hconnT] at hS; exact List.not_mem_nil _ hS
      · rw [hconnT] at hE; exact List.not_mem_nil _ hE
    | N =>
      simp only [spineEdge] at hmem
      rcases hmem.2.2 with ⟨hS, -⟩ | ⟨-, habs⟩
      · exact hoppo hS
      · obtain ⟨a, b⟩ := t
        simp only [target, Prod.mk.injEq] at habs
        omega
    | W =>
      simp only [spineEdge] at hmem
      rcases hmem.2.2 with ⟨-, habs⟩ | ⟨hE, -⟩
      · obtain ⟨a, b⟩ := t
        simp only [target, Prod.mk.injEq] at habs
        omega
      · exact hoppo hE
  have ht_notvis : t ∉ visitedFinset m := by
    simp [visitedFinset, mem_gridFinset, hfresh]
  refine ⟨⟨?_, ?_, ?_, ?_, ?_, ?_, ?_, ?_⟩,
    visitedFinset_connectNew m t d ht, unvisitedFinset_connectNew m t d⟩
  · intro p hp
    rw [hgrid] at hp
    have h1 : p ≠ target t d := fun h => hp (h ▸ ho)
    have h2 : p ≠ t := fun h => hp (h ▸ ht)
    rw [hconn, if_neg h1, if_neg h2, hwo, Function.update_noteq h2]
    exact inv.outside p hp
  · intro p d' hd'
    rw [hconn] at hd'
    by_cases h1 : p = target t d
    · subst h1
      rw [if_pos rfl] at hd'
      rcases List.mem_append.mp hd' with hold | hnew
      · obtain ⟨ha, hb⟩ := inv.internal _ d' hold
        exact ⟨(hgrid _).mpr ha, (hgrid _).mpr hb⟩
      · rw [List.mem_singleton.mp hnew, target_opp]
        exact ⟨(hgrid _).mpr ho, (hgrid _).mpr ht⟩
    · rw [if_neg h1] at hd'
      by_cases h2 : p = t
      · subst h2
        rw [if_pos rfl, hconnT, List.nil_append, List.mem_singleton] at hd'
        rw [hd']
        exact ⟨(hgrid _).mpr ht, (hgrid _).mpr ho⟩
      · rw [if_neg h2] at hd'
        obtain ⟨ha, hb⟩ := inv.internal _ d' hd'
        exact ⟨(hgrid _).mpr ha, (hgrid _).mpr hb⟩
  · intro p d' hd'
    rw [hconn] at hd'
    by_cases h1 : p = target t d
    · subst h1
      rw [if_pos rfl] at hd'
      rcases List.mem_append.mp hd' with hold | hnew
      · exact hsup _ _ (inv.symm _ d' hold)
      · rw [List.mem_singleton.mp hnew, target_opp, opp_opp, hconn,
          if_neg (Ne.symm htne), if_pos rfl]
        exact List.mem_append_right _ (List.mem_singleton.mpr rfl)
    · rw [if_neg h1] at hd'
      by_cases h2 : p = t
      · subst h2
        rw [if_pos rfl, hconnT, List.nil_append, List.mem_singleton] at hd'
        subst hd'
        rw [hconn, if_pos rfl]
        exact List.mem_append_right _ (List.mem_singleton.mpr rfl)
      · rw [if_neg h2] at hd'
        exact hsup _ _ (inv.symm _ d' hd')
  · intro p
    rw [hconn]
    by_cases h1 : p = target t d
    · subst h1
      rw [if_pos rfl, List.nodup_append]
      refine ⟨inv.nodupC _, List.nodup_singleton _, ?_⟩
      intro x hx hxmem
      rw [List.mem_singleton] at hxmem
      subst hxmem
      exact hoppo hx
    · rw [if_neg h1]
      by_cases h2 : p = t
      · subst h2
        rw [if_pos rfl, hconnT, List.nil_append]
        exact List.nodup_singleton _
      · rw [if_neg h2]
        exact inv.nodupC p
  · intro p hne
    rw [hconn] at hne
    rw [hwo]
    by_cases h2 : p = t
    · subst h2; simp
    · rw [Function.update_noteq h2]
      by_cases h1 : p = target t d
      · subst h1; exact hvis
      · rw [if_neg h1, if_neg h2] at hne
        exact inv.connVisited p hne
  · intro p q hp hq
    rw [hwo] at hp hq
    by_cases hpt : p = t
    · by_cases hqt : q = t
      · rw [hpt, hqt]
        exact .refl
      · rw [Function.update_noteq hqt] at hq
        rw [hpt]
        exact Relation.ReflTransGen.head hstep_to
          (hreach_mono _ _ (inv.visConn _ _ hvis hq))
    · rw [Function.update_noteq hpt] at hp
      by_cases hqt : q = t
      · rw [hqt]
        exact (hreach_mono _ _ (inv.visConn _ _ hp hvis)).tail hstep_back
      · rw [Function.update_noteq hqt] at hq
        exact hreach_mono _ _ (inv.visConn _ _ hp hq)
  · rw [edgeFinset_connectNew m t d ht ho hconnT hoppo,
      visitedFinset_connectNew m t d ht,
      Finset.card_insert_of_not_mem hspine_not, Finset.card_insert_of_not_mem ht_notvis]
    have := inv.count
    omega
  · intro p
    rw [(connectNew_frame m t d).2.2.1]
    exact inv.noEntry p

theorem getElem_not_mem_eraseIdx {α : Type} (l : List α) (h : l.Nodup) (i : Nat)
    (hi : i < l.length) : l[i] ∉ l.eraseIdx i := by
  induction l generalizing i with
  | nil => simp at hi
  | cons a tl ih =>
    cases i with
    | zero =>
      simpa [List.eraseIdx] using (List.nodup_cons.mp h).1
    | succ j =>
      simp only [List.eraseIdx, List.getElem_cons_succ, List.mem_cons]
      rintro (habs | habs)
      · exact (List.nodup_cons.mp h).1 (habs ▸ List.getElem_mem (by simpa using hi))
      · exact ih (List.nodup_cons.mp h).2 j (by simpa using hi) habs

theorem mem_eraseIdx_of_ne {α : Type} (l : List α) (i : Nat) (hi : i < l.length) (p : α)
    (hp : p ∈ l) (hne : p ≠ l[i]) : p ∈ l.eraseIdx i := by
  induction l generalizing i with
  | nil => simp at hp
  | cons a tl ih =>
    cases i with
    | zero =>
      simp only [List.getElem_cons_zero] at hne
      simpa [List.eraseIdx] using (List.mem_cons.mp hp).resolve_left hne
    | succ j =>
      simp only [List.eraseIdx, List.mem_cons]
      rcases List.mem_cons.mp hp with rfl | hp2
      · exact Or.inl rfl
      · exact Or.inr (ih j (by simpa using hi) hp2 (by simpa using hne))

theorem nodup_eraseIdx {α : Type} (l : List α) (h : l.Nodup) (i : Nat) :
    (l.eraseIdx i).Nodup :=
  (List.eraseIdx_sublist l i).nodup h

/-!
## The frontier-growth (Prim) loop
-/

/-- The loop invariant of `makeMazeSimple`'s frontier loop. -/
structure PrimInv (m : MS) (front : List Pos) : Prop where
  base : FormInv m
  sub : ∀ p ∈ front, InGrid m p
  ndF : front.Nodup
  unvis : ∀ p ∈ front, m.workedOn p = false
  hasVis : ∀ p ∈ front, ∃ q, GridAdj m p q ∧ m.workedOn q = true
  complete : ∀ p, InGrid m p → m.workedOn p = false →
    (∃ q, GridAdj m p q ∧ m.workedOn q = true) → p ∈ front

theorem gridAdj_congr {m m' : MS} (hx : m'.sizeX = m.sizeX) (hy : m'.sizeY = m.sizeY)
    {p q : Pos} : GridAdj m' p q ↔ GridAdj m p q := by
  unfold GridAdj InGrid
  rw [hx, hy]

/-- Partial correctness of the frontier loop: a successful run from an
invariant state yields a fully visited maze satisfying the formation
invariant. -/
theorem primLoop_post (fuel : Nat) :
    ∀ (m : MS) (front : List Pos) (r : RNG) (m' : MS) (r' : RNG),
    PrimInv m front → primLoop fuel m front r = some (m', r') →
    FormInv m' ∧ (∀ p, InGrid m' p → m'.workedOn p = true) ∧
    m'.sizeX = m.sizeX ∧ m'.sizeY = m.sizeY ∧ m'.mazeIsDone = m.mazeIsDone ∧
    m'.start_wall = m.start_wall ∧ m'.end_wall = m.end_wall := by
  induction fuel with
  | zero =>
    intro m front r m' r' hinv h
    simp [primLoop] at h
  | succ fuel ih =>
    intro m front r m' r' hinv h
    rw [primLoop] at h
    by_cases hemp : front.isEmpty
    · rw [if_pos hemp] at h
      have hmr : m = m' ∧ r = r' := by
        have := Option.some.inj h
        exact ⟨congrArg Prod.fst this, congrArg Prod.snd this⟩
      obtain ⟨rfl, rfl⟩ := hmr
      refine ⟨hinv.base, ?_, rfl, rfl, rfl, rfl, rfl⟩
      have hfront : front = [] := List.isEmpty_iff.mp hemp
      intro p hp
      have hpos : 0 < (visitedFinset m).card := by
        have := hinv.base.count
        omega
      obtain ⟨v, hv⟩ := Finset.card_pos.mp hpos
      rw [visitedFinset, Finset.mem_filter, mem_gridFinset] at hv
      have hpath := grid_connected (m := m) hv.1 hp
      clear hp
      induction hpath with
      | refl => exact hv.2
      | tail hseg hadj ihh =>
        rename_i b c
        by_contra hw
        have hw' : m.workedOn c = false := by
          cases hww : m.workedOn c
          · rfl
          · exact absurd hww hw
        have hmem : c ∈ front := hinv.complete c hadj.2.1 hw' ⟨b, gridAdj_symm hadj, ihh⟩
        rw [hfront] at hmem
        exact List.not_mem_nil c hmem
    · rw [if_neg hemp] at h
      simp only [] at h
      have hlen : 0 < front.length := by
        cases front
        · simp at hemp
        · simp
      have hilt : rhead r % front.length < front.length := Nat.mod_lt _ hlen
      set i := rhead r % front.length with hidef
      set nextT := front.getD i (0, 0) with hnext
      have hnextEl : nextT = front[i] := List.getD_eq_getElem front (0, 0) hilt
      have hmemN : nextT ∈ front := hnextEl ▸ List.getElem_mem hilt
      have hNgrid : InGrid m nextT := hinv.sub nextT hmemN
      have hNunvis : m.workedOn nextT = false := hinv.unvis nextT hmemN
      set front1 := front.eraseIdx i with hfront1
      have hnotmem1 : nextT ∉ front1 := hnextEl ▸ getElem_not_mem_eraseIdx front hinv.ndF i hilt
      have hmem_front1 : ∀ p ∈ front, p ≠ nextT → p ∈ front1 := fun p hp hne =>
        mem_eraseIdx_of_ne front i hilt p hp (hnextEl ▸ hne)
      have hsub1 : ∀ p ∈ front1, p ∈ front := fun p hp => List.mem_of_mem_eraseIdx hp
      set m1 := { m with workedOn := Function.update m.workedOn nextT true } with hm1
      have hInG1 : ∀ p, InGrid m1 p ↔ InGrid m p := fun p => Iff.rfl
      set nbrs := nextTiles m1 nextT with hnbrs
      have hmem_nbrs : ∀ q, q ∈ nbrs ↔ InGrid m q ∧ ∃ d : Dir, target nextT d = q := by
        intro q
        rw [hnbrs, mem_nextTiles ((hInG1 nextT).mpr hNgrid)]
        exact Iff.rfl
      set newFront := nbrs.filter (fun t => !m1.workedOn t && !(decide (t ∈ front1)))
        with hnewF
      set front2 := front1 ++ newFront with hfront2
      split at h
      · exact absurd h (by simp)
      · rename_i c cs heq
        set workedOnL := nbrs.filter (fun t => m1.workedOn t) with hwoL
        set j := rhead (rtail r) % workedOnL.length with hjdef
        set connectT := if workedOnL.length > 1 then workedOnL.getD j (0, 0)
          else workedOnL.getD 0 (0, 0) with hconnT
        have hwlen : 0 < workedOnL.length := by rw [heq]; simp
        have hmemC : connectT ∈ workedOnL := by
          rw [hconnT]
          split
          · have : j < workedOnL.length := Nat.mod_lt _ hwlen
            rw [List.getD_eq_getElem _ _ this]
            exact List.getElem_mem this
          · rw [List.getD_eq_getElem _ _ hwlen]
            exact List.getElem_mem hwlen
        have hCn : connectT ∈ nbrs ∧ m1.workedOn connectT = true := by
          have h2 : connectT ∈ nbrs.filter (fun t => m1.workedOn t) := by
            rw [← hwoL]
            exact hmemC
          have := List.mem_filter.mp h2
          exact ⟨this.1, by simpa using this.2⟩
        have hCne : connectT ≠ nextT := by
          intro habs
          have h3 : nextT ∈ nbrs := by rw [← habs]; exact hCn.1
          rw [hnbrs] at h3
          exact self_not_mem_nextTiles m1 nextT h3
        have hCvis : m.workedOn connectT = true := by
          have h2 : Function.update m.workedOn nextT true connectT = true := hCn.2
          simpa [Function.update_noteq hCne] using h2
        obtain ⟨hCgrid, d, hd⟩ := (hmem_nbrs connectT).mp hCn.1
        have hstate : connectTiles m1 nextT connectT = connectNew m nextT d := by
          rw [← hd]
          show connectTiles { m with workedOn := Function.update m.workedOn nextT true }
            nextT (target nextT d) = _
          exact connectTiles_fresh_first m nextT d
        rw [hstate] at h
        have hdgrid : InGrid m (target nextT d) := hd ▸ hCgrid
        have hdvis : m.workedOn (target nextT d) = true := hd ▸ hCvis
        obtain ⟨hFI2, hvis2, hunvis2⟩ := formInv_step hinv.base hNgrid hdgrid hNunvis hdvis
        set m2 := connectNew m nextT d with hm2
        have hInG2 : ∀ p, InGrid m2 p ↔ InGrid m p := inGrid_connectNew m nextT d
        have hwo2 : m2.workedOn = Function.update m.workedOn nextT true :=
          connectNew_workedOn m nextT d
        have hframe2 := connectNew_frame m nextT d
        have hGA2 : ∀ p q, GridAdj m2 p q ↔ GridAdj m p q := fun p q =>
          gridAdj_congr hframe2.1 hframe2.2.1
        have hinv2 : PrimInv m2 front2 := by
          refine ⟨hFI2, ?_, ?_, ?_, ?_, ?_⟩
          · intro p hp
            rw [hfront2, List.mem_append] at hp
            rcases hp with hp | hp
            · exact (hInG2 p).mpr (hinv.sub p (hsub1 p hp))
            · exact (hInG2 p).mpr ((hmem_nbrs p).mp (List.mem_filter.mp hp).1).1
          · rw [hfront2, List.nodup_append]
            refine ⟨nodup_eraseIdx front hinv.ndF i, (nodup_nextTiles m1 nextT).filter _, ?_⟩
            intro a ha hamem
            have := (List.mem_filter.mp hamem).2
            simp only [Bool.and_eq_true, Bool.not_eq_true', decide_eq_false_iff_not] at this
            exact this.2 ha
          · intro p hp
            rw [hwo2]
            rw [hfront2, List.mem_append] at hp
            rcases hp with hp | hp
            · have hne : p ≠ nextT := fun habs => hnotmem1 (habs ▸ hp)
              rw [Function.update_noteq hne]
              exact hinv.unvis p (hsub1 p hp)
            · have := (List.mem_filter.mp hp).2
              simp only [Bool.and_eq_true, Bool.not_eq_true'] at this
              have h2 : Function.update m.workedOn nextT true p = false := this.1
              by_cases hne : p = nextT
              · rw [hne] at h2
                simp at h2
              · rw [Function.update_noteq hne]
                rw [Function.update_noteq hne] at h2
                exact h2
          · intro p hp
            rw [hfront2, List.mem_append] at hp
            rcases hp with hp | hp
            · obtain ⟨q, hq1, hq2⟩ := hinv.hasVis p (hsub1 p hp)
              refine ⟨q, (hGA2 p q).mpr hq1, ?_⟩
              rw [hwo2]
              by_cases hqt : q = nextT
              · rw [hqt]; simp
              · rw [Function.update_noteq hqt]; exact hq2
            · obtain ⟨hpg, d', hd'⟩ := (hmem_nbrs p).mp (List.mem_filter.mp hp).1
              refine ⟨nextT, (hGA2 p nextT).mpr ?_, ?_⟩
              · exact gridAdj_symm ⟨hNgrid, hpg, d', hd'⟩
              · rw [hwo2]; simp
          · intro p hpg hpu hpq
            rw [hInG2] at hpg
            rw [hwo2] at hpu
            have hpne : p ≠ nextT := by
              intro habs
              rw [habs] at hpu
              simp at hpu
            rw [Function.update_noteq hpne] at hpu
            obtain ⟨q, hq1, hq2⟩ := hpq
            rw [hwo2] at hq2
            rw [hfront2, List.mem_append]
            by_cases hqt : q = nextT
            · by_cases hpf : p ∈ front1
              · exact Or.inl hpf
              · refine Or.inr ?_
                rw [hnewF]
                refine List.mem_filter.mpr ⟨?_, ?_⟩
                · rw [hmem_nbrs]
                  refine ⟨hpg, ?_⟩
                  have := gridAdj_symm ((hGA2 p q).mp hq1)
                  rw [hqt] at this
                  exact this.2.2
                · simp only [Bool.and_eq_true, Bool.not_eq_true', decide_eq_false_iff_not]
                  refine ⟨?_, hpf⟩
                  show Function.update m.workedOn nextT true p = false
                  rw [Function.update_noteq hpne]
                  exact hpu
            · rw [Function.update_noteq hqt] at hq2
              have hpf : p ∈ front :=
                hinv.complete p hpg hpu ⟨q, (hGA2 p q).mp hq1, hq2⟩
              exact Or.inl (hmem_front1 p hpf hpne)
        obtain ⟨hA, hB, hC⟩ := ih m2 front2 (rtail (rtail r)) m' r' hinv2 h
        refine ⟨hA, hB, ?_⟩
        rw [hC.1, hC.2.1, hC.2.2.1, hC.2.2.2.1, hC.2.2.2.2]
        exact ⟨hframe2.1, hframe2.2.1, hframe2.2.2.2.1, hframe2.2.2.2.2.1,
          hframe2.2.2.2.2.2⟩

/-- Termination of the frontier loop: enough fuel guarantees a result. -/
theorem primLoop_terminates (fuel : Nat) :
    ∀ (m : MS) (front : List Pos) (r : RNG), PrimInv m front →
    5 * (unvisitedFinset m).card + front.length < fuel →
    ∃ x, primLoop fuel m front r = some x := by
  induction fuel with
  | zero =>
    intro m front r hinv hfuel
    omega
  | succ fuel ih =>
    intro m front r hinv hfuel
    rw [primLoop]
    by_cases hemp : front.isEmpty
    · rw [if_pos hemp]
      exact ⟨(m, r), rfl⟩
    · rw [if_neg hemp]
      simp only []
      have hlen : 0 < front.length := by
        cases front
        · simp at hemp
        · simp
      have hilt : rhead r % front.length < front.length := Nat.mod_lt _ hlen
      set i := rhead r % front.length with hidef
      set nextT := front.getD i (0, 0) with hnext
      have hnextEl : nextT = front[i] := List.getD_eq_getElem front (0, 0) hilt
      have hmemN : nextT ∈ front := hnextEl ▸ List.getElem_mem hilt
      have hNgrid : InGrid m nextT := hinv.sub nextT hmemN
      have hNunvis : m.workedOn nextT = false := hinv.unvis nextT hmemN
      set front1 := front.eraseIdx i with hfront1
      have hnotmem1 : nextT ∉ front1 := hnextEl ▸ getElem_not_mem_eraseIdx front hinv.ndF i hilt
      have hmem_front1 : ∀ p ∈ front, p ≠ nextT → p ∈ front1 := fun p hp hne =>
        mem_eraseIdx_of_ne front i hilt p hp (hnextEl ▸ hne)
      have hsub1 : ∀ p ∈ front1, p ∈ front := fun p hp => List.mem_of_mem_eraseIdx hp
      set m1 := { m with workedOn := Function.update m.workedOn nextT true } with hm1
      have hInG1 : ∀ p, InGrid m1 p ↔ InGrid m p := fun p => Iff.rfl
      set nbrs := nextTiles m1 nextT with hnbrs
      have hmem_nbrs : ∀ q, q ∈ nbrs ↔ InGrid m q ∧ ∃ d : Dir, target nextT d = q := by
        intro q
        rw [hnbrs, mem_nextTiles ((hInG1 nextT).mpr hNgrid)]
        exact Iff.rfl
      set newFront := nbrs.filter (fun t => !m1.workedOn t && !(decide (t ∈ front1)))
        with hnewF
      set front2 := front1 ++ newFront with hfront2
      have hwo_nonempty : nbrs.filter (fun t => m1.workedOn t) ≠ [] := by
        obtain ⟨q, hq1, hq2⟩ := hinv.hasVis nextT hmemN
        have hqn : q ∈ nbrs := (hmem_nbrs q).mpr ⟨hq1.2.1, hq1.2.2⟩
        have hqvis : m1.workedOn q = true := by
          have hqne : q ≠ nextT := by
            intro habs
            rw [habs] at hq2
            rw [hq2] at hNunvis
            exact Bool.noConfusion hNunvis
          show Function.update m.workedOn nextT true q = true
          rw [Function.update_noteq hqne]
          exact hq2
        intro habs
        have : q ∈ nbrs.filter (fun t => m1.workedOn t) :=
          List.mem_filter.mpr ⟨hqn, by simpa using hqvis⟩
        rw [habs] at this
        exact List.not_mem_nil q this
      split
      · rename_i heq
        exact absurd heq hwo_nonempty
      · rename_i c cs heq
        set workedOnL := nbrs.filter (fun t => m1.workedOn t) with hwoL
        set j := rhead (rtail r) % workedOnL.length with hjdef
        set connectT := if workedOnL.length > 1 then workedOnL.getD j (0, 0)
          else workedOnL.getD 0 (0, 0) with hconnT
        have hwlen : 0 < workedOnL.length := by rw [heq]; simp
        have hmemC : connectT ∈ workedOnL := by
          rw [hconnT]
          split
          · have : j < workedOnL.length := Nat.mod_lt _ hwlen
            rw [List.getD_eq_getElem _ _ this]
            exact List.getElem_mem this
          · rw [List.getD_eq_getElem _ _ hwlen]
            exact List.getElem_mem hwlen
        have hCn : connectT ∈ nbrs ∧ m1.workedOn connectT = true := by
          have h2 : connectT ∈ nbrs.filter (fun t => m1.workedOn t) := by
            rw [← hwoL]
            exact hmemC
          have := List.mem_filter.mp h2
          exact ⟨this.1, by simpa using this.2⟩
        have hCne : connectT ≠ nextT := by
          intro habs
          have h3 : nextT ∈ nbrs := by rw [← habs]; exact hCn.1
          rw [hnbrs] at h3
          exact self_not_mem_nextTiles m1 nextT h3
        have hCvis : m.workedOn connectT = true := by
          have h2 : Function.update m.workedOn nextT true connectT = true := hCn.2
          simpa [Function.update_noteq hCne] using h2
        obtain ⟨hCgrid, d, hd⟩ := (hmem_nbrs connectT).mp hCn.1
        have hstate : connectTiles m1 nextT connectT = connectNew m nextT d := by
          rw [← hd]
          show connectTiles { m with workedOn := Function.update m.workedOn nextT true }
            nextT (target nextT d) = _
          exact connectTiles_fresh_first m nextT d
        rw [hstate]
        have hdgrid : InGrid m (target nextT d) := hd ▸ hCgrid
        have hdvis : m.workedOn (target nextT d) = true := hd ▸ hCvis
        obtain ⟨hFI2, hvis2, hunvis2⟩ := formInv_step hinv.base hNgrid hdgrid hNunvis hdvis
        set m2 := connectNew m nextT d with hm2
        have hInG2 : ∀ p, InGrid m2 p ↔ InGrid m p := inGrid_connectNew m nextT d
        have hwo2 : m2.workedOn = Function.update m.workedOn nextT true :=
          connectNew_workedOn m nextT d
        have hframe2 := connectNew_frame m nextT d
        have hGA2 : ∀ p q, GridAdj m2 p q ↔ GridAdj m p q := fun p q =>
          gridAdj_congr hframe2.1 hframe2.2.1
        have hinv2 : PrimInv m2 front2 := by
          refine ⟨hFI2, ?_, ?_, ?_, ?_, ?_⟩
          · intro p hp
            rw [hfront2, List.mem_append] at hp
            rcases hp with hp | hp
            · exact (hInG2 p).mpr (hinv.sub p (hsub1 p hp))
            · exact (hInG2 p).mpr ((hmem_nbrs p).mp (List.mem_filter.mp hp).1).1
          · rw [hfront2, List.nodup_append]
            refine ⟨nodup_eraseIdx front hinv.ndF i, (nodup_nextTiles m1 nextT).filter _, ?_⟩
            intro a ha hamem
            have := (List.mem_filter.mp hamem).2
            simp only [Bool.and_eq_true, Bool.not_eq_true', decide_eq_false_iff_not] at this
            exact this.2 ha
          · intro p hp
            rw [hwo2]
            rw [hfront2, List.mem_append] at hp
            rcases hp with hp | hp
            · have hne : p ≠ nextT := fun habs => hnotmem1 (habs ▸ hp)
              rw [Function.update_noteq hne]
              exact hinv.unvis p (hsub1 p hp)
            · have := (List.mem_filter.mp hp).2
              simp only [Bool.and_eq_true, Bool.not_eq_true'] at this
              have h2 : Function.update m.workedOn nextT true p = false := this.1
              by_cases hne : p = nextT
              · rw [hne] at h2
                simp at h2
              · rw [Function.update_noteq hne]
                rw [Function.update_noteq hne] at h2
                exact h2
          · intro p hp
            rw [hfront2, List.mem_append] at hp
            rcases hp with hp | hp
            · obtain ⟨q, hq1, hq2⟩ := hinv.hasVis p (hsub1 p hp)
              refine ⟨q, (hGA2 p q).mpr hq1, ?_⟩
              rw [hwo2]
              by_cases hqt : q = nextT
              · rw [hqt]; simp
              · rw [Function.update_noteq hqt]; exact hq2
            · obtain ⟨hpg, d', hd'⟩ := (hmem_nbrs p).mp (List.mem_filter.mp hp).1
              refine ⟨nextT, (hGA2 p nextT).mpr ?_, ?_⟩
              · exact gridAdj_symm ⟨hNgrid, hpg, d', hd'⟩
              · rw [hwo2]; simp
          · intro p hpg hpu hpq
            rw [hInG2] at hpg
            rw [hwo2] at hpu
            have hpne : p ≠ nextT := by
              intro habs
              rw [habs] at hpu
              simp at hpu
            rw [Function.update_noteq hpne] at hpu
            obtain ⟨q, hq1, hq2⟩ := hpq
            rw [hwo2] at hq2
            rw [hfront2, List.mem_append]
            by_cases hqt : q = nextT
            · by_cases hpf : p ∈ front1
              · exact Or.inl hpf
              · refine Or.inr ?_
                rw [hnewF]
                refine List.mem_filter.mpr ⟨?_, ?_⟩
                · rw [hmem_nbrs]
                  refine ⟨hpg, ?_⟩
                  have := gridAdj_symm ((hGA2 p q).mp hq1)
                  rw [hqt] at this
                  exact this.2.2
                · simp only [Bool.and_eq_true, Bool.not_eq_true', decide_eq_false_iff_not]
                  refine ⟨?_, hpf⟩
                  show Function.update m.workedOn nextT true p = false
                  rw [Function.update_noteq hpne]
                  exact hpu
            · rw [Function.update_noteq hqt] at hq2
              have hpf : p ∈ front :=
                hinv.complete p hpg hpu ⟨q, (hGA2 p q).mp hq1, hq2⟩
              exact Or.inl (hmem_front1 p hpf hpne)
        refine ih m2 front2 (rtail (rtail r)) hinv2 ?_
        have hcard : nextT ∈ unvisitedFinset m := by
          rw [unvisitedFinset, Finset.mem_filter, mem_gridFinset]
          exact ⟨hNgrid, hNunvis⟩
        have hcard2 : (unvisitedFinset m2).card + 1 = (unvisitedFinset m).card := by
          rw [hunvis2, Finset.card_erase_of_mem hcard]
          have : 0 < (unvisitedFinset m).card := Finset.card_pos.mpr ⟨nextT, hcard⟩
          omega
        have hlen1 : front1.length + 1 = front.length := by
          rw [hfront1]
          exact List.length_eraseIdx_add_one hilt
        have hlen2 : newFront.length ≤ 4 := by
          rw [hnewF]
          calc (nbrs.filter _).length ≤ nbrs.length := List.length_filter_le _ _
          _ ≤ 4 := by rw [hnbrs]; exact length_nextTiles_le m1 nextT
        have hlenf2 : front2.length = front1.length + newFront.length := by
          rw [hfront2, List.length_append]
        omega

theorem headD_mem {α : Type} (l : List α) (d : α) (h : l ≠ []) : l.headD d ∈ l := by
  cases l with
  | nil => exact absurd rfl h
  | cons a tl => exact List.mem_cons_self a tl

theorem getLastD_mem {α : Type} (l : List α) (d : α) (h : l ≠ []) :
    (l.getLast?).getD d ∈ l := by
  rw [List.getLast?_eq_getLast l h]
  exact List.getLast_mem h

/-!
## The growing-tree loop
-/

/-- The loop invariant of `makeMazeGrowTree`'s active-list loop. -/
structure GrowInv (m : MS) (cl : List Pos) : Prop where
  base : FormInv m
  sub : ∀ p ∈ cl, InGrid m p
  vis : ∀ p ∈ cl, m.workedOn p = true
  ndC : cl.Nodup
  complete : ∀ p, InGrid m p → m.workedOn p = true →
    (∃ q, GridAdj m p q ∧ m.workedOn q = false) → p ∈ cl

/-- Partial correctness of the growing-tree loop. -/
theorem growLoop_post (fuel : Nat) :
    ∀ (m : MS) (cl : List Pos) (wh wl : Int) (r : RNG) (m' : MS) (r' : RNG),
    GrowInv m cl → growLoop fuel m cl wh wl r = some (m', r') →
    FormInv m' ∧ (∀ p, InGrid m' p → m'.workedOn p = true) ∧
    m'.sizeX = m.sizeX ∧ m'.sizeY = m.sizeY ∧ m'.mazeIsDone = m.mazeIsDone ∧
    m'.start_wall = m.start_wall ∧ m'.end_wall = m.end_wall := by
  induction fuel with
  | zero =>
    intro m cl wh wl r m' r' hinv h
    simp [growLoop] at h
  | succ fuel ih =>
    intro m cl wh wl r m' r' hinv h
    rw [growLoop] at h
    by_cases hemp : cl.isEmpty
    · rw [if_pos hemp] at h
      have hmr : m = m' ∧ r = r' := by
        have := Option.some.inj h
        exact ⟨congrArg Prod.fst this, congrArg Prod.snd this⟩
      obtain ⟨rfl, rfl⟩ := hmr
      refine ⟨hinv.base, ?_, rfl, rfl, rfl, rfl, rfl⟩
      have hcl : cl = [] := List.isEmpty_iff.mp hemp
      intro p hp
      have hpos : 0 < (visitedFinset m).card := by
        have := hinv.base.count
        omega
      obtain ⟨v, hv⟩ := Finset.card_pos.mp hpos
      rw [visitedFinset, Finset.mem_filter, mem_gridFinset] at hv
      have hpath := grid_connected (m := m) hv.1 hp
      clear hp
      induction hpath with
      | refl => exact hv.2
      | tail hseg hadj ihh =>
        rename_i b c
        by_contra hw
        have hw' : m.workedOn c = false := by
          cases hww : m.workedOn c
          · rfl
          · exact absurd hww hw
        have hmem : b ∈ cl := hinv.complete b hadj.1 ihh ⟨c, hadj, hw'⟩
        rw [hcl] at hmem
        exact List.not_mem_nil b hmem
    · rw [if_neg hemp] at h
      simp only [] at h
      have hclne : cl ≠ [] := fun habs => by
        rw [habs] at hemp
        exact hemp rfl
      have hlen : 0 < cl.length := List.length_pos.mpr hclne
      set choiceV : Int := ((rhead r % 1000 : Nat) : Int) with hcv
      set pick := if choiceV ≤ 10 * wl then ((cl.getLast?).getD (0, 0), rtail r)
        else if 10 * wl < choiceV ∧ choiceV < 10 * wh then
          (cl.getD (rhead (rtail r) % cl.length) (0, 0), rtail (rtail r))
        else (cl.headD (0, 0), rtail r) with hpick
      set nextT := pick.1 with hnextT
      have hmemN : nextT ∈ cl := by
        rw [hnextT, hpick]
        split
        · exact getLastD_mem cl (0, 0) hclne
        · split
          · have hi : rhead (rtail r) % cl.length < cl.length := Nat.mod_lt _ hlen
            rw [List.getD_eq_getElem _ _ hi]
            exact List.getElem_mem hi
          · exact headD_mem cl (0, 0) hclne
      have hNgrid : InGrid m nextT := hinv.sub nextT hmemN
      have hNvis : m.workedOn nextT = true := hinv.vis nextT hmemN
      split at h
      · rename_i hempty
        -- dead end: recurse on cl.erase nextT
        have hinv2 : GrowInv m (cl.erase nextT) := by
          refine ⟨hinv.base, ?_, ?_, ?_, ?_⟩
          · intro p hp
            exact hinv.sub p (List.mem_of_mem_erase hp)
          · intro p hp
            exact hinv.vis p (List.mem_of_mem_erase hp)
          · exact hinv.ndC.erase nextT
          · intro p hpg hpv hpq
            have hp : p ∈ cl := hinv.complete p hpg hpv hpq
            rw [hinv.ndC.mem_erase_iff]
            refine ⟨?_, hp⟩
            intro habs
            obtain ⟨q, hq1, hq2⟩ := hpq
            have hqmem : q ∈ (nextTiles m nextT).filter (fun t => !m.workedOn t) := by
              refine List.mem_filter.mpr ⟨?_, by simp [hq2]⟩
              rw [mem_nextTiles hNgrid]
              refine ⟨hq1.2.1, ?_⟩
              have := hq1.2.2
              rw [← habs]
              exact this
            rw [hempty] at hqmem
            exact List.not_mem_nil q hqmem
        exact ih m (cl.erase nextT) wh wl _ m' r' hinv2 h
      · rename_i c cs heq
        set neiList := (nextTiles m nextT).filter (fun t => !m.workedOn t) with hnei
        have hnlen : 0 < neiList.length := by rw [heq]; simp
        set k := rhead pick.2 % neiList.length with hk
        set connectT := neiList.getD k (0, 0) with hct
        have hmemC : connectT ∈ neiList := by
          rw [hct]
          have hklt : k < neiList.length := Nat.mod_lt _ hnlen
          rw [List.getD_eq_getElem _ _ hklt]
          exact List.getElem_mem hklt
        have hCn : connectT ∈ nextTiles m nextT ∧ m.workedOn connectT = false := by
          have h2 : connectT ∈ (nextTiles m nextT).filter (fun t => !m.workedOn t) := by
            rw [← hnei]
            exact hmemC
          have := List.mem_filter.mp h2
          exact ⟨this.1, by simpa using this.2⟩
        obtain ⟨hCgrid, d', hd'⟩ := (mem_nextTiles hNgrid).mp hCn.1
        set d := d'.opp with hdd
        have hd : target connectT d = nextT := by
          rw [hdd, ← hd']
          exact target_opp nextT d'
        have hCfresh : m.workedOn connectT = false := hCn.2
        have hCne : connectT ≠ nextT := by
          intro habs
          rw [habs] at hCfresh
          rw [hCfresh] at hNvis
          exact Bool.noConfusion hNvis
        have hstate : connectTiles
            { m with workedOn := Function.update m.workedOn connectT true } nextT connectT =
            connectNew m connectT d := by
          conv_lhs => rw [← hd]
          exact connectTiles_fresh_second m connectT d
        rw [hstate] at h
        have hdgrid : InGrid m (target connectT d) := hd ▸ hNgrid
        have hdvis : m.workedOn (target connectT d) = true := hd ▸ hNvis
        obtain ⟨hFI2, hvis2, hunvis2⟩ := formInv_step hinv.base hCgrid hdgrid hCfresh hdvis
        set m2 := connectNew m connectT d with hm2
        have hInG2 : ∀ p, InGrid m2 p ↔ InGrid m p := inGrid_connectNew m connectT d
        have hwo2 : m2.workedOn = Function.update m.workedOn connectT true :=
          connectNew_workedOn m connectT d
        have hframe2 := connectNew_frame m connectT d
        have hGA2 : ∀ p q, GridAdj m2 p q ↔ GridAdj m p q := fun p q =>
          gridAdj_congr hframe2.1 hframe2.2.1
        have hCnotin : connectT ∉ cl := by
          intro habs
          rw [hinv.vis connectT habs] at hCfresh
          exact Bool.noConfusion hCfresh
        have hinv2 : GrowInv m2 (cl ++ [connectT]) := by
          refine ⟨hFI2, ?_, ?_, ?_, ?_⟩
          · intro p hp
            rcases List.mem_append.mp hp with hp | hp
            · exact (hInG2 p).mpr (hinv.sub p hp)
            · rw [List.mem_singleton.mp hp]
              exact (hInG2 connectT).mpr hCgrid
          · intro p hp
            rw [hwo2]
            rcases List.mem_append.mp hp with hp | hp
            · have hne : p ≠ connectT := fun habs => hCnotin (habs ▸ hp)
              rw [Function.update_noteq hne]
              exact hinv.vis p hp
            · rw [List.mem_singleton.mp hp]
              simp
          · rw [List.nodup_append]
            refine ⟨hinv.ndC, List.nodup_singleton _, ?_⟩
            intro a ha hamem
            rw [List.mem_singleton.mp hamem] at ha
            exact hCnotin ha
          · intro p hpg hpv hpq
            rw [hInG2] at hpg
            rw [hwo2] at hpv
            rw [List.mem_append]
            by_cases hpc : p = connectT
            · exact Or.inr (List.mem_singleton.mpr hpc)
            · rw [Function.update_noteq hpc] at hpv
              obtain ⟨q, hq1, hq2⟩ := hpq
              rw [hwo2] at hq2
              have hqc : q ≠ connectT := by
                intro habs
                rw [habs] at hq2
                simp at hq2
              rw [Function.update_noteq hqc] at hq2
              exact Or.inl (hinv.complete p hpg hpv ⟨q, (hGA2 p q).mp hq1, hq2⟩)
        obtain ⟨hA, hB, hC⟩ := ih m2 (cl ++ [connectT]) wh wl _ m' r' hinv2 h
        refine ⟨hA, hB, ?_⟩
        rw [hC.1, hC.2.1, hC.2.2.1, hC.2.2.2.1, hC.2.2.2.2]
        exact ⟨hframe2.1, hframe2.2.1, hframe2.2.2.2.1, hframe2.2.2.2.2.1,
          hframe2.2.2.2.2.2⟩

/-- Termination of the growing-tree loop: enough fuel guarantees a result. -/
theorem growLoop_terminates (fuel : Nat) :
    ∀ (m : MS) (cl : List Pos) (wh wl : Int) (r : RNG), GrowInv m cl →
    2 * (unvisitedFinset m).card + cl.length < fuel →
    ∃ x, growLoop fuel m cl wh wl r = some x := by
  induction fuel with
  | zero =>
    intro m cl wh wl r hinv hfuel
    omega
  | succ fuel ih =>
    intro m cl wh wl r hinv hfuel
    rw [growLoop]
    by_cases hemp : cl.isEmpty
    · rw [if_pos hemp]
      exact ⟨(m, r), rfl⟩
    · rw [if_neg hemp]
      simp only []
      have hclne : cl ≠ [] := fun habs => by
        rw [habs] at hemp
        exact hemp rfl
      have hlen : 0 < cl.length := List.length_pos.mpr hclne
      set choiceV : Int := ((rhead r % 1000 : Nat) : Int) with hcv
      set pick := if choiceV ≤ 10 * wl then ((cl.getLast?).getD (0, 0), rtail r)
        else if 10 * wl < choiceV ∧ choiceV < 10 * wh then
          (cl.getD (rhead (rtail r) % cl.length) (0, 0), rtail (rtail r))
        else (cl.headD (0, 0), rtail r) with hpick
      set nextT := pick.1 with hnextT
      have hmemN : nextT ∈ cl := by
        rw [hnextT, hpick]
        split
        · exact getLastD_mem cl (0, 0) hclne
        · split
          · have hi : rhead (rtail r) % cl.length < cl.length := Nat.mod_lt _ hlen
            rw [List.getD_eq_getElem _ _ hi]
            exact List.getElem_mem hi
          · exact headD_mem cl (0, 0) hclne
      have hNgrid : InGrid m nextT := hinv.sub nextT hmemN
      have hNvis : m.workedOn nextT = true := hinv.vis nextT hmemN
      split
      · rename_i hempty
        have hinv2 : GrowInv m (cl.erase nextT) := by
          refine ⟨hinv.base, ?_, ?_, ?_, ?_⟩
          · intro p hp
            exact hinv.sub p (List.mem_of_mem_erase hp)
          · intro p hp
            exact hinv.vis p (List.mem_of_mem_erase hp)
          · exact hinv.ndC.erase nextT
          · intro p hpg hpv hpq
            have hp : p ∈ cl := hinv.complete p hpg hpv hpq
            rw [hinv.ndC.mem_erase_iff]
            refine ⟨?_, hp⟩
            intro habs
            obtain ⟨q, hq1, hq2⟩ := hpq
            have hqmem : q ∈ (nextTiles m nextT).filter (fun t => !m.workedOn t) := by
              refine List.mem_filter.mpr ⟨?_, by simp [hq2]⟩
              rw [mem_nextTiles hNgrid]
              refine ⟨hq1.2.1, ?_⟩
              have := hq1.2.2
              rw [← habs]
              exact this
            rw [hempty] at hqmem
            exact List.not_mem_nil q hqmem
        refine ih m (cl.erase nextT) wh wl _ hinv2 ?_
        have : (cl.erase nextT).length + 1 = cl.length := by
          rw [List.length_erase_of_mem hmemN]
          omega
        omega
      · rename_i c cs heq
        set neiList := (nextTiles m nextT).filter (fun t => !m.workedOn t) with hnei
        have hnlen : 0 < neiList.length := by rw [heq]; simp
        set k := rhead pick.2 % neiList.length with hk
        set connectT := neiList.getD k (0, 0) with hct
        have hmemC : connectT ∈ neiList := by
          rw [hct]
          have hklt : k < neiList.length := Nat.mod_lt _ hnlen
          rw [List.getD_eq_getElem _ _ hklt]
          exact List.getElem_mem hklt
        have hCn : connectT ∈ nextTiles m nextT ∧ m.workedOn connectT = false := by
          have h2 : connectT ∈ (nextTiles m nextT).filter (fun t => !m.workedOn t) := by
            rw [← hnei]
            exact hmemC
          have := List.mem_filter.mp h2
          exact ⟨this.1, by simpa using this.2⟩
        obtain ⟨hCgrid, d', hd'⟩ := (mem_nextTiles hNgrid).mp hCn.1
        set d := d'.opp with hdd
        have hd : target connectT d = nextT := by
          rw [hdd, ← hd']
          exact target_opp nextT d'
        have hCfresh : m.workedOn connectT = false := hCn.2
        have hCne : connectT ≠ nextT := by
          intro habs
          rw [habs] at hCfresh
          rw [hCfresh] at hNvis
          exact Bool.noConfusion hNvis
        have hstate : connectTiles
            { m with workedOn := Function.update m.workedOn connectT true } nextT connectT =
            connectNew m connectT d := by
          conv_lhs => rw [← hd]
          exact connectTiles_fresh_second m connectT d
        rw [hstate]
        have hdgrid : InGrid m (target connectT d) := hd ▸ hNgrid
        have hdvis : m.workedOn (target connectT d) = true := hd ▸ hNvis
        obtain ⟨hFI2, hvis2, hunvis2⟩ := formInv_step hinv.base hCgrid hdgrid hCfresh hdvis
        set m2 := connectNew m connectT d with hm2
        have hInG2 : ∀ p, InGrid m2 p ↔ InGrid m p := inGrid_connectNew m connectT d
        have hwo2 : m2.workedOn = Function.update m.workedOn connectT true :=
          connectNew_workedOn m connectT d
        have hframe2 := connectNew_frame m connectT d
        have hGA2 : ∀ p q, GridAdj m2 p q ↔ GridAdj m p q := fun p q =>
          gridAdj_congr hframe2.1 hframe2.2.1
        have hCnotin : connectT ∉ cl := by
          intro habs
          rw [hinv.vis connectT habs] at hCfresh
          exact Bool.noConfusion hCfresh
        have hinv2 : GrowInv m2 (cl ++ [connectT]) := by
          refine ⟨hFI2, ?_, ?_, ?_, ?_⟩
          · intro p hp
            rcases List.mem_append.mp hp with hp | hp
            · exact (hInG2 p).mpr (hinv.sub p hp)
            · rw [List.mem_singleton.mp hp]
              exact (hInG2 connectT).mpr hCgrid
          · intro p hp
            rw [hwo2]
            rcases List.mem_append.mp hp with hp | hp
            · have hne : p ≠ connectT := fun habs => hCnotin (habs ▸ hp)
              rw [Function.update_noteq hne]
              exact hinv.vis p hp
            · rw [List.mem_singleton.mp hp]
              simp
          · rw [List.nodup_append]
            refine ⟨hinv.ndC, List.nodup_singleton _, ?_⟩
            intro a ha hamem
            rw [List.mem_singleton.mp hamem] at ha
            exact hCnotin ha
          · intro p hpg hpv hpq
            rw [hInG2] at hpg
            rw [hwo2] at hpv
            rw [List.mem_append]
            by_cases hpc : p = connectT
            · exact Or.inr (List.mem_singleton.mpr hpc)
            · rw [Function.update_noteq hpc] at hpv
              obtain ⟨q, hq1, hq2⟩ := hpq
              rw [hwo2] at hq2
              have hqc : q ≠ connectT := by
                intro habs
                rw [habs] at hq2
                simp at hq2
              rw [Function.update_noteq hqc] at hq2
              exact Or.inl (hinv.complete p hpg hpv ⟨q, (hGA2 p q).mp hq1, hq2⟩)
        refine ih m2 (cl ++ [connectT]) wh wl _ hinv2 ?_
        have hcard : connectT ∈ unvisitedFinset m := by
          rw [unvisitedFinset, Finset.mem_filter, mem_gridFinset]
          exact ⟨hCgrid, hCfresh⟩
        have hcard2 : (unvisitedFinset m2).card + 1 = (unvisitedFinset m).card := by
          rw [hunvis2, Finset.card_erase_of_mem hcard]
          have : 0 < (unvisitedFinset m).card := Finset.card_pos.mpr ⟨connectT, hcard⟩
          omega
        rw [List.length_append]
        simp only [List.length_singleton]
        omega

/-!
## Entry and exit placement
-/

/-- A tile on the outer boundary of the grid. -/
def Boundary (m : MS) (p : Pos) : Prop :=
  p.2 = 0 ∨ p.2 = m.sizeY - 1 ∨ p.1 = 0 ∨ p.1 = m.sizeX - 1

theorem entryExitLoop_spec (fuel : Nat) :
    ∀ (sT eT : List Pos) (r : RNG) (e x : Pos) (r' : RNG),
    entryExitLoop fuel sT eT r = some (e, x, r') →
    e ≠ x ∧ (sT ≠ [] → e ∈ sT) ∧ (eT ≠ [] → x ∈ eT) := by
  induction fuel with
  | zero =>
    intro sT eT r e x r' h
    simp [entryExitLoop] at h
  | succ fuel ih =>
    intro sT eT r e x r' h
    rw [entryExitLoop] at h
    split at h
    · rename_i hne
      have h2 := Option.some.inj h
      obtain ⟨rfl, rfl, rfl⟩ : _ ∧ _ ∧ _ :=
        ⟨congrArg Prod.fst h2, congrArg (fun z => z.2.1) h2, congrArg (fun z => z.2.2) h2⟩
      refine ⟨hne, ?_, ?_⟩
      · intro hs
        have hlen : 0 < sT.length := List.length_pos.mpr hs
        have hi : rhead r % sT.length < sT.length := Nat.mod_lt _ hlen
        rw [List.getD_eq_getElem _ _ hi]
        exact List.getElem_mem hi
      · intro hs
        have hlen : 0 < eT.length := List.length_pos.mpr hs
        have hi : rhead (rtail r) % eT.length < eT.length := Nat.mod_lt _ hlen
        rw [List.getD_eq_getElem _ _ hi]
        exact List.getElem_mem hi
    · exact ih sT eT _ e x r' h

theorem get_wall_tiles_ne_nil (m : MS) (hsx : 1 ≤ m.sizeX) (hsy : 1 ≤ m.sizeY) (w : String) :
    get_wall_tiles m w ≠ [] := by
  have hx : m.sizeX.toNat ≠ 0 := by omega
  have hy : m.sizeY.toNat ≠ 0 := by omega
  unfold get_wall_tiles
  split
  · simp [hx]
  · split
    · simp [hx]
    · split
      · simp [hy]
      · split
        · simp [hy]
        · simp only [ne_eq, List.append_eq_nil, List.map_eq_nil_iff, List.range_eq_nil]
          intro ⟨⟨⟨h1, _⟩, _⟩, _⟩
          exact hx h1

theorem mem_get_wall_tiles {m : MS} {w : String} {p : Pos} (hsx : 1 ≤ m.sizeX)
    (hsy : 1 ≤ m.sizeY) (hp : p ∈ get_wall_tiles m w) : InGrid m p ∧ Boundary m p := by
  unfold get_wall_tiles at hp
  obtain ⟨a, b⟩ := p
  split at hp
  · obtain ⟨v, hv, heq⟩ := List.mem_map.mp hp
    rw [List.mem_range] at hv
    obtain ⟨h1, h2⟩ := Prod.mk.injEq .. ▸ heq
    exact ⟨⟨by omega, by omega, by omega, by omega⟩, Or.inl (by omega)⟩
  · split at hp
    · obtain ⟨v, hv, heq⟩ := List.mem_map.mp hp
      rw [List.mem_range] at hv
      obtain ⟨h1, h2⟩ := Prod.mk.injEq .. ▸ heq
      exact ⟨⟨by omega, by omega, by omega, by omega⟩, Or.inr (Or.inl (by omega))⟩
    · split at hp
      · obtain ⟨v, hv, heq⟩ := List.mem_map.mp hp
        rw [List.mem_range] at hv
        obtain ⟨h1, h2⟩ := Prod.mk.injEq .. ▸ heq
        exact ⟨⟨by omega, by omega, by omega, by omega⟩, Or.inr (Or.inr (Or.inl (by omega)))⟩
      · split at hp
        · obtain ⟨v, hv, heq⟩ := List.mem_map.mp hp
          rw [List.mem_range] at hv
          obtain ⟨h1, h2⟩ := Prod.mk.injEq .. ▸ heq
          exact ⟨⟨by omega, by omega, by omega, by omega⟩,
            Or.inr (Or.inr (Or.inr (by omega)))⟩
        · rcases List.mem_append.mp hp with hp2 | hp2
          · rcases List.mem_append.mp hp2 with hp3 | hp3
            · rcases List.mem_append.mp hp3 with hp4 | hp4
              · obtain ⟨v, hv, heq⟩ := List.mem_map.mp hp4
                rw [List.mem_range] at hv
                obtain ⟨h1, h2⟩ := Prod.mk.injEq .. ▸ heq
                exact ⟨⟨by omega, by omega, by omega, by omega⟩, Or.inl (by omega)⟩
              · obtain ⟨v, hv, heq⟩ := List.mem_map.mp hp4
                rw [List.mem_range] at hv
                obtain ⟨h1, h2⟩ := Prod.mk.injEq .. ▸ heq
                exact ⟨⟨by omega, by omega, by omega, by omega⟩, Or.inr (Or.inl (by omega))⟩
            · obtain ⟨v, hv, heq⟩ := List.mem_map.mp hp3
              rw [List.mem_range] at hv
              obtain ⟨h1, h2⟩ := Prod.mk.injEq .. ▸ heq
              exact ⟨⟨by omega, by omega, by omega, by omega⟩,
                Or.inr (Or.inr (Or.inl (by omega)))⟩
          · obtain ⟨v, hv, heq⟩ := List.mem_map.mp hp2
            rw [List.mem_range] at hv
            obtain ⟨h1, h2⟩ := Prod.mk.injEq .. ▸ heq
            exact ⟨⟨by omega, by omega, by omega, by omega⟩,
              Or.inr (Or.inr (Or.inr (by omega)))⟩

/-- On a boundary tile the outward direction points off the grid. -/
theorem outwardDir_out {m : MS} {p : Pos} (hp : InGrid m p) (hb : Boundary m p) :
    ¬ InGrid m (target p (outwardDir m p)) := by
  obtain ⟨a, b⟩ := p
  obtain ⟨h1, h2, h3, h4⟩ := hp
  unfold outwardDir
  by_cases hb0 : b = 0
  · rw [if_pos hb0]
    intro ⟨_, _, hy, _⟩
    simp only [target] at hy
    omega
  · rw [if_neg hb0]
    by_cases hb1 : b = m.sizeY - 1
    · rw [if_pos hb1]
      intro ⟨_, _, _, hy⟩
      simp only [target] at hy
      omega
    · rw [if_neg hb1]
      by_cases ha0 : a = 0
      · rw [if_pos ha0]
        intro ⟨hx, _, _, _⟩
        simp only [target] at hx
        omega
      · rw [if_neg ha0]
        have ha1 : a = m.sizeX - 1 := by
          rcases hb with h | h | h | h
          · exact absurd h hb0
          · exact absurd h hb1
          · exact absurd h ha0
          · exact h
        intro ⟨_, hx, _, _⟩
        simp only [target] at hx
        omega

/-- An append whose target lies off the grid (the entry/exit openings) adds no
represented edge. -/
theorem edgeFinset_appendConn_out (m : MS) (p : Pos) (d : Dir)
    (hout : ¬ InGrid m (target p d)) :
    edgeFinset (appendConn m p d) = edgeFinset m := by
  cases d with
  | N => exact edgeFinset_appendConn_nw m p .N (Or.inl rfl)
  | W => exact edgeFinset_appendConn_nw m p .W (Or.inr rfl)
  | S =>
    have hgrid : ∀ q, InGrid (appendConn m p .S) q ↔ InGrid m q := by
      intro q; simp [InGrid, appendConn]
    ext ⟨a, b⟩
    simp only [mem_edgeFinset, hgrid, conn_appendConn]
    by_cases hap : a = p
    · subst hap
      rw [if_pos rfl]
      simp only [List.mem_append, List.mem_singleton]
      constructor
      · rintro ⟨h1, h2, ⟨hS | hSS, rfl⟩ | ⟨hE | hES, rfl⟩⟩
        · exact ⟨h1, h2, Or.inl ⟨hS, rfl⟩⟩
        · exact absurd h2 hout
        · exact ⟨h1, h2, Or.inr ⟨hE, rfl⟩⟩
        · exact absurd hES (by decide)
      · rintro ⟨h1, h2, ⟨hS, rfl⟩ | ⟨hE, rfl⟩⟩
        · exact ⟨h1, h2, Or.inl ⟨Or.inl hS, rfl⟩⟩
        · exact ⟨h1, h2, Or.inr ⟨Or.inl hE, rfl⟩⟩
    · rw [if_neg hap]
  | E =>
    have hgrid : ∀ q, InGrid (appendConn m p .E) q ↔ InGrid m q := by
      intro q; simp [InGrid, appendConn]
    ext ⟨a, b⟩
    simp only [mem_edgeFinset, hgrid, conn_appendConn]
    by_cases hap : a = p
    · subst hap
      rw [if_pos rfl]
      simp only [List.mem_append, List.mem_singleton]
      constructor
      · rintro ⟨h1, h2, ⟨hS | hSS, rfl⟩ | ⟨hE | hES, rfl⟩⟩
        · exact ⟨h1, h2, Or.inl ⟨hS, rfl⟩⟩
        · exact absurd hSS (by decide)
        · exact ⟨h1, h2, Or.inr ⟨hE, rfl⟩⟩
        · exact absurd h2 hout
      · rintro ⟨h1, h2, ⟨hS, rfl⟩ | ⟨hE, rfl⟩⟩
        · exact ⟨h1, h2, Or.inl ⟨Or.inl hS, rfl⟩⟩
        · exact ⟨h1, h2, Or.inr ⟨Or.inl hE, rfl⟩⟩
    · rw [if_neg hap]

theorem conn_setEntry (m : MS) (f : Pos → Option Bool) :
    ({ m with isEntry := f }).conn = m.conn := rfl

theorem isEntry_appendConn (m : MS) (p : Pos) (d : Dir) :
    (appendConn m p d).isEntry = m.isEntry := rfl

theorem outwardDir_appendConn (m : MS) (p q : Pos) (d : Dir) :
    outwardDir (appendConn m p d) q = outwardDir m q := rfl

theorem outwardDir_setEntry (m : MS) (f : Pos → Option Bool) (q : Pos) :
    outwardDir ({ m with isEntry := f }) q = outwardDir m q := rfl

theorem edgeFinset_setEntry (m : MS) (f : Pos → Option Bool) :
    edgeFinset ({ m with isEntry := f }) = edgeFinset m := rfl

theorem inGrid_congr {m m' : MS} (hx : m'.sizeX = m.sizeX) (hy : m'.sizeY = m.sizeY)
    (p : Pos) : InGrid m' p ↔ InGrid m p := by
  unfold InGrid
  rw [hx, hy]

theorem outwardDir_congr {m m' : MS} (hy : m'.sizeY = m.sizeY)
    (p : Pos) : outwardDir m' p = outwardDir m p := by
  unfold outwardDir
  rw [hy]

/-- Characterisation of `__makeEntryandExit` on success. -/
theorem makeEntryandExit_spec {m : MS} {r : RNG} {fuel : Nat} {m' : MS} {r' : RNG}
    (hsx : 1 ≤ m.sizeX) (hsy : 1 ≤ m.sizeY)
    (h : makeEntryandExit m r fuel = some (m', r')) :
    ∃ e x : Pos, e ≠ x ∧ InGrid m e ∧ Boundary m e ∧ InGrid m x ∧ Boundary m x ∧
      e ∈ get_wall_tiles m m.start_wall ∧ x ∈ get_wall_tiles m m.end_wall ∧
      m'.conn = (fun p => if p = x then m.conn x ++ [outwardDir m x]
                 else if p = e then m.conn e ++ [outwardDir m e] else m.conn p) ∧
      m'.isEntry = (fun p => if p = x then some false
                    else if p = e then some true else m.isEntry p) ∧
      edgeFinset m' = edgeFinset m ∧
      m'.workedOn = m.workedOn ∧ m'.sizeX = m.sizeX ∧ m'.sizeY = m.sizeY ∧
      m'.mazeIsDone = m.mazeIsDone ∧ m'.start_wall = m.start_wall ∧
      m'.end_wall = m.end_wall := by
  unfold makeEntryandExit at h
  simp only [] at h
  split at h
  · exact absurd h (by simp)
  · rename_i e x r2 heq
    obtain ⟨hne, hSmem, hEmem⟩ := entryExitLoop_spec fuel _ _ r e x r2 heq
    obtain ⟨heg, heb⟩ := mem_get_wall_tiles hsx hsy
      (hSmem (get_wall_tiles_ne_nil m hsx hsy _))
    obtain ⟨hxg, hxb⟩ := mem_get_wall_tiles hsx hsy
      (hEmem (get_wall_tiles_ne_nil m hsx hsy _))
    have h2 := Option.some.inj h
    injection h2 with hM hr
    subst hM
    refine ⟨e, x, hne, heg, heb, hxg, hxb,
      hSmem (get_wall_tiles_ne_nil m hsx hsy _), hEmem (get_wall_tiles_ne_nil m hsx hsy _),
      ?_, ?_, ?_, rfl, rfl, rfl, rfl, rfl, rfl⟩
    · funext p
      rw [conn_appendConn]
      simp only [conn_setEntry, conn_appendConn, outwardDir_appendConn, outwardDir_setEntry]
      by_cases hpx : p = x
      · rw [if_pos hpx, if_pos hpx]
        have hxe : ¬ x = e := fun habs => hne habs.symm
        rw [hpx, if_neg hxe]
      · rw [if_neg hpx, if_neg hpx]
        by_cases hpe : p = e
        · rw [if_pos hpe, if_pos hpe, hpe]
        · rw [if_neg hpe, if_neg hpe]
    · funext p
      show Function.update (Function.update m.isEntry e (some true)) x (some false) p = _
      by_cases hpx : p = x
      · rw [hpx, Function.update_same, if_pos rfl]
      · rw [Function.update_noteq hpx, if_neg hpx]
        by_cases hpe : p = e
        · rw [hpe, Function.update_same, if_pos rfl]
        · rw [Function.update_noteq hpe, if_neg hpe]
    · rw [edgeFinset_appendConn_out, edgeFinset_setEntry, edgeFinset_appendConn_out,
        edgeFinset_setEntry]
      · exact fun habs => outwardDir_out heg heb habs
      · exact fun habs => outwardDir_out hxg hxb habs

/-!
## The formed-maze bundle and the top-level formation theorems

`Formed` collects everything both generation algorithms guarantee about
their result: a spanning tree of the grid (symmetric, duplicate-free
connections, connected, with exactly one fewer edge than tiles), the done
flag, and exactly one entry and one exit opening, each an in-grid boundary
tile on its requested wall whose only off-grid connection is the single
outward direction.
-/

theorem get_wall_tiles_congr {m m' : MS} (hx : m'.sizeX = m.sizeX)
    (hy : m'.sizeY = m.sizeY) (w : String) :
    get_wall_tiles m' w = get_wall_tiles m w := by
  unfold get_wall_tiles
  rw [hx, hy]

structure Formed (s : MS) : Prop where
  done : s.mazeIsDone = true
  internal : ∀ p d, d ∈ s.conn p → InGrid s p
  outside : ∀ p, ¬ InGrid s p → s.conn p = []
  symm : ∀ p d, d ∈ s.conn p → InGrid s (target p d) → d.opp ∈ s.conn (target p d)
  nodupC : ∀ p, (s.conn p).Nodup
  connected : ConnectedMaze s
  count : (edgeFinset s).card + 1 = s.sizeX.toNat * s.sizeY.toNat
  entry : ∃ e x : Pos, e ≠ x ∧
    e ∈ get_wall_tiles s s.start_wall ∧ x ∈ get_wall_tiles s s.end_wall ∧
    s.isEntry e = some true ∧ s.isEntry x = some false ∧
    (∀ p, p ≠ e → p ≠ x → s.isEntry p = none) ∧
    (s.conn e).filter (fun d => !(decide (InGrid s (target e d)))) = [outwardDir s e] ∧
    (s.conn x).filter (fun d => !(decide (InGrid s (target x d)))) = [outwardDir s x] ∧
    (∀ p, p ≠ e → p ≠ x →
      (s.conn p).filter (fun d => !(decide (InGrid s (target p d)))) = [])

/-- The common tail of both algorithms: a fully visited `FormInv` state
followed by `__makeEntryandExit` and setting the done flag is `Formed`. -/
theorem formed_tail {m2 : MS} {r2 : RNG} {fuel : Nat} {m3 : MS} {r3 : RNG}
    (hsx : 1 ≤ m2.sizeX) (hsy : 1 ≤ m2.sizeY)
    (hFI : FormInv m2) (hAll : ∀ p, InGrid m2 p → m2.workedOn p = true)
    (h : makeEntryandExit m2 r2 fuel = some (m3, r3)) :
    Formed ({ m3 with mazeIsDone := true }) ∧
    m3.sizeX = m2.sizeX ∧ m3.sizeY = m2.sizeY ∧
    m3.start_wall = m2.start_wall ∧ m3.end_wall = m2.end_wall := by
  obtain ⟨e, x, hne, heg, heb, hxg, hxb, hewall, hxwall, hconn, hie, hedge,
    hwo, hsX, hsY, hdone, hsw, hew⟩ := makeEntryandExit_spec hsx hsy h
  refine ⟨?_, hsX, hsY, hsw, hew⟩
  set s : MS := { m3 with mazeIsDone := true } with hs
  have hIG : ∀ p, InGrid s p ↔ InGrid m2 p := fun p => inGrid_congr hsX hsY p
  have hOD : ∀ p, outwardDir s p = outwardDir m2 p := fun p => outwardDir_congr hsY p
  have hc : ∀ p, s.conn p =
      if p = x then m2.conn x ++ [outwardDir m2 x]
      else if p = e then m2.conn e ++ [outwardDir m2 e] else m2.conn p :=
    fun p => congrFun hconn p
  have hci : ∀ p, s.isEntry p =
      if p = x then some false else if p = e then some true else m2.isEntry p :=
    fun p => congrFun hie p
  have hsub : ∀ p, ∀ d ∈ m2.conn p, d ∈ s.conn p := by
    intro p d hd
    rw [hc p]
    split
    · rename_i hpx
      rw [hpx] at hd
      exact List.mem_append_left _ hd
    · split
      · rename_i hpe
        rw [hpe] at hd
        exact List.mem_append_left _ hd
      · exact hd
  have hnotInE : outwardDir m2 e ∉ m2.conn e :=
    fun habs => outwardDir_out heg heb (hFI.internal e _ habs).2
  have hnotInX : outwardDir m2 x ∉ m2.conn x :=
    fun habs => outwardDir_out hxg hxb (hFI.internal x _ habs).2
  refine ⟨rfl, ?_, ?_, ?_, ?_, ?_, ?_, ?_⟩
  · intro p d hd
    rw [hc p] at hd
    rw [hIG]
    split at hd
    · rename_i hpx
      rw [hpx]
      exact hxg
    · split at hd
      · rename_i hpe
        rw [hpe]
        exact heg
      · exact (hFI.internal p d hd).1
  · intro p hp
    have hp2 : ¬ InGrid m2 p := fun h2 => hp ((hIG p).mpr h2)
    have hpx : ¬ p = x := fun habs => hp2 (by rw [habs]; exact hxg)
    have hpe : ¬ p = e := fun habs => hp2 (by rw [habs]; exact heg)
    rw [hc p, if_neg hpx, if_neg hpe]
    exact (hFI.outside p hp2).1
  · intro p d hd hT
    have hT2 : InGrid m2 (target p d) := (hIG _).mp hT
    rw [hc p] at hd
    split at hd
    · rename_i hpx
      subst hpx
      rcases List.mem_append.mp hd with hd | hd
      · exact hsub _ _ (hFI.symm p d hd)
      · rw [List.mem_singleton] at hd
        subst hd
        exact absurd hT2 (outwardDir_out hxg hxb)
    · split at hd
      · rename_i hpe
        subst hpe
        rcases List.mem_append.mp hd with hd | hd
        · exact hsub _ _ (hFI.symm p d hd)
        · rw [List.mem_singleton] at hd
          subst hd
          exact absurd hT2 (outwardDir_out heg heb)
      · exact hsub _ _ (hFI.symm p d hd)
  · intro p
    rw [hc p]
    split
    · simp [List.nodup_append, hFI.nodupC, hnotInX]
    · split
      · simp [List.nodup_append, hFI.nodupC, hnotInE]
      · exact hFI.nodupC p
  · intro p q hp hq
    have hr : Reaches m2 p q := hFI.visConn p q (hAll p ((hIG p).mp hp)) (hAll q ((hIG q).mp hq))
    exact reaches_mono hsX hsY hsub hr
  · have he1 : edgeFinset s = edgeFinset m2 := hedge
    rw [he1, hFI.count]
    have hv : visitedFinset m2 = gridFinset m2 := by
      rw [visitedFinset, Finset.filter_eq_self]
      intro p hp
      exact hAll p (mem_gridFinset.mp hp)
    rw [hv, card_gridFinset]
    show m2.sizeX.toNat * m2.sizeY.toNat = m3.sizeX.toNat * m3.sizeY.toNat
    rw [hsX, hsY]
  · refine ⟨e, x, hne, ?_, ?_, ?_, ?_, ?_, ?_, ?_, ?_⟩
    · have h1 : get_wall_tiles s s.start_wall = get_wall_tiles m2 m2.start_wall := by
        show get_wall_tiles s m3.start_wall = _
        rw [hsw]
        exact get_wall_tiles_congr hsX hsY _
      rw [h1]
      exact hewall
    · have h1 : get_wall_tiles s s.end_wall = get_wall_tiles m2 m2.end_wall := by
        show get_wall_tiles s m3.end_wall = _
        rw [hew]
        exact get_wall_tiles_congr hsX hsY _
      rw [h1]
      exact hxwall
    · rw [hci e, if_neg hne, if_pos rfl]
    · rw [hci x, if_pos rfl]
    · intro p hpe hpx
      rw [hci p, if_neg hpx, if_neg hpe]
      exact hFI.noEntry p
    · rw [hOD e, hc e, if_neg hne, if_pos rfl, List.filter_append]
      have h1 : (m2.conn e).filter (fun d => !(decide (InGrid s (target e d)))) = [] := by
        rw [List.filter_eq_nil_iff]
        intro d hd
        have h2 := (hFI.internal e d hd).2
        simp [(hIG _).mpr h2]
      have h2 : ([outwardDir m2 e]).filter
          (fun d => !(decide (InGrid s (target e d)))) = [outwardDir m2 e] := by
        have hout : ¬ InGrid s (target e (outwardDir m2 e)) :=
          fun habs => outwardDir_out heg heb ((hIG _).mp habs)
        simp [hout]
      rw [h1, h2, List.nil_append]
    · rw [hOD x, hc x, if_pos rfl, List.filter_append]
      have h1 : (m2.conn x).filter (fun d => !(decide (InGrid s (target x d)))) = [] := by
        rw [List.filter_eq_nil_iff]
        intro d hd
        have h2 := (hFI.internal x d hd).2
        simp [(hIG _).mpr h2]
      have h2 : ([outwardDir m2 x]).filter
          (fun d => !(decide (InGrid s (target x d)))) = [outwardDir m2 x] := by
        have hout : ¬ InGrid s (target x (outwardDir m2 x)) :=
          fun habs => outwardDir_out hxg hxb ((hIG _).mp habs)
        simp [hout]
      rw [h1, h2, List.nil_append]
    · intro p hpe hpx
      rw [hc p, if_neg hpx, if_neg hpe, List.filter_eq_nil_iff]
      intro d hd
      have h2 := (hFI.internal p d hd).2
      simp [(hIG _).mpr h2]

/-- The state right after marking the random starting tile satisfies the
formation invariant when the maze starts empty. -/
theorem init_formInv {m0 : MS} (hc : ∀ p, m0.conn p = [])
    (hw : ∀ p, m0.workedOn p = false) (hie : ∀ p, m0.isEntry p = none)
    {start : Pos} (hs : InGrid m0 start) :
    FormInv { m0 with workedOn := Function.update m0.workedOn start true } := by
  set m1 : MS := { m0 with workedOn := Function.update m0.workedOn start true } with hm1
  have hwo : ∀ p, m1.workedOn p = true ↔ p = start := by
    intro p
    show Function.update m0.workedOn start true p = true ↔ p = start
    by_cases hps : p = start
    · rw [hps, Function.update_same]
      simp
    · rw [Function.update_noteq hps, hw]
      simp [hps]
  have hconn : ∀ p, m1.conn p = [] := hc
  refine ⟨?_, ?_, ?_, ?_, ?_, ?_, ?_, hie⟩
  · intro p hp
    refine ⟨hc p, ?_⟩
    show Function.update m0.workedOn start true p = false
    have hps : p ≠ start := fun habs => hp (habs ▸ hs)
    rw [Function.update_noteq hps, hw]
  · intro p d hd
    rw [hconn] at hd
    exact absurd hd (List.not_mem_nil d)
  · intro p d hd
    rw [hconn] at hd
    exact absurd hd (List.not_mem_nil d)
  · intro p
    rw [hconn]
    exact List.nodup_nil
  · intro p hp
    exact absurd (hconn p) hp
  · intro p q hp hq
    rw [hwo] at hp hq
    rw [hp, hq]
    exact Relation.ReflTransGen.refl
  · have he : edgeFinset m1 = ∅ := by
      ext pq
      rw [mem_edgeFinset]
      simp [hc]
    have hv : visitedFinset m1 = {start} := by
      ext q
      rw [visitedFinset, Finset.mem_filter, mem_gridFinset, Finset.mem_singleton, hwo]
      constructor
      · exact fun h => h.2
      · intro h
        exact ⟨h ▸ hs, h⟩
    rw [he, hv, Finset.card_empty, Finset.card_singleton]

/-- The random starting tile drawn by both algorithms lies on the grid. -/
theorem start_inGrid {m : MS} (hsx : 1 ≤ m.sizeX) (hsy : 1 ≤ m.sizeY) (a b : Nat) :
    InGrid m (((a % m.sizeX.toNat : Nat) : Int), ((b % m.sizeY.toNat : Nat) : Int)) := by
  have h1 : a % m.sizeX.toNat < m.sizeX.toNat := Nat.mod_lt _ (by omega)
  have h2 : b % m.sizeY.toNat < m.sizeY.toNat := Nat.mod_lt _ (by omega)
  exact ⟨by positivity, by omega, by positivity, by omega⟩

/-- `makeMazeSimple` on an empty, unformed maze of positive size produces a
`Formed` maze with the same dimensions and wall settings. -/
theorem makeMazeSimple_post {m0 : MS} (hc : ∀ p, m0.conn p = [])
    (hw : ∀ p, m0.workedOn p = false) (hie : ∀ p, m0.isEntry p = none)
    (hd : m0.mazeIsDone = false) (hsx : 1 ≤ m0.sizeX) (hsy : 1 ≤ m0.sizeY)
    {r : RNG} {fuel : Nat} {s : MS} {r' : RNG}
    (h : makeMazeSimple m0 r fuel = some (.ok (s, r'))) :
    Formed s ∧ s.sizeX = m0.sizeX ∧ s.sizeY = m0.sizeY ∧
    s.start_wall = m0.start_wall ∧ s.end_wall = m0.end_wall := by
  unfold makeMazeSimple at h
  rw [if_neg (by simp [hd])] at h
  simp only [] at h
  have hs : InGrid m0 (((rhead (rtail r) % m0.sizeX.toNat : Nat) : Int),
      ((rhead r % m0.sizeY.toNat : Nat) : Int)) := start_inGrid hsx hsy _ _
  split at h
  · exact absurd h (by simp)
  · rename_i m2 r2 heq
    split at h
    · exact absurd h (by simp)
    · rename_i m3 r3 heq2
      have h2 := Option.some.inj h
      injection h2 with h2
      injection h2 with hM hr
      set start : Pos := (((rhead (rtail r) % m0.sizeX.toNat : Nat) : Int),
        ((rhead r % m0.sizeY.toNat : Nat) : Int)) with hstart
      set m1 : MS := { m0 with workedOn := Function.update m0.workedOn start true } with hm1
      have hFI1 : FormInv m1 := init_formInv hc hw hie hs
      have hWO1 : ∀ p, m1.workedOn p = true ↔ p = start := by
        intro p
        show Function.update m0.workedOn start true p = true ↔ p = start
        by_cases hps : p = start
        · rw [hps, Function.update_same]
          simp
        · rw [Function.update_noteq hps, hw]
          simp [hps]
      have hinv : PrimInv m1 (nextTiles m1 start) := by
        refine ⟨hFI1, ?_, nodup_nextTiles m1 start, ?_, ?_, ?_⟩
        · intro p hp
          exact ((mem_nextTiles hs).mp hp).1
        · intro p hp
          obtain ⟨hpg, d, hpd⟩ := (mem_nextTiles hs).mp hp
          have hps : p ≠ start := fun habs => target_ne start d (habs ▸ hpd)
          show Function.update m0.workedOn start true p = false
          rw [Function.update_noteq hps, hw]
        · intro p hp
          obtain ⟨hpg, d, hpd⟩ := (mem_nextTiles hs).mp hp
          refine ⟨start, ⟨hpg, hs, d.opp, ?_⟩, (hWO1 start).mpr rfl⟩
          rw [← hpd, target_opp]
        · intro p hpg hpw ⟨q, hadj, hqw⟩
          rw [hWO1] at hqw
          obtain ⟨_, _, d, hd⟩ := hadj
          refine (mem_nextTiles (m := m1) hs).mpr ⟨hpg, d.opp, ?_⟩
          rw [← hqw, ← hd, target_opp]
      obtain ⟨hFI2, hAll2, hX2, hY2, hD2, hSW2, hEW2⟩ :=
        primLoop_post fuel m1 _ _ m2 r2 hinv heq
      have hsx2 : 1 ≤ m2.sizeX := by rw [hX2]; exact hsx
      have hsy2 : 1 ≤ m2.sizeY := by rw [hY2]; exact hsy
      obtain ⟨hFormed, hX3, hY3, hSW3, hEW3⟩ := formed_tail hsx2 hsy2 hFI2 hAll2 heq2
      rw [← hM]
      refine ⟨hFormed, ?_, ?_, ?_, ?_⟩
      · show m3.sizeX = m0.sizeX
        rw [hX3, hX2]
      · show m3.sizeY = m0.sizeY
        rw [hY3, hY2]
      · show m3.start_wall = m0.start_wall
        rw [hSW3, hSW2]
      · show m3.end_wall = m0.end_wall
        rw [hEW3, hEW2]

/-- `makeMazeGrowTree` on an empty, unformed maze of positive size produces a
`Formed` maze with the same dimensions and wall settings, for any weights. -/
theorem makeMazeGrowTree_post {m0 : MS} (hc : ∀ p, m0.conn p = [])
    (hw : ∀ p, m0.workedOn p = false) (hie : ∀ p, m0.isEntry p = none)
    (hd : m0.mazeIsDone = false) (hsx : 1 ≤ m0.sizeX) (hsy : 1 ≤ m0.sizeY)
    {wh wl : Int} {r : RNG} {fuel : Nat} {s : MS} {r' : RNG}
    (h : makeMazeGrowTree m0 wh wl r fuel = some (.ok (s, r'))) :
    Formed s ∧ s.sizeX = m0.sizeX ∧ s.sizeY = m0.sizeY ∧
    s.start_wall = m0.start_wall ∧ s.end_wall = m0.end_wall := by
  unfold makeMazeGrowTree at h
  rw [if_neg (by simp [hd])] at h
  simp only [] at h
  have hs : InGrid m0 (((rhead (rtail r) % m0.sizeX.toNat : Nat) : Int),
      ((rhead r % m0.sizeY.toNat : Nat) : Int)) := start_inGrid hsx hsy _ _
  split at h
  · exact absurd h (by simp)
  · rename_i m2 r2 heq
    split at h
    · exact absurd h (by simp)
    · rename_i m3 r3 heq2
      have h2 := Option.some.inj h
      injection h2 with h2
      injection h2 with hM hr
      set start : Pos := (((rhead (rtail r) % m0.sizeX.toNat : Nat) : Int),
        ((rhead r % m0.sizeY.toNat : Nat) : Int)) with hstart
      set m1 : MS := { m0 with workedOn := Function.update m0.workedOn start true } with hm1
      have hFI1 : FormInv m1 := init_formInv hc hw hie hs
      have hWO1 : ∀ p, m1.workedOn p = true ↔ p = start := by
        intro p
        show Function.update m0.workedOn start true p = true ↔ p = start
        by_cases hps : p = start
        · rw [hps, Function.update_same]
          simp
        · rw [Function.update_noteq hps, hw]
          simp [hps]
      have hinv : GrowInv m1 [start] := by
        refine ⟨hFI1, ?_, ?_, List.nodup_singleton start, ?_⟩
        · intro p hp
          rw [List.mem_singleton] at hp
          rw [hp]
          exact hs
        · intro p hp
          rw [List.mem_singleton] at hp
          exact (hWO1 p).mpr hp
        · intro p hpg hpw _
          rw [List.mem_singleton]
          exact (hWO1 p).mp hpw
      obtain ⟨hFI2, hAll2, hX2, hY2, hD2, hSW2, hEW2⟩ :=
        growLoop_post fuel m1 _ _ _ _ m2 r2 hinv heq
      have hsx2 : 1 ≤ m2.sizeX := by rw [hX2]; exact hsx
      have hsy2 : 1 ≤ m2.sizeY := by rw [hY2]; exact hsy
      obtain ⟨hFormed, hX3, hY3, hSW3, hEW3⟩ := formed_tail hsx2 hsy2 hFI2 hAll2 heq2
      rw [← hM]
      refine ⟨hFormed, ?_, ?_, ?_, ?_⟩
      · show m3.sizeX = m0.sizeX
        rw [hX3, hX2]
      · show m3.sizeY = m0.sizeY
        rw [hY3, hY2]
      · show m3.start_wall = m0.start_wall
        rw [hSW3, hSW2]
      · show m3.end_wall = m0.end_wall
        rw [hEW3, hEW2]

/-!
## Braiding: `__connectTilesWithString`, the direction loop, and both passes
-/

theorem connectTilesWithString_ok {m : MS} {p : Pos} {d : Dir}
    (hp : InGrid m p) (hin : InGrid m (target p d)) :
    connectTilesWithString m p d =
      .ok (appendConn (appendConn m (target p d) d.opp) p d) := by
  obtain ⟨a, b⟩ := p
  obtain ⟨h1, h2, h3, h4⟩ := hp
  cases d
  · exact if_neg (by obtain ⟨k1, k2, k3, k4⟩ := hin; simp only [target] at *; omega)
  · exact if_neg (by obtain ⟨k1, k2, k3, k4⟩ := hin; simp only [target] at *; omega)
  · exact if_neg (by obtain ⟨k1, k2, k3, k4⟩ := hin; simp only [target] at *; omega)
  · exact if_neg (by obtain ⟨k1, k2, k3, k4⟩ := hin; simp only [target] at *; omega)

theorem connectTilesWithString_err {m : MS} {p : Pos} {d : Dir}
    (hp : InGrid m p) (hout : ¬ InGrid m (target p d)) :
    connectTilesWithString m p d =
      .error ⟨"This tile can not connect in this direction", 2⟩ := by
  obtain ⟨a, b⟩ := p
  obtain ⟨h1, h2, h3, h4⟩ := hp
  unfold InGrid at hout
  cases d
  · exact if_pos (by simp only [target] at hout ⊢; omega)
  · exact if_pos (by simp only [target] at hout ⊢; omega)
  · exact if_pos (by simp only [target] at hout ⊢; omega)
  · exact if_pos (by simp only [target] at hout ⊢; omega)

/-- The direction loop never raises for an in-grid tile: it either connects
along the first direction whose neighbour is on the grid or leaves the state
untouched. -/
theorem tryDirs_spec {m : MS} {p : Pos} (hp : InGrid m p) (l : List Dir) :
    ((∀ d ∈ l, ¬ InGrid m (target p d)) ∧ tryDirs m p l = .ok m) ∨
    (∃ d ∈ l, InGrid m (target p d) ∧
      tryDirs m p l = .ok (appendConn (appendConn m (target p d) d.opp) p d)) := by
  induction l with
  | nil => exact Or.inl ⟨fun d hd => absurd hd (List.not_mem_nil d), rfl⟩
  | cons d rest ih =>
    by_cases hd : InGrid m (target p d)
    · refine Or.inr ⟨d, List.mem_cons_self d rest, hd, ?_⟩
      rw [tryDirs, connectTilesWithString_ok hp hd]
    · have hstep : tryDirs m p (d :: rest) = tryDirs m p rest := by
        rw [tryDirs, connectTilesWithString_err hp hd]
        simp
      rcases ih with ⟨hall, hok⟩ | ⟨d', hd', hin', hok⟩
      · refine Or.inl ⟨?_, by rw [hstep]; exact hok⟩
        intro d'' hd''
        rcases List.mem_cons.mp hd'' with rfl | hmem
        · exact hd
        · exact hall d'' hmem
      · exact Or.inr ⟨d', List.mem_cons_of_mem d hd', hin', by rw [hstep]; exact hok⟩

theorem shuffleGo_perm : ∀ (n : Nat) (r : RNG) (l : List Dir), l.length = n →
    (shuffleGo n r l).1.Perm l := by
  intro n
  induction n with
  | zero =>
    intro r l hl
    rw [List.length_eq_zero] at hl
    rw [hl]
    exact List.Perm.refl _
  | succ n ih =>
    intro r l hl
    have hne : ¬ l.isEmpty := by
      cases l
      · simp at hl
      · simp
    rw [shuffleGo, if_neg hne]
    have hlen : rhead r % l.length < l.length := Nat.mod_lt _ (by omega)
    have hmem : l.getD (rhead r % l.length) .N ∈ l := by
      rw [List.getD_eq_getElem l .N hlen]
      exact List.getElem_mem hlen
    have herase : (l.erase (l.getD (rhead r % l.length) .N)).length = n := by
      rw [List.length_erase_of_mem hmem, hl]
      omega
    exact ((ih (rtail r) _ herase).cons _).trans (List.perm_cons_erase hmem).symm

theorem shuffleO_perm (r : RNG) (l : List Dir) : (shuffleO r l).1.Perm l :=
  shuffleGo_perm _ r l rfl

theorem mem_erase_four {c d : Dir} :
    d ∈ ([Dir.N, Dir.S, Dir.W, Dir.E].erase c) ↔ d ≠ c := by
  cases c <;> cases d <;> decide

theorem mem_foldl_erase (d : Dir) :
    ∀ (cs l : List Dir), l.Nodup →
    (d ∈ cs.foldl (fun l c => l.erase c) l ↔ d ∈ l ∧ d ∉ cs) := by
  intro cs
  induction cs with
  | nil => simp
  | cons c cs ih =>
    intro l hnd
    rw [List.foldl_cons, ih (l.erase c) (hnd.erase c), hnd.mem_erase_iff,
      List.mem_cons]
    constructor
    · rintro ⟨⟨hdc, hdl⟩, hdcs⟩
      exact ⟨hdl, fun habs => habs.elim hdc hdcs⟩
    · rintro ⟨hdl, hdcs⟩
      exact ⟨⟨fun habs => hdcs (Or.inl habs), hdl⟩, fun habs => hdcs (Or.inr habs)⟩

/-- In a grid of width and height at least `2`, every tile has two distinct
in-grid neighbours. -/
theorem two_neighbors {m : MS} (hsx : 2 ≤ m.sizeX) (hsy : 2 ≤ m.sizeY) {p : Pos}
    (hp : InGrid m p) :
    ∃ d1 d2 : Dir, d1 ≠ d2 ∧ InGrid m (target p d1) ∧ InGrid m (target p d2) := by
  obtain ⟨a, b⟩ := p
  obtain ⟨h1, h2, h3, h4⟩ := hp
  by_cases ha : a = 0
  · by_cases hb : b = 0
    · exact ⟨.E, .S, by decide, ⟨by simp [target]; omega, by simp [target]; omega,
        by simp [target]; omega, by simp [target]; omega⟩,
        ⟨by simp [target]; omega, by simp [target]; omega,
        by simp [target]; omega, by simp [target]; omega⟩⟩
    · exact ⟨.E, .N, by decide, ⟨by simp [target]; omega, by simp [target]; omega,
        by simp [target]; omega, by simp [target]; omega⟩,
        ⟨by simp [target]; omega, by simp [target]; omega,
        by simp [target]; omega, by simp [target]; omega⟩⟩
  · by_cases hb : b = 0
    · exact ⟨.W, .S, by decide, ⟨by simp [target]; omega, by simp [target]; omega,
        by simp [target]; omega, by simp [target]; omega⟩,
        ⟨by simp [target]; omega, by simp [target]; omega,
        by simp [target]; omega, by simp [target]; omega⟩⟩
    · exact ⟨.W, .N, by decide, ⟨by simp [target]; omega, by simp [target]; omega,
        by simp [target]; omega, by simp [target]; omega⟩,
        ⟨by simp [target]; omega, by simp [target]; omega,
        by simp [target]; omega, by simp [target]; omega⟩⟩

/-- The braid-state invariant: guarded symmetry, duplicate-free connection
lists, and no in-grid tile left unconnected. -/
structure DState (m : MS) : Prop where
  symm : ∀ p d, d ∈ m.conn p → InGrid m (target p d) → d.opp ∈ m.conn (target p d)
  nodupC : ∀ p, (m.conn p).Nodup
  ne : ∀ p, InGrid m p → m.conn p ≠ []

/-- One successful braid connection: the invariant survives, every old
connection survives, lists only grow, and the tile's own list grows by one. -/
theorem braid_connect_step {m : MS} {p : Pos} {d : Dir}
    (hDS : DState m) (hp : InGrid m p) (hin : InGrid m (target p d))
    (hdnew : d ∉ m.conn p) :
    DState (appendConn (appendConn m (target p d) d.opp) p d) ∧
    (∀ q, (appendConn (appendConn m (target p d) d.opp) p d).conn q =
      if q = p then m.conn p ++ [d]
      else if q = target p d then m.conn (target p d) ++ [d.opp] else m.conn q) := by
  set t : Pos := target p d with ht
  have htp : t ≠ p := target_ne p d
  have hcq : ∀ q, (appendConn (appendConn m t d.opp) p d).conn q =
      if q = p then m.conn p ++ [d]
      else if q = t then m.conn t ++ [d.opp] else m.conn q := by
    intro q
    rw [conn_appendConn, conn_appendConn]
    by_cases hqp : q = p
    · rw [if_pos hqp, if_pos hqp, hqp, if_neg (Ne.symm htp)]
    · rw [if_neg hqp, if_neg hqp]
      by_cases hqt : q = t
      · rw [if_pos hqt, if_pos hqt, hqt]
      · rw [if_neg hqt, if_neg hqt]
  have hoppnew : d.opp ∉ m.conn t := by
    intro habs
    have h2 := hDS.symm t d.opp habs
    rw [ht, target_opp, opp_opp] at h2
    exact hdnew (h2 hp)
  have hIG : ∀ q, InGrid (appendConn (appendConn m t d.opp) p d) q ↔ InGrid m q :=
    fun _ => Iff.rfl
  have hsub : ∀ u e, e ∈ m.conn u → e ∈ (appendConn (appendConn m t d.opp) p d).conn u := by
    intro u e he
    rw [hcq]
    split
    · rename_i hup
      rw [hup] at he
      exact List.mem_append_left _ he
    · split
      · rename_i hut
        rw [hut] at he
        exact List.mem_append_left _ he
      · exact he
  refine ⟨⟨?_, ?_, ?_⟩, hcq⟩
  · intro q d' hd' hT
    rw [hcq] at hd'
    rw [hIG] at hT
    split at hd'
    · rename_i hqp
      rcases List.mem_append.mp hd' with hd2 | hd2
      · have h3 := hDS.symm p d' hd2 (by rw [← hqp]; exact hT)
        rw [hqp]
        exact hsub _ _ h3
      · rw [List.mem_singleton] at hd2
        rw [hd2, hqp, ← ht, hcq, if_neg htp, if_pos rfl]
        exact List.mem_append_right _ (List.mem_singleton.mpr rfl)
    · split at hd'
      · rename_i hqt
        rcases List.mem_append.mp hd' with hd2 | hd2
        · have h3 := hDS.symm t d' hd2 (by rw [← hqt]; exact hT)
          rw [hqt]
          exact hsub _ _ h3
        · rw [List.mem_singleton] at hd2
          have h2 : target t d.opp = p := by rw [ht, target_opp]
          rw [hd2, hqt, h2, hcq, if_pos rfl, opp_opp]
          exact List.mem_append_right _ (List.mem_singleton.mpr rfl)
      · exact hsub _ _ (hDS.symm q d' hd' hT)
  · intro q
    rw [hcq]
    split
    · simp [List.nodup_append, hDS.nodupC, hdnew]
    · split
      · simp [List.nodup_append, hDS.nodupC, hoppnew]
      · exact hDS.nodupC q
  · intro q hq
    rw [hIG] at hq
    rw [hcq]
    have h2 := hDS.ne q hq
    split
    · simp
    · split
      · simp
      · exact h2

/-- The dead-end pass over any tile list: it never raises, preserves the braid
invariant and every existing connection, never shrinks a connection list, and
— in a grid at least `2×2` — leaves no processed tile with exactly one
connection. -/
theorem deadFold (ts : List Pos) : ∀ (m : MS) (r : RNG),
    DState m → (∀ p ∈ ts, InGrid m p) →
    ∃ m' r', ts.foldl deadStep (.ok (m, r)) = .ok (m', r') ∧ DState m' ∧
      m'.sizeX = m.sizeX ∧ m'.sizeY = m.sizeY ∧ m'.isEntry = m.isEntry ∧
      m'.workedOn = m.workedOn ∧ m'.mazeIsDone = m.mazeIsDone ∧
      m'.start_wall = m.start_wall ∧ m'.end_wall = m.end_wall ∧
      (∀ p d, d ∈ m.conn p → d ∈ m'.conn p) ∧
      (∀ p, (m.conn p).length ≤ (m'.conn p).length) ∧
      (2 ≤ m.sizeX → 2 ≤ m.sizeY → ∀ p ∈ ts, (m'.conn p).length ≠ 1) := by
  induction ts with
  | nil =>
    intro m r hDS hts
    exact ⟨m, r, rfl, hDS, rfl, rfl, rfl, rfl, rfl, rfl, rfl,
      fun _ _ h => h, fun _ => le_refl _, fun _ _ p hp => absurd hp (List.not_mem_nil p)⟩
  | cons p ts ih =>
    intro m r hDS hts
    have hp : InGrid m p := hts p (List.mem_cons_self p ts)
    have htl : ∀ q ∈ ts, InGrid m q := fun q hq => hts q (List.mem_cons_of_mem p hq)
    rw [List.foldl_cons]
    by_cases hlen : (m.conn p).length = 1
    · obtain ⟨c, hc⟩ := List.length_eq_one.mp hlen
      have hstep : deadStep (.ok (m, r)) p =
          match tryDirs m p (shuffleO r ([Dir.N, Dir.S, Dir.W, Dir.E].erase
            ((m.conn p).headD .N))).1 with
          | .ok m1 => .ok (m1, (shuffleO r ([Dir.N, Dir.S, Dir.W, Dir.E].erase
              ((m.conn p).headD .N))).2)
          | .error e => .error e := by
        rw [deadStep, if_pos hlen]
      have hhead : (m.conn p).headD .N = c := by rw [hc]; rfl
      rcases tryDirs_spec hp (shuffleO r ([Dir.N, Dir.S, Dir.W, Dir.E].erase
          ((m.conn p).headD .N))).1 with ⟨hall, hok⟩ | ⟨d, hdm, hin, hok⟩
      · rw [hstep, hok]
        obtain ⟨m', r', hfold, hDS', hX, hY, hIE, hWO, hD, hSW, hEW, hmono, hlmono, hdead⟩ :=
          ih m _ hDS htl
        refine ⟨m', r', hfold, hDS', hX, hY, hIE, hWO, hD, hSW, hEW, hmono, hlmono, ?_⟩
        intro hsx hsy q hq
        obtain ⟨d1, d2, hne12, hin1, hin2⟩ := two_neighbors hsx hsy hp
        have hesc : ∃ e : Dir, e ≠ c ∧ InGrid m (target p e) := by
          by_cases h1 : d1 = c
          · exact ⟨d2, fun habs => hne12 (h1 ▸ habs ▸ rfl), hin2⟩
          · exact ⟨d1, h1, hin1⟩
        obtain ⟨e, hec, hein⟩ := hesc
        have hmem : e ∈ (shuffleO r ([Dir.N, Dir.S, Dir.W, Dir.E].erase
            ((m.conn p).headD .N))).1 := by
          rw [(shuffleO_perm r _).mem_iff, hhead, mem_erase_four]
          exact hec
        exact absurd hein (hall e hmem)
      · rw [hstep, hok]
        have hdnot : d ∉ m.conn p := by
          rw [hc, List.mem_singleton]
          intro habs
          have h2 : d ∈ [Dir.N, Dir.S, Dir.W, Dir.E].erase ((m.conn p).headD .N) :=
            (shuffleO_perm r _).mem_iff.mp hdm
          rw [hhead, mem_erase_four] at h2
          exact h2 habs
        obtain ⟨hDS1, hcq⟩ := braid_connect_step hDS hp hin hdnot
        obtain ⟨m', r', hfold, hDS', hX, hY, hIE, hWO, hD, hSW, hEW, hmono, hlmono, hdead⟩ :=
          ih (appendConn (appendConn m (target p d) d.opp) p d) _ hDS1
            (fun q hq => htl q hq)
        have hmono1 : ∀ q d', d' ∈ m.conn q →
            d' ∈ (appendConn (appendConn m (target p d) d.opp) p d).conn q := by
          intro q d' hd'
          rw [hcq]
          split
          · rename_i hqp
            rw [hqp] at hd'
            exact List.mem_append_left _ hd'
          · split
            · rename_i hqt
              rw [hqt] at hd'
              exact List.mem_append_left _ hd'
            · exact hd'
        have hlmono1 : ∀ q, (m.conn q).length ≤
            ((appendConn (appendConn m (target p d) d.opp) p d).conn q).length := by
          intro q
          rw [hcq]
          split
          · rename_i hqp
            rw [hqp, List.length_append]
            omega
          · split
            · rename_i hqt
              rw [hqt, List.length_append]
              omega
            · exact le_refl _
        refine ⟨m', r', hfold, hDS', hX, hY, hIE, hWO, hD, hSW, hEW,
          fun q d' hd' => hmono q d' (hmono1 q d' hd'),
          fun q => le_trans (hlmono1 q) (hlmono q), ?_⟩
        intro hsx hsy q hq
        rcases List.mem_cons.mp hq with rfl | hq2
        · have h2 : ((appendConn (appendConn m (target q d) d.opp) q d).conn q).length = 2 := by
            rw [hcq, if_pos rfl, List.length_append, hc]
            rfl
          have h3 := hlmono q
          rw [h2] at h3
          omega
        · exact hdead hsx hsy q hq2
    · rw [show deadStep (.ok (m, r)) p = .ok (m, r) from by rw [deadStep, if_neg hlen]]
      obtain ⟨m', r', hfold, hDS', hX, hY, hIE, hWO, hD, hSW, hEW, hmono, hlmono, hdead⟩ :=
        ih m r hDS htl
      refine ⟨m', r', hfold, hDS', hX, hY, hIE, hWO, hD, hSW, hEW, hmono, hlmono, ?_⟩
      intro hsx hsy q hq
      rcases List.mem_cons.mp hq with rfl | hq2
      · have h2 : m.conn q ≠ [] := hDS.ne q hp
        have h3 : 1 ≤ (m.conn q).length := by
          cases hcl : m.conn q
          · exact absurd hcl h2
          · simp
        have h4 := hlmono q
        omega
      · exact hdead hsx hsy q hq2

/-- The loop-injection pass over any tile list: it never raises, preserves
the braid invariant and every existing connection, and never shrinks a
connection list. -/
theorem loopFold (wb : Int) (ts : List Pos) : ∀ (m : MS) (r : RNG),
    DState m → (∀ p ∈ ts, InGrid m p) →
    ∃ m' r', ts.foldl (loopStep wb) (.ok (m, r)) = .ok (m', r') ∧ DState m' ∧
      m'.sizeX = m.sizeX ∧ m'.sizeY = m.sizeY ∧ m'.isEntry = m.isEntry ∧
      m'.workedOn = m.workedOn ∧ m'.mazeIsDone = m.mazeIsDone ∧
      m'.start_wall = m.start_wall ∧ m'.end_wall = m.end_wall ∧
      (∀ p d, d ∈ m.conn p → d ∈ m'.conn p) ∧
      (∀ p, (m.conn p).length ≤ (m'.conn p).length) := by
  induction ts with
  | nil =>
    intro m r hDS hts
    exact ⟨m, r, rfl, hDS, rfl, rfl, rfl, rfl, rfl, rfl, rfl,
      fun _ _ h => h, fun _ => le_refl _⟩
  | cons p ts ih =>
    intro m r hDS hts
    have hp : InGrid m p := hts p (List.mem_cons_self p ts)
    have htl : ∀ q ∈ ts, InGrid m q := fun q hq => hts q (List.mem_cons_of_mem p hq)
    rw [List.foldl_cons]
    by_cases hsel : 10 * wb ≥ ((rhead r % 1000 : Nat) : Int)
    · have hstep : loopStep wb (.ok (m, r)) p =
          match tryDirs m p (shuffleO (rtail r) ((m.conn p).foldl
              (fun l c => l.erase c) [Dir.N, Dir.S, Dir.W, Dir.E])).1 with
          | .ok m1 => .ok (m1, (shuffleO (rtail r) ((m.conn p).foldl
              (fun l c => l.erase c) [Dir.N, Dir.S, Dir.W, Dir.E])).2)
          | .error e => .error e := by
        rw [loopStep]
        simp only []
        rw [if_pos hsel]
      rcases tryDirs_spec hp (shuffleO (rtail r) ((m.conn p).foldl
          (fun l c => l.erase c) [Dir.N, Dir.S, Dir.W, Dir.E])).1 with
        ⟨hall, hok⟩ | ⟨d, hdm, hin, hok⟩
      · rw [hstep, hok]
        exact ih m _ hDS htl
      · rw [hstep, hok]
        have hdnot : d ∉ m.conn p := by
          have h2 : d ∈ (m.conn p).foldl (fun l c => l.erase c) [Dir.N, Dir.S, Dir.W, Dir.E] :=
            (shuffleO_perm _ _).mem_iff.mp hdm
          rw [mem_foldl_erase d (m.conn p) _ (by decide)] at h2
          exact h2.2
        obtain ⟨hDS1, hcq⟩ := braid_connect_step hDS hp hin hdnot
        obtain ⟨m', r', hfold, hDS', hX, hY, hIE, hWO, hD, hSW, hEW, hmono, hlmono⟩ :=
          ih (appendConn (appendConn m (target p d) d.opp) p d) _ hDS1
            (fun q hq => htl q hq)
        have hmono1 : ∀ q d', d' ∈ m.conn q →
            d' ∈ (appendConn (appendConn m (target p d) d.opp) p d).conn q := by
          intro q d' hd'
          rw [hcq]
          split
          · rename_i hqp
            rw [hqp] at hd'
            exact List.mem_append_left _ hd'
          · split
            · rename_i hqt
              rw [hqt] at hd'
              exact List.mem_append_left _ hd'
            · exact hd'
        have hlmono1 : ∀ q, (m.conn q).length ≤
            ((appendConn (appendConn m (target p d) d.opp) p d).conn q).length := by
          intro q
          rw [hcq]
          split
          · rename_i hqp
            rw [hqp, List.length_append]
            omega
          · split
            · rename_i hqt
              rw [hqt, List.length_append]
              omega
            · exact le_refl _
        exact ⟨m', r', hfold, hDS', hX, hY, hIE, hWO, hD, hSW, hEW,
          fun q d' hd' => hmono q d' (hmono1 q d' hd'),
          fun q => le_trans (hlmono1 q) (hlmono q)⟩
    · rw [show loopStep wb (.ok (m, r)) p = .ok (m, rtail r) from by
        rw [loopStep]; simp only []; rw [if_neg hsel]]
      exact ih m _ hDS htl

/-- A formed maze with at least two tiles satisfies the braid invariant. -/
theorem formed_DState {s : MS} (hF : Formed s)
    (hn : 2 ≤ s.sizeX.toNat * s.sizeY.toNat) : DState s := by
  refine ⟨hF.symm, hF.nodupC, ?_⟩
  intro p hp
  have hcard : 1 < (gridFinset s).card := by
    rw [card_gridFinset]
    omega
  obtain ⟨q, hq, hqp⟩ := Finset.exists_ne_of_one_lt_card hcard p
  have hqg : InGrid s q := mem_gridFinset.mp hq
  have hr := hF.connected p q hp hqg
  rcases Relation.ReflTransGen.cases_head hr with heq | ⟨c, hstep, _⟩
  · exact absurd heq.symm hqp
  · obtain ⟨_, _, d, hd, _⟩ := hstep
    exact List.ne_nil_of_mem hd

/-- `makeMazeBraided` on a formed maze with a valid weight: it succeeds,
preserves the braid invariant, all frame fields, every existing connection
and hence every edge and connectivity, and with weight `-1` on a grid at
least `2×2` it leaves no tile with exactly one connection. -/
theorem makeMazeBraided_spec {s : MS} (hF : Formed s)
    (hn : 2 ≤ s.sizeX.toNat * s.sizeY.toNat) (wb : Int)
    (hw1 : -1 ≤ wb) (hw2 : wb ≤ 100) (r : RNG) :
    ∃ s' r', makeMazeBraided s wb r = .ok (s', r') ∧ DState s' ∧
      s'.sizeX = s.sizeX ∧ s'.sizeY = s.sizeY ∧ s'.isEntry = s.isEntry ∧
      s'.workedOn = s.workedOn ∧ s'.mazeIsDone = s.mazeIsDone ∧
      s'.start_wall = s.start_wall ∧ s'.end_wall = s.end_wall ∧
      (∀ p d, d ∈ s.conn p → d ∈ s'.conn p) ∧
      (∀ p, (s.conn p).length ≤ (s'.conn p).length) ∧
      edgeFinset s ⊆ edgeFinset s' ∧ ConnectedMaze s' ∧
      (wb = -1 → 2 ≤ s.sizeX → 2 ≤ s.sizeY →
        ∀ p, InGrid s' p → (s'.conn p).length ≠ 1) := by
  have hDS : DState s := formed_DState hF hn
  have hguard : makeMazeBraided s wb r =
      if wb = -1 then braidDeadEnds s r else braidLoops s wb r := by
    rw [makeMazeBraided, if_neg (by rw [hF.done]; simp), if_neg (by omega)]
  by_cases hwb : wb = -1
  · obtain ⟨s', r', hfold, hDS', hX, hY, hIE, hWO, hD, hSW, hEW, hmono, hlmono, hdead⟩ :=
      deadFold (gridList s) s r hDS (fun p hp => mem_gridList.mp hp)
    refine ⟨s', r', ?_, hDS', hX, hY, hIE, hWO, hD, hSW, hEW, hmono, hlmono, ?_, ?_, ?_⟩
    · rw [hguard, if_pos hwb]
      exact hfold
    · intro pq hpq
      rw [mem_edgeFinset] at hpq ⊢
      obtain ⟨h1, h2, h3⟩ := hpq
      refine ⟨(inGrid_congr hX hY _).mpr h1, (inGrid_congr hX hY _).mpr h2, ?_⟩
      rcases h3 with ⟨hm, he⟩ | ⟨hm, he⟩
      · exact Or.inl ⟨hmono _ _ hm, he⟩
      · exact Or.inr ⟨hmono _ _ hm, he⟩
    · intro p q hp hq
      exact reaches_mono hX hY hmono
        (hF.connected p q ((inGrid_congr hX hY _).mp hp) ((inGrid_congr hX hY _).mp hq))
    · intro _ hsx hsy p hp
      exact hdead hsx hsy p (mem_gridList.mpr ((inGrid_congr hX hY _).mp hp))
  · obtain ⟨s', r', hfold, hDS', hX, hY, hIE, hWO, hD, hSW, hEW, hmono, hlmono⟩ :=
      loopFold wb (gridList s) s r hDS (fun p hp => mem_gridList.mp hp)
    refine ⟨s', r', ?_, hDS', hX, hY, hIE, hWO, hD, hSW, hEW, hmono, hlmono, ?_, ?_, ?_⟩
    · rw [hguard, if_neg hwb]
      exact hfold
    · intro pq hpq
      rw [mem_edgeFinset] at hpq ⊢
      obtain ⟨h1, h2, h3⟩ := hpq
      refine ⟨(inGrid_congr hX hY _).mpr h1, (inGrid_congr hX hY _).mpr h2, ?_⟩
      rcases h3 with ⟨hm, he⟩ | ⟨hm, he⟩
      · exact Or.inl ⟨hmono _ _ hm, he⟩
      · exact Or.inr ⟨hmono _ _ hm, he⟩
    · intro p q hp hq
      exact reaches_mono hX hY hmono
        (hF.connected p q ((inGrid_congr hX hY _).mp hp) ((inGrid_congr hX hY _).mp hq))
    · intro habs
      exact absurd habs hwb

/-!
## Fuel stability and top-level termination
-/

theorem entryExitLoop_fuelMono : ∀ (fuel fuel' : Nat) (sT eT : List Pos) (r : RNG) z,
    fuel ≤ fuel' → entryExitLoop fuel sT eT r = some z →
    entryExitLoop fuel' sT eT r = some z := by
  intro fuel
  induction fuel with
  | zero =>
    intro fuel' sT eT r z _ h
    simp [entryExitLoop] at h
  | succ fuel ih =>
    intro fuel' sT eT r z hle h
    obtain ⟨fuel2, rfl⟩ : ∃ k, fuel' = k + 1 := ⟨fuel' - 1, by omega⟩
    rw [entryExitLoop] at h ⊢
    split at h
    · rename_i hc
      rw [if_pos hc]
      exact h
    · rename_i hc
      rw [if_neg hc]
      exact ih fuel2 sT eT _ z (by omega) h

theorem primLoop_fuelMono : ∀ (fuel fuel' : Nat) (m : MS) (front : List Pos) (r : RNG) z,
    fuel ≤ fuel' → primLoop fuel m front r = some z →
    primLoop fuel' m front r = some z := by
  intro fuel
  induction fuel with
  | zero =>
    intro fuel' m front r z _ h
    simp [primLoop] at h
  | succ fuel ih =>
    intro fuel' m front r z hle h
    obtain ⟨fuel2, rfl⟩ : ∃ k, fuel' = k + 1 := ⟨fuel' - 1, by omega⟩
    by_cases hemp : front.isEmpty
    · rw [primLoop, if_pos hemp] at h
      rw [primLoop, if_pos hemp]
      exact h
    · rw [primLoop, if_neg hemp] at h
      rw [primLoop, if_neg hemp]
      simp only [] at h ⊢
      split at h
      · exact absurd h (by simp)
      · exact ih fuel2 _ _ _ z (by omega) h

theorem growLoop_fuelMono : ∀ (fuel fuel' : Nat) (m : MS) (cl : List Pos) (wh wl : Int)
    (r : RNG) z, fuel ≤ fuel' → growLoop fuel m cl wh wl r = some z →
    growLoop fuel' m cl wh wl r = some z := by
  intro fuel
  induction fuel with
  | zero =>
    intro fuel' m cl wh wl r z _ h
    simp [growLoop] at h
  | succ fuel ih =>
    intro fuel' m cl wh wl r z hle h
    obtain ⟨fuel2, rfl⟩ : ∃ k, fuel' = k + 1 := ⟨fuel' - 1, by omega⟩
    by_cases hemp : cl.isEmpty
    · rw [growLoop, if_pos hemp] at h
      rw [growLoop, if_pos hemp]
      exact h
    · rw [growLoop, if_neg hemp] at h
      rw [growLoop, if_neg hemp]
      simp only [] at h ⊢
      split at h
      · exact ih fuel2 _ _ _ _ _ z (by omega) h
      · exact ih fuel2 _ _ _ _ _ z (by omega) h

theorem makeEntryandExit_fuelMono {m : MS} {r : RNG} {fuel fuel' : Nat} {z}
    (hle : fuel ≤ fuel') (h : makeEntryandExit m r fuel = some z) :
    makeEntryandExit m r fuel' = some z := by
  rw [makeEntryandExit] at h ⊢
  simp only [] at h ⊢
  split at h
  · exact absurd h (by simp)
  · rename_i e x r2 heq
    rw [entryExitLoop_fuelMono fuel fuel' _ _ _ _ hle heq]
    exact h

theorem makeMazeSimple_fuelMono {m : MS} {r : RNG} {fuel fuel' : Nat} {z}
    (hle : fuel ≤ fuel') (h : makeMazeSimple m r fuel = some z) :
    makeMazeSimple m r fuel' = some z := by
  rw [makeMazeSimple] at h ⊢
  by_cases hdone : m.mazeIsDone
  · rw [if_pos hdone] at h
    rw [if_pos hdone]
    exact h
  · rw [if_neg hdone] at h
    rw [if_neg hdone]
    simp only [] at h ⊢
    split at h
    · exact absurd h (by simp)
    · rename_i m2 r2 heq
      rw [primLoop_fuelMono fuel fuel' _ _ _ _ hle heq]
      split at h
      · exact absurd h (by simp)
      · rename_i m3 r3 heq2
        rw [makeEntryandExit_fuelMono hle heq2]
        exact h

theorem makeMazeGrowTree_fuelMono {m : MS} {wh wl : Int} {r : RNG} {fuel fuel' : Nat} {z}
    (hle : fuel ≤ fuel') (h : makeMazeGrowTree m wh wl r fuel = some z) :
    makeMazeGrowTree m wh wl r fuel' = some z := by
  rw [makeMazeGrowTree] at h ⊢
  by_cases hdone : m.mazeIsDone
  · rw [if_pos hdone] at h
    rw [if_pos hdone]
    exact h
  · rw [if_neg hdone] at h
    rw [if_neg hdone]
    simp only [] at h ⊢
    split at h
    · exact absurd h (by simp)
    · rename_i m2 r2 heq
      rw [growLoop_fuelMono fuel fuel' _ _ _ _ _ _ hle heq]
      split at h
      · exact absurd h (by simp)
      · rename_i m3 r3 heq2
        rw [makeEntryandExit_fuelMono hle heq2]
        exact h

/-- The initial frontier invariant of `makeMazeSimple` on an empty maze. -/
theorem primInv_init {m0 : MS} (hc : ∀ p, m0.conn p = [])
    (hw : ∀ p, m0.workedOn p = false) (hie : ∀ p, m0.isEntry p = none)
    {start : Pos} (hs : InGrid m0 start) :
    PrimInv { m0 with workedOn := Function.update m0.workedOn start true }
      (nextTiles { m0 with workedOn := Function.update m0.workedOn start true } start) := by
  set m1 : MS := { m0 with workedOn := Function.update m0.workedOn start true } with hm1
  have hFI1 : FormInv m1 := init_formInv hc hw hie hs
  have hWO1 : ∀ p, m1.workedOn p = true ↔ p = start := by
    intro p
    show Function.update m0.workedOn start true p = true ↔ p = start
    by_cases hps : p = start
    · rw [hps, Function.update_same]
      simp
    · rw [Function.update_noteq hps, hw]
      simp [hps]
  refine ⟨hFI1, ?_, nodup_nextTiles m1 start, ?_, ?_, ?_⟩
  · intro p hp
    exact ((mem_nextTiles hs).mp hp).1
  · intro p hp
    obtain ⟨hpg, d, hpd⟩ := (mem_nextTiles hs).mp hp
    have hps : p ≠ start := fun habs => target_ne start d (habs ▸ hpd)
    show Function.update m0.workedOn start true p = false
    rw [Function.update_noteq hps, hw]
  · intro p hp
    obtain ⟨hpg, d, hpd⟩ := (mem_nextTiles hs).mp hp
    refine ⟨start, ⟨hpg, hs, d.opp, ?_⟩, (hWO1 start).mpr rfl⟩
    rw [← hpd, target_opp]
  · intro p hpg hpw ⟨q, hadj, hqw⟩
    rw [hWO1] at hqw
    obtain ⟨_, _, d, hd⟩ := hadj
    refine (mem_nextTiles (m := m1) hs).mpr ⟨hpg, d.opp, ?_⟩
    rw [← hqw, ← hd, target_opp]

/-- The initial active-list invariant of `makeMazeGrowTree` on an empty maze. -/
theorem growInv_init {m0 : MS} (hc : ∀ p, m0.conn p = [])
    (hw : ∀ p, m0.workedOn p = false) (hie : ∀ p, m0.isEntry p = none)
    {start : Pos} (hs : InGrid m0 start) :
    GrowInv { m0 with workedOn := Function.update m0.workedOn start true } [start] := by
  set m1 : MS := { m0 with workedOn := Function.update m0.workedOn start true } with hm1
  have hFI1 : FormInv m1 := init_formInv hc hw hie hs
  have hWO1 : ∀ p, m1.workedOn p = true ↔ p = start := by
    intro p
    show Function.update m0.workedOn start true p = true ↔ p = start
    by_cases hps : p = start
    · rw [hps, Function.update_same]
      simp
    · rw [Function.update_noteq hps, hw]
      simp [hps]
  refine ⟨hFI1, ?_, ?_, List.nodup_singleton start, ?_⟩
  · intro p hp
    rw [List.mem_singleton] at hp
    rw [hp]
    exact hs
  · intro p hp
    rw [List.mem_singleton] at hp
    exact (hWO1 p).mpr hp
  · intro p hpg hpw _
    rw [List.mem_singleton]
    exact (hWO1 p).mp hpw

/-- The frontier loop of `makeMazeSimple` terminates for every stream, and
whenever the subsequent entry/exit draw also returns, the whole call returns
successfully. -/
theorem makeMazeSimple_runs {m0 : MS} (hc : ∀ p, m0.conn p = [])
    (hw : ∀ p, m0.workedOn p = false) (hie : ∀ p, m0.isEntry p = none)
    (hd : m0.mazeIsDone = false) (hsx : 1 ≤ m0.sizeX) (hsy : 1 ≤ m0.sizeY)
    (r : RNG) :
    ∃ fuel1 m2 r2,
      primLoop fuel1
        { m0 with workedOn := (Function.update m0.workedOn
          ((((rhead (rtail r) % m0.sizeX.toNat : Nat) : Int),
            ((rhead r % m0.sizeY.toNat : Nat) : Int))) true) }
        (nextTiles
          { m0 with workedOn := (Function.update m0.workedOn
            ((((rhead (rtail r) % m0.sizeX.toNat : Nat) : Int),
              ((rhead r % m0.sizeY.toNat : Nat) : Int))) true) }
          ((((rhead (rtail r) % m0.sizeX.toNat : Nat) : Int),
            ((rhead r % m0.sizeY.toNat : Nat) : Int))))
        (rtail (rtail r)) = some (m2, r2) ∧
      ∀ fuel2 z, entryExitLoop fuel2 (get_wall_tiles m2 m2.start_wall)
          (get_wall_tiles m2 m2.end_wall) r2 = some z →
        ∃ fuel s r', makeMazeSimple m0 r fuel = some (.ok (s, r')) := by
  have hs : InGrid m0 (((rhead (rtail r) % m0.sizeX.toNat : Nat) : Int),
      ((rhead r % m0.sizeY.toNat : Nat) : Int)) := start_inGrid hsx hsy _ _
  set start : Pos := (((rhead (rtail r) % m0.sizeX.toNat : Nat) : Int),
    ((rhead r % m0.sizeY.toNat : Nat) : Int)) with hstart
  set m1 : MS := { m0 with workedOn := Function.update m0.workedOn start true } with hm1
  have hinv : PrimInv m1 (nextTiles m1 start) := primInv_init hc hw hie hs
  set fuel1 : Nat :=
    5 * (unvisitedFinset m1).card + (nextTiles m1 start).length + 1 with hfuel1
  obtain ⟨⟨m2, r2⟩, hPL⟩ := primLoop_terminates fuel1 m1 (nextTiles m1 start)
    (rtail (rtail r)) hinv (by omega)
  refine ⟨fuel1, m2, r2, hPL, ?_⟩
  intro fuel2 z hz
  obtain ⟨e, x, r3⟩ := z
  have hEE : ∃ m4, makeEntryandExit m2 r2 (fuel1 + fuel2) = some (m4, r3) := by
    rw [makeEntryandExit]
    rw [entryExitLoop_fuelMono fuel2 (fuel1 + fuel2) _ _ _ _ (by omega) hz]
    exact ⟨_, rfl⟩
  obtain ⟨m4, hEE⟩ := hEE
  have hgoal : makeMazeSimple m0 r (fuel1 + fuel2) =
      some (.ok ({ m4 with mazeIsDone := true }, r3)) := by
    rw [makeMazeSimple, if_neg (by simp [hd])]
    simp only []
    rw [primLoop_fuelMono fuel1 (fuel1 + fuel2) _ _ _ _ (by omega) hPL]
    simp only []
    rw [hEE]
  exact ⟨fuel1 + fuel2, _, r3, hgoal⟩

/-- The growing-tree loop of `makeMazeGrowTree` terminates for every stream
and every weight pair, and whenever the subsequent entry/exit draw also
returns, the whole call returns successfully. -/
theorem makeMazeGrowTree_runs {m0 : MS} (hc : ∀ p, m0.conn p = [])
    (hw : ∀ p, m0.workedOn p = false) (hie : ∀ p, m0.isEntry p = none)
    (hd : m0.mazeIsDone = false) (hsx : 1 ≤ m0.sizeX) (hsy : 1 ≤ m0.sizeY)
    (wh wl : Int) (r : RNG) :
    ∃ fuel1 m2 r2,
      growLoop fuel1
        { m0 with workedOn := (Function.update m0.workedOn
          ((((rhead (rtail r) % m0.sizeX.toNat : Nat) : Int),
            ((rhead r % m0.sizeY.toNat : Nat) : Int))) true) }
        [(((rhead (rtail r) % m0.sizeX.toNat : Nat) : Int),
          ((rhead r % m0.sizeY.toNat : Nat) : Int))]
        wh wl (rtail (rtail r)) = some (m2, r2) ∧
      ∀ fuel2 z, entryExitLoop fuel2 (get_wall_tiles m2 m2.start_wall)
          (get_wall_tiles m2 m2.end_wall) r2 = some z →
        ∃ fuel s r', makeMazeGrowTree m0 wh wl r fuel = some (.ok (s, r')) := by
  have hs : InGrid m0 (((rhead (rtail r) % m0.sizeX.toNat : Nat) : Int),
      ((rhead r % m0.sizeY.toNat : Nat) : Int)) := start_inGrid hsx hsy _ _
  set start : Pos := (((rhead (rtail r) % m0.sizeX.toNat : Nat) : Int),
    ((rhead r % m0.sizeY.toNat : Nat) : Int)) with hstart
  set m1 : MS := { m0 with workedOn := Function.update m0.workedOn start true } with hm1
  have hinv : GrowInv m1 [start] := growInv_init hc hw hie hs
  set fuel1 : Nat := 2 * (unvisitedFinset m1).card + 2 with hfuel1
  obtain ⟨⟨m2, r2⟩, hGL⟩ := growLoop_terminates fuel1 m1 [start] wh wl
    (rtail (rtail r)) hinv (by simp only [List.length_singleton]; omega)
  refine ⟨fuel1, m2, r2, hGL, ?_⟩
  intro fuel2 z hz
  obtain ⟨e, x, r3⟩ := z
  have hEE : ∃ m4, makeEntryandExit m2 r2 (fuel1 + fuel2) = some (m4, r3) := by
    rw [makeEntryandExit]
    rw [entryExitLoop_fuelMono fuel2 (fuel1 + fuel2) _ _ _ _ (by omega) hz]
    exact ⟨_, rfl⟩
  obtain ⟨m4, hEE⟩ := hEE
  have hgoal : makeMazeGrowTree m0 wh wl r (fuel1 + fuel2) =
      some (.ok ({ m4 with mazeIsDone := true }, r3)) := by
    rw [makeMazeGrowTree, if_neg (by simp [hd])]
    simp only []
    rw [growLoop_fuelMono fuel1 (fuel1 + fuel2) _ _ _ _ _ _ (by omega) hGL]
    simp only []
    rw [hEE]
  exact ⟨fuel1 + fuel2, _, r3, hgoal⟩

/-- The `while True` entry/exit draw of a `1×1` maze never returns: both
candidate lists hold only the tile `(0, 0)`. -/
theorem entryExit11_none : ∀ (fuel : Nat) (r : RNG),
    entryExitLoop fuel [((0 : Int), (0 : Int)), (0, 0)] [(0, 0), (0, 0)] r = none := by
  intro fuel
  induction fuel with
  | zero => intro r; rfl
  | succ fuel ih =>
    intro r
    have hgetD : ∀ (i : Nat), ([((0 : Int), (0 : Int)), (0, 0)]).getD i (0, 0) = (0, 0) := by
      intro i
      rcases i with _ | _ | i <;> rfl
    rw [entryExitLoop, if_neg (fun hne => hne (by rw [hgetD, hgetD]))]
    exact ih _

/-- On a `1×1` maze, `makeMazeSimple` never returns, whatever the stream and
however much fuel the divergent entry/exit draw is given. -/
theorem makeMazeSimple11_none : ∀ (fuel : Nat) (r : RNG),
    makeMazeSimple (initMaze 1 1) r fuel = none := by
  intro fuel r
  rw [makeMazeSimple, if_neg (by decide)]
  simp only []
  have ha : (((rhead (rtail r) % (initMaze 1 1).sizeX.toNat : Nat) : Int)) = 0 := by
    norm_num [initMaze]
  have hb : (((rhead r % (initMaze 1 1).sizeY.toNat : Nat) : Int)) = 0 := by
    norm_num [initMaze]
  rw [ha, hb]
  have hfront : nextTiles { initMaze 1 1 with
      workedOn := Function.update (initMaze 1 1).workedOn ((0 : Int), (0 : Int)) true }
      ((0 : Int), (0 : Int)) = [] := rfl
  rw [hfront]
  cases fuel with
  | zero => rfl
  | succ fuel =>
    rw [primLoop, if_pos (show ([] : List Pos).isEmpty = true from rfl)]
    simp only []
    rw [makeEntryandExit]
    have hwalls : get_wall_tiles { initMaze 1 1 with
        workedOn := Function.update (initMaze 1 1).workedOn ((0 : Int), (0 : Int)) true }
        ({ initMaze 1 1 with
          workedOn := Function.update (initMaze 1 1).workedOn
            ((0 : Int), (0 : Int)) true } : MS).start_wall =
        [((0 : Int), (0 : Int)), (0, 0)] := rfl
    rw [hwalls]
    have hwalls2 : get_wall_tiles { initMaze 1 1 with
        workedOn := Function.update (initMaze 1 1).workedOn ((0 : Int), (0 : Int)) true }
        ({ initMaze 1 1 with
          workedOn := Function.update (initMaze 1 1).workedOn
            ((0 : Int), (0 : Int)) true } : MS).end_wall =
        [((0 : Int), (0 : Int)), (0, 0)] := rfl
    rw [hwalls2, entryExit11_none]

/-!
## The exporters: shared marking, walls, and the display grids
-/

theorem foldl_fst_eq {α β γ : Type} (fD : α × β → γ → α × β) (fC : α → γ → α)
    (hagree : ∀ st c, (fD st c).1 = fC st.1 c) :
    ∀ (l : List γ) (st : α × β), (l.foldl fD st).1 = l.foldl fC st.1 := by
  intro l
  induction l with
  | nil => intro st; rfl
  | cons c cs ih =>
    intro st
    rw [List.foldl_cons, List.foldl_cons, ih, hagree]

theorem foldl_pres {α γ : Type} (P : α → Prop) (f : α → γ → α)
    (hstep : ∀ a c, P a → P (f a c)) :
    ∀ (l : List γ) (a : α), P a → P (l.foldl f a) := by
  intro l
  induction l with
  | nil => intro a ha; exact ha
  | cons c cs ih =>
    intro a ha
    rw [List.foldl_cons]
    exact ih _ (hstep a c ha)

/-- The distance export's marking writes the same characters as the symbolic
export. -/
theorem markTileD_fst (m : MS) (st : (Pos → Char) × Option Pos) (p : Pos) :
    (markTileD m st p).1 = markTile m st.1 p :=
  foldl_fst_eq _ _
    (fun s d => by
      simp only []
      split_ifs <;> rfl)
    (m.conn p) (Function.update st.1 (tileCenter p) ' ', st.2)

theorem distMark_fst (m : MS) : (distMark m).1 = symGrid m := by
  unfold distMark symGrid
  exact foldl_fst_eq (markTileD m) (markTile m) (fun st p => markTileD_fst m st p)
    (gridList m) ((fun _ => '#'), none)

/-- Whenever the marking records a start cell, that cell is not a wall. -/
theorem distMark_start (m : MS) {sp : Pos} (h : (distMark m).2 = some sp) :
    (distMark m).1 sp ≠ '#' := by
  have hP : ∀ st : (Pos → Char) × Option Pos,
      (∀ q, st.2 = some q → st.1 q ≠ '#') →
      ∀ p, ∀ q, (markTileD m st p).2 = some q → (markTileD m st p).1 q ≠ '#' := by
    intro st hst p
    unfold markTileD
    simp only []
    refine foldl_pres (fun s : (Pos → Char) × Option Pos =>
      ∀ q, s.2 = some q → s.1 q ≠ '#') _ ?_ (m.conn p) _ ?_
    · intro s d hs q hq
      simp only [] at hq ⊢
      split_ifs at hq ⊢ with h1 h2
      · have h3 := Option.some.inj hq
        show Function.update s.1 (target (tileCenter p) d) 'S' q ≠ '#'
        rw [← h3, Function.update_same]
        decide
      · show Function.update s.1 (target (tileCenter p) d) 'E' q ≠ '#'
        by_cases hqt : q = target (tileCenter p) d
        · rw [hqt, Function.update_same]
          decide
        · rw [Function.update_noteq hqt]
          exact hs q hq
      · show Function.update s.1 (target (tileCenter p) d) ' ' q ≠ '#'
        by_cases hqt : q = target (tileCenter p) d
        · rw [hqt, Function.update_same]
          decide
        · rw [Function.update_noteq hqt]
          exact hs q hq
    · intro q hq
      have h3 := hst q hq
      show Function.update st.1 (tileCenter p) ' ' q ≠ '#'
      by_cases hqt : q = tileCenter p
      · rw [hqt, Function.update_same]
        decide
      · rw [Function.update_noteq hqt]
        exact h3
  have hmain : ∀ q, (distMark m).2 = some q → (distMark m).1 q ≠ '#' := by
    unfold distMark
    refine foldl_pres (fun st : (Pos → Char) × Option Pos =>
      ∀ q, st.2 = some q → st.1 q ≠ '#') (markTileD m) ?_ (gridList m) _ ?_
    · intro st p hst
      exact hP st hst p
    · intro q hq
      exact absurd hq (by simp)
  exact hmain sp h

theorem lookup_mem {dist : List (Pos × Int)} {p : Pos} {d : Int}
    (h : dist.lookup p = some d) : (p, d) ∈ dist := by
  induction dist with
  | nil => simp [List.lookup] at h
  | cons e rest ih =>
    rw [List.lookup] at h
    split at h
    · rename_i hbe
      have h2 := Option.some.inj h
      have h3 : p = e.1 := eq_of_beq hbe
      rw [List.mem_cons]
      left
      rw [h3, ← h2]
    · exact List.mem_cons_of_mem e (ih h)

/-- A distance-grid cell is the wall character exactly where the marked grid
has a wall, provided no recorded distance sits on a wall. -/
theorem distVal_char (g : Pos → Char) (dist : List (Pos × Int))
    (hdist : ∀ e ∈ dist, g e.1 ≠ '#') (p : Pos) :
    (distVal g dist p = .ch '#') ↔ g p = '#' := by
  unfold distVal
  split
  · rename_i d hl
    constructor
    · intro habs
      exact absurd habs (by simp)
    · intro habs
      exact absurd habs (hdist _ (lookup_mem hl))
  · split_ifs with h2
    · constructor
      · intro habs
        exact absurd habs (by simp)
      · intro habs
        exact absurd habs h2.1
    · constructor
      · intro habs
        exact DVal.ch.inj habs
      · intro habs
        rw [habs]

/-- No wall cell ever enters the display BFS queue or its distance list. -/
theorem bfsD_no_wall (g : Pos → Char) (W H : Int) :
    ∀ (fuel : Nat) (q : List (Pos × Int)) (vis : List Pos) (dist : List (Pos × Int)),
    (∀ e ∈ q, g e.1 ≠ '#') → (∀ e ∈ dist, g e.1 ≠ '#') →
    ∀ e ∈ bfsD g W H fuel q vis dist, g e.1 ≠ '#' := by
  intro fuel
  induction fuel with
  | zero =>
    intro q vis dist hq hdist e he
    exact hdist e he
  | succ fuel ih =>
    intro q vis dist hq hdist e he
    cases q with
    | nil => exact hdist e (by rw [bfsD] at he; exact he)
    | cons pd rest =>
      obtain ⟨p, dd⟩ := pd
      rw [bfsD] at he
      simp only [] at he
      have hrest : ∀ e ∈ rest, g e.1 ≠ '#' :=
        fun e h2 => hq e (List.mem_cons_of_mem _ h2)
      have hres : ∀ e2 ∈ (([((-1 : Int), (0 : Int)), (1, 0), (0, -1), (0, 1)]).foldl
          (fun (acc : List (Pos × Int) × List Pos) off =>
            let q2 := (p.1 + off.2, p.2 + off.1)
            if 0 ≤ q2.1 ∧ q2.1 < W ∧ 0 ≤ q2.2 ∧ q2.2 < H ∧ g q2 = ' ' ∧ ¬ q2 ∈ acc.2 then
              (acc.1 ++ [(q2, dd + 1)], acc.2 ++ [q2])
            else acc)
          (rest, vis)).1, g e2.1 ≠ '#' := by
        refine foldl_pres (fun acc : List (Pos × Int) × List Pos =>
          ∀ e2 ∈ acc.1, g e2.1 ≠ '#') _ ?_ _ _ hrest
        intro acc off hacc e2 he2
        simp only [] at he2
        split_ifs at he2 with hcond
        · rcases List.mem_append.mp he2 with h2 | h2
          · exact hacc e2 h2
          · rw [List.mem_singleton] at h2
            rw [h2]
            show g (p.1 + off.2, p.2 + off.1) ≠ '#'
            rw [hcond.2.2.2.2.1]
            decide
        · exact hacc e2 he2
      have hdist1 : ∀ e2 ∈ dist ++ [(p, dd)], g e2.1 ≠ '#' := by
        intro e2 h2
        rcases List.mem_append.mp h2 with h3 | h3
        · exact hdist e2 h3
        · rw [List.mem_singleton] at h3
          rw [h3]
          exact hq (p, dd) (List.mem_cons_self _ _)
      exact ih _ _ _ hres hdist1 e he

/-- A display-grid cell on the outer display border. -/
def DispBorder (m : MS) (q : Pos) : Prop :=
  q.2 = 0 ∨ q.2 = m.sizeY * 2 ∨ q.1 = 0 ∨ q.1 = m.sizeX * 2

theorem dispBounds {m : MS} {p : Pos} (hp : InGrid m p) (d : Dir) :
    0 ≤ (target (tileCenter p) d).1 ∧ (target (tileCenter p) d).1 < m.sizeX * 2 + 1 ∧
    0 ≤ (target (tileCenter p) d).2 ∧ (target (tileCenter p) d).2 < m.sizeY * 2 + 1 := by
  obtain ⟨a, b⟩ := p
  obtain ⟨h1, h2, h3, h4⟩ := hp
  cases d <;> simp [target, tileCenter] <;> omega

/-- A connection's display cell lies on the display border exactly when the
step leaves the grid. -/
theorem dispBorder_iff {m : MS} {p : Pos} (hp : InGrid m p) (d : Dir) :
    DispBorder m (target (tileCenter p) d) ↔ ¬ InGrid m (target p d) := by
  obtain ⟨a, b⟩ := p
  obtain ⟨h1, h2, h3, h4⟩ := hp
  cases d <;> simp [DispBorder, target, tileCenter, InGrid] <;> omega

/-- The detailed export's coordinate-based border test agrees with leaving
the grid. -/
theorem detBorder_iff {m : MS} {p : Pos} (hp : InGrid m p) (d : Dir) :
    ((d = .N ∧ p.2 = 0) ∨ (d = .S ∧ p.2 = m.sizeY - 1) ∨ (d = .W ∧ p.1 = 0) ∨
      (d = .E ∧ p.1 = m.sizeX - 1)) ↔ ¬ InGrid m (target p d) := by
  obtain ⟨a, b⟩ := p
  obtain ⟨h1, h2, h3, h4⟩ := hp
  cases d <;> simp [target, InGrid] <;> omega

/-- Agreement between the symbolic marking and the detailed marking: same
character in the `index` field everywhere, `S`/`E` only on the display
border, and only the four marking characters in the symbolic grid. -/
structure MarkAgree (m : MS) (gC : Pos → Char) (st : (Pos → DetCell) × Option Pos) :
    Prop where
  idx : ∀ q, (st.1 q).index = gC q
  border : ∀ q, gC q = 'S' ∨ gC q = 'E' → DispBorder m q
  range : ∀ q, gC q = '#' ∨ gC q = ' ' ∨ gC q = 'S' ∨ gC q = 'E'

theorem markAgree_tile {m : MS} {p : Pos} (hp : InGrid m p)
    (hHT : ∀ d ∈ m.conn p, ¬ InGrid m (target p d) → (m.isEntry p).isSome)
    {gC : Pos → Char} {st : (Pos → DetCell) × Option Pos}
    (hA : MarkAgree m gC st) :
    MarkAgree m (markTile m gC p) (markTileDet m st p) := by
  have hfold : ∀ (l : List Dir), (∀ d ∈ l, ¬ InGrid m (target p d) → (m.isEntry p).isSome) →
      ∀ (g : Pos → Char) (s : (Pos → DetCell) × Option Pos), MarkAgree m g s →
      MarkAgree m
        (l.foldl (fun g d =>
          Function.update g (target (tileCenter p) d)
            (if (m.isEntry p).isSome ∧
                ((target (tileCenter p) d).2 = 0 ∨
                 (target (tileCenter p) d).2 = m.sizeY * 2 ∨
                 (target (tileCenter p) d).1 = 0 ∨
                 (target (tileCenter p) d).1 = m.sizeX * 2) then
              if m.isEntry p = some true then 'S' else 'E'
            else ' ')) g)
        (l.foldl (fun (s : (Pos → DetCell) × Option Pos) d =>
          if 0 ≤ (target (tileCenter p) d).1 ∧
              (target (tileCenter p) d).1 < m.sizeX * 2 + 1 ∧
              0 ≤ (target (tileCenter p) d).2 ∧
              (target (tileCenter p) d).2 < m.sizeY * 2 + 1 then
            if (m.isEntry p).isSome ∧
                ((d = .N ∧ p.2 = 0) ∨ (d = .S ∧ p.2 = m.sizeY - 1) ∨
                 (d = .W ∧ p.1 = 0) ∨ (d = .E ∧ p.1 = m.sizeX - 1)) then
              if m.isEntry p = some true then
                (Function.update s.1 (target (tileCenter p) d)
                  { s.1 (target (tileCenter p) d) with index := 'S' },
                 if s.2 = none then some (target (tileCenter p) d) else s.2)
              else
                (Function.update s.1 (target (tileCenter p) d)
                  { s.1 (target (tileCenter p) d) with index := 'E' }, s.2)
            else if (s.1 (target (tileCenter p) d)).index = '#' then
              (Function.update s.1 (target (tileCenter p) d)
                { s.1 (target (tileCenter p) d) with index := ' ' }, s.2)
            else s
          else s) s) := by
    intro l
    induction l with
    | nil =>
      intro _ g s hA2
      exact hA2
    | cons d rest ih =>
      intro hHT2 g s hA2
      rw [List.foldl_cons, List.foldl_cons]
      refine ih (fun d2 h2 => hHT2 d2 (List.mem_cons_of_mem d h2)) _ _ ?_
      set t : Pos := target (tileCenter p) d with hT
      rw [if_pos (dispBounds hp d)]
      by_cases hout : InGrid m (target p d)
      · rw [if_neg (by
          rintro ⟨_, hb⟩
          exact ((dispBorder_iff hp d).mp hb) hout),
          if_neg (by
          rintro ⟨_, hb⟩
          exact ((detBorder_iff hp d).mp hb) hout)]
        by_cases hsharp : (s.1 t).index = '#'
        · rw [if_pos hsharp]
          refine ⟨?_, ?_, ?_⟩
          · intro q
            show (Function.update s.1 t { s.1 t with index := ' ' } q).index =
              Function.update g t ' ' q
            by_cases hq : q = t
            · rw [hq, Function.update_same, Function.update_same]
            · rw [Function.update_noteq hq, Function.update_noteq hq]
              exact hA2.idx q
          · intro q hq
            by_cases hq2 : q = t
            · rw [hq2, Function.update_same] at hq
              rcases hq with h | h <;> exact absurd h (by decide)
            · rw [Function.update_noteq hq2] at hq
              exact hA2.border q hq
          · intro q
            by_cases hq : q = t
            · rw [hq, Function.update_same]
              right
              left
              rfl
            · rw [Function.update_noteq hq]
              exact hA2.range q
        · rw [if_neg hsharp]
          have hgt : g t = ' ' := by
            have h2 := hA2.idx t
            rcases hA2.range t with h | h | h | h
            · rw [h] at h2
              exact absurd h2 hsharp
            · exact h
            · exact absurd hout ((dispBorder_iff hp d).mp (hA2.border t (Or.inl h)))
            · exact absurd hout ((dispBorder_iff hp d).mp (hA2.border t (Or.inr h)))
          refine ⟨?_, ?_, ?_⟩
          · intro q
            show (s.1 q).index = Function.update g t ' ' q
            by_cases hq : q = t
            · rw [hq, Function.update_same, hA2.idx t, hgt]
            · rw [Function.update_noteq hq]
              exact hA2.idx q
          · intro q hq
            by_cases hq2 : q = t
            · rw [hq2, Function.update_same] at hq
              rcases hq with h | h <;> exact absurd h (by decide)
            · rw [Function.update_noteq hq2] at hq
              exact hA2.border q hq
          · intro q
            by_cases hq : q = t
            · rw [hq, Function.update_same]
              right
              left
              rfl
            · rw [Function.update_noteq hq]
              exact hA2.range q
      · have hsome : (m.isEntry p).isSome :=
          hHT2 d (List.mem_cons_self d rest) hout
        have hbd : DispBorder m t := (dispBorder_iff hp d).mpr hout
        have hcondSym : (m.isEntry p).isSome = true ∧
            (t.2 = 0 ∨ t.2 = m.sizeY * 2 ∨ t.1 = 0 ∨ t.1 = m.sizeX * 2) := ⟨hsome, hbd⟩
        have hcondDet : (m.isEntry p).isSome = true ∧
            ((d = Dir.N ∧ p.2 = 0) ∨ (d = Dir.S ∧ p.2 = m.sizeY - 1) ∨
             (d = Dir.W ∧ p.1 = 0) ∨ (d = Dir.E ∧ p.1 = m.sizeX - 1)) :=
          ⟨hsome, (detBorder_iff hp d).mpr hout⟩
        rw [if_pos hcondSym, if_pos hcondDet]
        by_cases hS : m.isEntry p = some true
        · rw [if_pos hS, if_pos hS]
          refine ⟨?_, ?_, ?_⟩
          · intro q
            by_cases hq : q = t
            · rw [hq]
              show (Function.update s.1 t { s.1 t with index := 'S' } t).index =
                Function.update g t 'S' t
              rw [Function.update_same, Function.update_same]
            · show (Function.update s.1 t { s.1 t with index := 'S' } q).index =
                Function.update g t 'S' q
              rw [Function.update_noteq hq, Function.update_noteq hq]
              exact hA2.idx q
          · intro q hq
            by_cases hq2 : q = t
            · rw [hq2]
              exact hbd
            · rw [Function.update_noteq hq2] at hq
              exact hA2.border q hq
          · intro q
            by_cases hq : q = t
            · rw [hq, Function.update_same]
              right
              right
              left
              rfl
            · rw [Function.update_noteq hq]
              exact hA2.range q
        · rw [if_neg hS, if_neg hS]
          refine ⟨?_, ?_, ?_⟩
          · intro q
            by_cases hq : q = t
            · rw [hq]
              show (Function.update s.1 t { s.1 t with index := 'E' } t).index =
                Function.update g t 'E' t
              rw [Function.update_same, Function.update_same]
            · show (Function.update s.1 t { s.1 t with index := 'E' } q).index =
                Function.update g t 'E' q
              rw [Function.update_noteq hq, Function.update_noteq hq]
              exact hA2.idx q
          · intro q hq
            by_cases hq2 : q = t
            · rw [hq2]
              exact hbd
            · rw [Function.update_noteq hq2] at hq
              exact hA2.border q hq
          · intro q
            by_cases hq : q = t
            · rw [hq, Function.update_same]
              right
              right
              right
              rfl
            · rw [Function.update_noteq hq]
              exact hA2.range q
  refine hfold (m.conn p) hHT (Function.update gC (tileCenter p) ' ')
    (Function.update st.1 (tileCenter p)
      { st.1 (tileCenter p) with index := ' ' }, st.2) ⟨?_, ?_, ?_⟩
  · intro q
    by_cases hq : q = tileCenter p
    · rw [hq]
      show (Function.update st.1 (tileCenter p) _ (tileCenter p)).index =
        Function.update gC (tileCenter p) ' ' (tileCenter p)
      rw [Function.update_same, Function.update_same]
    · show (Function.update st.1 (tileCenter p) _ q).index =
        Function.update gC (tileCenter p) ' ' q
      rw [Function.update_noteq hq, Function.update_noteq hq]
      exact hA.idx q
  · intro q hq
    by_cases hq2 : q = tileCenter p
    · rw [hq2, Function.update_same] at hq
      rcases hq with h | h <;> exact absurd h (by decide)
    · rw [Function.update_noteq hq2] at hq
      exact hA.border q hq
  · intro q
    by_cases hq : q = tileCenter p
    · rw [hq, Function.update_same]
      right
      left
      rfl
    · rw [Function.update_noteq hq]
      exact hA.range q

/-- In a formed maze, a connection leaving the grid sits on an entry or exit
tile. -/
theorem formed_HT {s : MS} (hF : Formed s) :
    ∀ p, ∀ d ∈ s.conn p, ¬ InGrid s (target p d) → (s.isEntry p).isSome := by
  obtain ⟨e, x, hne, hew, hxw, hie, hix, hother, hfe, hfx, hfrest⟩ := hF.entry
  intro p d hd hout
  by_cases hpe : p = e
  · rw [hpe, hie]
    rfl
  · by_cases hpx : p = x
    · rw [hpx, hix]
      rfl
    · have h2 := hfrest p hpe hpx
      rw [List.filter_eq_nil_iff] at h2
      have h3 := h2 d hd
      simp at h3
      exact absurd h3 hout

/-- The detailed marking agrees with the symbolic marking on every cell's
character. -/
theorem detMark_agree (m : MS)
    (hHT : ∀ p, ∀ d ∈ m.conn p, ¬ InGrid m (target p d) → (m.isEntry p).isSome) :
    MarkAgree m (symGrid m) (detMark m) := by
  have hfold : ∀ (ts : List Pos), (∀ p ∈ ts, InGrid m p) →
      ∀ (g : Pos → Char) (st : (Pos → DetCell) × Option Pos), MarkAgree m g st →
      MarkAgree m (ts.foldl (markTile m) g) (ts.foldl (markTileDet m) st) := by
    intro ts
    induction ts with
    | nil =>
      intro _ g st hA
      exact hA
    | cons p rest ih =>
      intro hts g st hA
      rw [List.foldl_cons, List.foldl_cons]
      refine ih (fun q hq => hts q (List.mem_cons_of_mem p hq)) _ _ ?_
      exact markAgree_tile (hts p (List.mem_cons_self p rest)) (hHT p) hA
  unfold symGrid detMark
  refine hfold (gridList m) (fun p hp => mem_gridList.mp hp) _ _ ⟨?_, ?_, ?_⟩
  · intro q
    rfl
  · intro q hq
    rcases hq with h | h <;> exact absurd h (by decide)
  · intro q
    left
    rfl

theorem length_matGrid {α : Type} (m : MS) (g : Pos → α) :
    (matGrid m g).length = (m.sizeY * 2 + 1).toNat := by
  simp [matGrid]

theorem row_length_matGrid {α : Type} (m : MS) (g : Pos → α) :
    ∀ row ∈ matGrid m g, row.length = (m.sizeX * 2 + 1).toNat := by
  intro row hrow
  obtain ⟨y, hy, rfl⟩ := List.mem_map.mp hrow
  simp

theorem matGrid_getD {α : Type} (m : MS) (g : Pos → α) (dfltRow : List α) (dflt : α)
    {i j : Nat} (hj : j < (m.sizeY * 2 + 1).toNat) (hi : i < (m.sizeX * 2 + 1).toNat) :
    ((matGrid m g).getD j dfltRow).getD i dflt = g ((i : Int), (j : Int)) := by
  unfold matGrid
  have h1 : (List.map (fun y => List.map (fun x => g (((x : Nat) : Int), ((y : Nat) : Int)))
        (List.range (m.sizeX * 2 + 1).toNat)) (List.range (m.sizeY * 2 + 1).toNat)).getD
        j dfltRow =
      List.map (fun x => g (((x : Nat) : Int), ((j : Nat) : Int)))
        (List.range (m.sizeX * 2 + 1).toNat) := by
    rw [List.getD_eq_getElem _ _ (by simpa using hj), List.getElem_map, List.getElem_range]
  rw [h1, List.getD_eq_getElem _ _ (by simpa using hi), List.getElem_map, List.getElem_range]

/-!
## The `Any` wall candidate list
-/

/-- Membership in the `Any` candidate list: exactly the boundary tiles. -/
theorem mem_get_wall_tiles_any {m : MS} (hsx : 1 ≤ m.sizeX) (hsy : 1 ≤ m.sizeY)
    {p : Pos} : p ∈ get_wall_tiles m "Any" ↔ InGrid m p ∧ Boundary m p := by
  obtain ⟨a, b⟩ := p
  rw [get_wall_tiles, if_neg (by decide), if_neg (by decide), if_neg (by decide),
    if_neg (by decide)]
  simp only [List.mem_append, List.mem_map, List.mem_range, InGrid, Boundary,
    Prod.mk.injEq]
  constructor
  · rintro (((⟨v, hv, h1, h2⟩ | ⟨v, hv, h1, h2⟩) | ⟨v, hv, h1, h2⟩) | ⟨v, hv, h1, h2⟩) <;>
      refine ⟨⟨?_, ?_, ?_, ?_⟩, ?_⟩ <;> omega
  · rintro ⟨⟨h1, h2, h3, h4⟩, hb⟩
    by_cases hb0 : b = 0
    · exact Or.inl (Or.inl (Or.inl ⟨a.toNat, by omega, by omega, by omega⟩))
    · by_cases hbY : b = m.sizeY - 1
      · exact Or.inl (Or.inl (Or.inr ⟨a.toNat, by omega, by omega, by omega⟩))
      · rcases hb with h | h | h | h
        · exact absurd h hb0
        · exact absurd h hbY
        · exact Or.inl (Or.inr ⟨(b - 1).toNat, by omega, by omega, by omega⟩)
        · exact Or.inr ⟨(b - 1).toNat, by omega, by omega, by omega⟩

/-- With both dimensions at least `2`, the `Any` candidate list counts every
boundary tile exactly once. -/
theorem get_wall_tiles_any_nodup {m : MS} (hsx : 2 ≤ m.sizeX) (hsy : 2 ≤ m.sizeY) :
    (get_wall_tiles m "Any").Nodup := by
  rw [get_wall_tiles, if_neg (by decide), if_neg (by decide), if_neg (by decide),
    if_neg (by decide)]
  have hnA : (List.map (fun x : Nat => (((x : Nat) : Int), (0 : Int)))
      (List.range m.sizeX.toNat)).Nodup :=
    (List.nodup_range _).map (fun u v h => by
      have h2 := (Prod.mk.injEq .. ▸ h).1
      omega)
  have hnB : (List.map (fun x : Nat => (((x : Nat) : Int), m.sizeY - 1))
      (List.range m.sizeX.toNat)).Nodup :=
    (List.nodup_range _).map (fun u v h => by
      have h2 := (Prod.mk.injEq .. ▸ h).1
      omega)
  have hnC : (List.map (fun y : Nat => ((0 : Int), ((y : Nat) : Int) + 1))
      (List.range (m.sizeY - 2).toNat)).Nodup :=
    (List.nodup_range _).map (fun u v h => by
      have h2 := (Prod.mk.injEq .. ▸ h).2
      omega)
  have hnD : (List.map (fun y : Nat => (m.sizeX - 1, ((y : Nat) : Int) + 1))
      (List.range (m.sizeY - 2).toNat)).Nodup :=
    (List.nodup_range _).map (fun u v h => by
      have h2 := (Prod.mk.injEq .. ▸ h).2
      omega)
  rw [List.nodup_append, List.nodup_append, List.nodup_append]
  refine ⟨⟨⟨hnA, hnB, ?_⟩, hnC, ?_⟩, hnD, ?_⟩
  · intro q hA hB
    obtain ⟨v, hv, rfl⟩ := List.mem_map.mp hA
    obtain ⟨w, hw, h2⟩ := List.mem_map.mp hB
    have h3 := (Prod.mk.injEq .. ▸ h2).2
    omega
  · intro q hAB hC
    obtain ⟨w, hw, h2⟩ := List.mem_map.mp hC
    rcases List.mem_append.mp hAB with h | h
    · obtain ⟨v, hv, rfl⟩ := List.mem_map.mp h
      rw [List.mem_range] at hw
      have h3 := (Prod.mk.injEq .. ▸ h2).2
      omega
    · obtain ⟨v, hv, rfl⟩ := List.mem_map.mp h
      rw [List.mem_range] at hw
      have h3 := (Prod.mk.injEq .. ▸ h2).2
      omega
  · intro q hABC hD
    obtain ⟨w, hw, h2⟩ := List.mem_map.mp hD
    rw [List.mem_range] at hw
    rcases List.mem_append.mp hABC with h | h
    · rcases List.mem_append.mp h with h3 | h3
      · obtain ⟨v, hv, rfl⟩ := List.mem_map.mp h3
        have h4 := (Prod.mk.injEq .. ▸ h2).2
        omega
      · obtain ⟨v, hv, rfl⟩ := List.mem_map.mp h3
        have h4 := (Prod.mk.injEq .. ▸ h2).2
        omega
    · obtain ⟨v, hv, rfl⟩ := List.mem_map.mp h
      have h4 := (Prod.mk.injEq .. ▸ h2).1
      omega

/-!
## Claim-facing definitions and concrete-run extractors
-/

/-- The identity stream, a concrete random oracle for witness runs. -/
def rId : RNG := fun n => n

/-- The state of a successful formation result. -/
def okState (o : Option (Except MErr (MS × RNG))) : MS :=
  match o with
  | some (.ok p) => p.1
  | _ => initMaze 0 0

/-- The stream of a successful formation result. -/
def okRng (o : Option (Except MErr (MS × RNG))) : RNG :=
  match o with
  | some (.ok p) => p.2
  | _ => rId

/-- The state of a successful braiding result. -/
def okStateE (o : Except MErr (MS × RNG)) : MS :=
  match o with
  | .ok p => p.1
  | _ => initMaze 0 0

/-- The stream of a successful braiding result. -/
def okRngE (o : Except MErr (MS × RNG)) : RNG :=
  match o with
  | .ok p => p.2
  | _ => rId

/-- The value of a successful export. -/
def okList {α : Type} (o : Except MErr α) (d : α) : α :=
  match o with
  | .ok v => v
  | _ => d

/-- A placeholder cell for indexing into the detailed grid. -/
def dfltDet : DetCell :=
  { index := '?', distance := none, n := false, s := false, w := false, e := false }

/-- The maze `s` is the successful result of one of the two formation
algorithms run on a freshly constructed maze of size `sx × sy` with the given
walls. -/
def FormedFrom (sx sy : Int) (sw ew : String) (wh wl : Int) (r : RNG) (fuel : Nat)
    (s : MS) (r' : RNG) : Prop :=
  makeMazeSimple { initMaze sx sy with start_wall := sw, end_wall := ew } r fuel =
    some (.ok (s, r')) ∨
  makeMazeGrowTree { initMaze sx sy with start_wall := sw, end_wall := ew } wh wl r fuel =
    some (.ok (s, r'))

/-- The entry/exit shape of a formed maze: one entry, one exit, distinct, and
each with exactly one outward opening, in the direction picked by the
row-tests-first `if`/`elif` chain. -/
def EntryExitSpec (s : MS) : Prop :=
  ∃ e x : Pos, e ≠ x ∧ s.isEntry e = some true ∧ s.isEntry x = some false ∧
    (∀ p, p ≠ e → p ≠ x → s.isEntry p = none) ∧
    (s.conn e).filter (fun d => !(decide (InGrid s (target e d)))) = [outwardDir s e] ∧
    (s.conn x).filter (fun d => !(decide (InGrid s (target x d)))) = [outwardDir s x]

/-- The frontier loop terminates on every stream, and entry/exit placement is
the only part that can fail to return: whenever its draw succeeds with some
fuel, the whole `makeMazeSimple` call returns successfully. -/
def LoopThenEntryExitSimple (m0 : MS) (r : RNG) : Prop :=
  ∃ fuel1 m2 r2,
    primLoop fuel1
      { m0 with workedOn := (Function.update m0.workedOn
        ((((rhead (rtail r) % m0.sizeX.toNat : Nat) : Int),
          ((rhead r % m0.sizeY.toNat : Nat) : Int))) true) }
      (nextTiles
        { m0 with workedOn := (Function.update m0.workedOn
          ((((rhead (rtail r) % m0.sizeX.toNat : Nat) : Int),
            ((rhead r % m0.sizeY.toNat : Nat) : Int))) true) }
        ((((rhead (rtail r) % m0.sizeX.toNat : Nat) : Int),
          ((rhead r % m0.sizeY.toNat : Nat) : Int))))
      (rtail (rtail r)) = some (m2, r2) ∧
    ∀ fuel2 z, entryExitLoop fuel2 (get_wall_tiles m2 m2.start_wall)
        (get_wall_tiles m2 m2.end_wall) r2 = some z →
      ∃ fuel s r', makeMazeSimple m0 r fuel = some (.ok (s, r'))

/-- The growing-tree analogue of `LoopThenEntryExitSimple`. -/
def LoopThenEntryExitGrow (m0 : MS) (wh wl : Int) (r : RNG) : Prop :=
  ∃ fuel1 m2 r2,
    growLoop fuel1
      { m0 with workedOn := (Function.update m0.workedOn
        ((((rhead (rtail r) % m0.sizeX.toNat : Nat) : Int),
          ((rhead r % m0.sizeY.toNat : Nat) : Int))) true) }
      [(((rhead (rtail r) % m0.sizeX.toNat : Nat) : Int),
        ((rhead r % m0.sizeY.toNat : Nat) : Int))]
      wh wl (rtail (rtail r)) = some (m2, r2) ∧
    ∀ fuel2 z, entryExitLoop fuel2 (get_wall_tiles m2 m2.start_wall)
        (get_wall_tiles m2 m2.end_wall) r2 = some z →
      ∃ fuel s r', makeMazeGrowTree m0 wh wl r fuel = some (.ok (s, r'))

/-- A formed maze holds at least two tiles: its entry and exit are distinct
in-grid tiles. -/
theorem formed_two_tiles {s : MS} (hF : Formed s) (hsx : 1 ≤ s.sizeX)
    (hsy : 1 ≤ s.sizeY) : 2 ≤ s.sizeX.toNat * s.sizeY.toNat := by
  obtain ⟨e, x, hne, hew, hxw, _⟩ := hF.entry
  have he := mem_get_wall_tiles hsx hsy hew
  have hx := mem_get_wall_tiles hsx hsy hxw
  have h2 : 1 < (gridFinset s).card :=
    Finset.one_lt_card.mpr ⟨e, mem_gridFinset.mpr he.1, x, mem_gridFinset.mpr hx.1, hne⟩
  rw [card_gridFinset] at h2
  omega

/-- Both formation algorithms on a fresh maze yield a `Formed` result with
the requested dimensions and walls. -/
theorem formedFrom_formed {sx sy : Int} {sw ew : String} {wh wl : Int} {r : RNG}
    {fuel : Nat} {s : MS} {r' : RNG} (hsx : 1 ≤ sx) (hsy : 1 ≤ sy)
    (h : FormedFrom sx sy sw ew wh wl r fuel s r') :
    Formed s ∧ s.sizeX = sx ∧ s.sizeY = sy ∧ s.start_wall = sw ∧ s.end_wall = ew := by
  rcases h with h | h
  · exact makeMazeSimple_post (fun _ => rfl) (fun _ => rfl) (fun _ => rfl) rfl hsx hsy h
  · exact makeMazeGrowTree_post (fun _ => rfl) (fun _ => rfl) (fun _ => rfl) rfl hsx hsy h

/-!
## The claims
-/

/-- Claim C1: after a successful formation (either algorithm) the tile
connectivity graph is connected and has exactly `sizeX·sizeY − 1` undirected
edges (outward openings not counted); a subsequent successful
`makeMazeBraided` call only ever adds connections and edges and keeps the
graph connected. -/
theorem C1_spanning_tree_braid {sx sy : Int} (hsx : 1 ≤ sx) (hsy : 1 ≤ sy)
    {sw ew : String} {wh wl : Int} {r : RNG} {fuel : Nat} {s : MS} {r' : RNG}
    (h : FormedFrom sx sy sw ew wh wl r fuel s r') :
    (ConnectedMaze s ∧ (edgeFinset s).card + 1 = sx.toNat * sy.toNat) ∧
    (∀ wb r2 s' r2', makeMazeBraided s wb r2 = .ok (s', r2') →
      (∀ p d, d ∈ s.conn p → d ∈ s'.conn p) ∧ edgeFinset s ⊆ edgeFinset s' ∧
      ConnectedMaze s') := by
  obtain ⟨hF, hX, hY, hSW, hEW⟩ := formedFrom_formed hsx hsy h
  have hsx2 : 1 ≤ s.sizeX := by rw [hX]; exact hsx
  have hsy2 : 1 ≤ s.sizeY := by rw [hY]; exact hsy
  have hn : 2 ≤ s.sizeX.toNat * s.sizeY.toNat := formed_two_tiles hF hsx2 hsy2
  refine ⟨⟨hF.connected, ?_⟩, ?_⟩
  · have h2 := hF.count
    rw [hX, hY] at h2
    exact h2
  · intro wb r2 s' r2' hb
    have hguard : ¬ (wb < -1 ∨ wb > 100) := by
      intro habs
      rw [makeMazeBraided, if_neg (by rw [hF.done]; simp), if_pos habs] at hb
      exact absurd hb (by simp)
    obtain ⟨s2, r2b, heq, hDS2, hX2, hY2, hIE2, hWO2, hD2, hSW2, hEW2, hmono, hlmono,
      hedge, hconn2, hdead⟩ := makeMazeBraided_spec hF hn wb (by omega) (by omega) r2
    rw [heq] at hb
    have h2 := Except.ok.inj hb
    injection h2 with h2a h2b
    rw [← h2a]
    exact ⟨hmono, hedge, hconn2⟩

/-- Claim C2: a formed maze has symmetric, duplicate-free connection lists,
and both properties survive a successful braiding call. -/
theorem C2_symmetric_connections {sx sy : Int} (hsx : 1 ≤ sx) (hsy : 1 ≤ sy)
    {sw ew : String} {wh wl : Int} {r : RNG} {fuel : Nat} {s : MS} {r' : RNG}
    (h : FormedFrom sx sy sw ew wh wl r fuel s r') :
    ((∀ p d, d ∈ s.conn p → InGrid s (target p d) → d.opp ∈ s.conn (target p d)) ∧
      (∀ p, (s.conn p).Nodup)) ∧
    (∀ wb r2 s' r2', makeMazeBraided s wb r2 = .ok (s', r2') →
      (∀ p d, d ∈ s'.conn p → InGrid s' (target p d) → d.opp ∈ s'.conn (target p d)) ∧
      (∀ p, (s'.conn p).Nodup)) := by
  obtain ⟨hF, hX, hY, hSW, hEW⟩ := formedFrom_formed hsx hsy h
  have hsx2 : 1 ≤ s.sizeX := by rw [hX]; exact hsx
  have hsy2 : 1 ≤ s.sizeY := by rw [hY]; exact hsy
  have hn : 2 ≤ s.sizeX.toNat * s.sizeY.toNat := formed_two_tiles hF hsx2 hsy2
  refine ⟨⟨hF.symm, hF.nodupC⟩, ?_⟩
  intro wb r2 s' r2' hb
  have hguard : ¬ (wb < -1 ∨ wb > 100) := by
    intro habs
    rw [makeMazeBraided, if_neg (by rw [hF.done]; simp), if_pos habs] at hb
    exact absurd hb (by simp)
  obtain ⟨s2, r2b, heq, hDS2, hX2, hY2, hIE2, hWO2, hD2, hSW2, hEW2, hmono, hlmono,
    hedge, hconn2, hdead⟩ := makeMazeBraided_spec hF hn wb (by omega) (by omega) r2
  rw [heq] at hb
  have h2 := Except.ok.inj hb
  injection h2 with h2a h2b
  rw [← h2a]
  exact ⟨hDS2.symm, hDS2.nodupC⟩

/-- Claim C3 (amended): for positive dimensions both main generation loops
terminate on every stream, and the whole formation call returns exactly as
soon as the trailing entry/exit draw does; the original claim's unconditional
termination fails (see the counterexample). -/
theorem C3_loops_terminate (sx sy : Int) (hsx : 1 ≤ sx) (hsy : 1 ≤ sy)
    (sw ew : String) (wh wl : Int) (r : RNG) :
    LoopThenEntryExitSimple { initMaze sx sy with start_wall := sw, end_wall := ew } r ∧
    LoopThenEntryExitGrow { initMaze sx sy with start_wall := sw, end_wall := ew }
      wh wl r :=
  ⟨makeMazeSimple_runs (fun _ => rfl) (fun _ => rfl) (fun _ => rfl) rfl hsx hsy r,
   makeMazeGrowTree_runs (fun _ => rfl) (fun _ => rfl) (fun _ => rfl) rfl hsx hsy wh wl r⟩

/-- Claim C3, witness: the amended statement at `2 × 2` with the identity
stream. -/
theorem C3_loops_terminate_witness :
    (1 : Int) ≤ 2 ∧
    LoopThenEntryExitSimple { initMaze 2 2 with start_wall := "Any", end_wall := "Any" }
      rId :=
  ⟨by decide, (C3_loops_terminate 2 2 (by decide) (by decide) "Any" "Any" 99 97 rId).1⟩

/-- Claim C3, counterexample to the original statement: on a `1×1` maze the
entry/exit draw can never produce two distinct tiles, so `makeMazeSimple`
never returns, however much fuel the loops are given. -/
theorem C3_one_by_one_diverges :
    ¬ ∃ fuel : Nat, makeMazeSimple (initMaze 1 1) rId fuel ≠ none :=
  fun ⟨fuel, hne⟩ => hne (makeMazeSimple11_none fuel rId)

/-- Claim C4: every successful formation marks exactly one entry and one exit,
distinct, each holding exactly one outward connection, chosen by the
row-before-column boundary tests (`outwardDir`). -/
theorem C4_entry_exit_unique {sx sy : Int} (hsx : 1 ≤ sx) (hsy : 1 ≤ sy)
    {sw ew : String} {wh wl : Int} {r : RNG} {fuel : Nat} {s : MS} {r' : RNG}
    (h : FormedFrom sx sy sw ew wh wl r fuel s r') : EntryExitSpec s := by
  obtain ⟨hF, _, _, _, _⟩ := formedFrom_formed hsx hsy h
  obtain ⟨e, x, hne, hew, hxw, hie, hix, hother, hfe, hfx, _⟩ := hF.entry
  exact ⟨e, x, hne, hie, hix, hother, hfe, hfx⟩

/-- Claim C5: forming an already formed maze fails with errorcode 3, and
braiding or exporting an unformed maze fails with errorcode 4. -/
theorem C5_state_guards (m : MS) (r : RNG) (fuel : Nat) (wh wl wb pix : Int)
    (mode : String) :
    (m.mazeIsDone = true →
      makeMazeSimple m r fuel = some (.error ⟨"Maze is already done", 3⟩) ∧
      makeMazeGrowTree m wh wl r fuel = some (.error ⟨"Maze is already done", 3⟩)) ∧
    (m.mazeIsDone = false →
      makeMazeBraided m wb r = .error ⟨"Maze needs to be formed first", 4⟩ ∧
      get_maze_as_list m = .error ⟨"Maze needs to be formed first", 4⟩ ∧
      get_maze_with_distances m = .error ⟨"Maze needs to be formed first", 4⟩ ∧
      get_maze_detailed_info m = .error ⟨"Maze needs to be formed first", 4⟩ ∧
      makePP m mode pix = .error ⟨"There is no Maze yet", 4⟩) := by
  constructor
  · intro hdone
    constructor
    · rw [makeMazeSimple, if_pos hdone]
    · rw [makeMazeGrowTree, if_pos hdone]
  · intro hundone
    refine ⟨?_, ?_, ?_, ?_, ?_⟩
    · rw [makeMazeBraided, if_pos (by rw [hundone]; simp)]
    · rw [get_maze_as_list, if_pos (by rw [hundone]; simp)]
    · rw [get_maze_with_distances, if_pos (by rw [hundone]; simp)]
    · rw [get_maze_detailed_info, if_pos (by rw [hundone]; simp)]
    · rw [makePP, if_pos (by rw [hundone]; simp)]

/-- Claim C5, witness: the guards at a formed `2×2` maze and at a fresh one. -/
theorem C5_state_guards_witness :
    ({ initMaze 2 2 with mazeIsDone := true } : MS).mazeIsDone = true ∧
    makeMazeSimple { initMaze 2 2 with mazeIsDone := true } rId 5 =
      some (.error ⟨"Maze is already done", 3⟩) ∧
    (initMaze 2 2).mazeIsDone = false ∧
    get_maze_as_list (initMaze 2 2) = .error ⟨"Maze needs to be formed first", 4⟩ :=
  ⟨rfl, ((C5_state_guards { initMaze 2 2 with mazeIsDone := true } rId 5 0 0 0 1 "1").1
      rfl).1,
   rfl, (((C5_state_guards (initMaze 2 2) rId 5 0 0 0 1 "1").2 rfl).2.1)⟩

/-- Claim C6: braiding a formed maze of size at least `2×2` with weight `-1`
leaves no tile with exactly one connection. -/
theorem C6_no_dead_ends {sx sy : Int} (hsx : 2 ≤ sx) (hsy : 2 ≤ sy)
    {sw ew : String} {wh wl : Int} {r : RNG} {fuel : Nat} {s : MS} {r' : RNG}
    (h : FormedFrom sx sy sw ew wh wl r fuel s r')
    {r2 : RNG} {s' : MS} {r2' : RNG} (hb : makeMazeBraided s (-1) r2 = .ok (s', r2')) :
    ∀ p, InGrid s' p → (s'.conn p).length ≠ 1 := by
  obtain ⟨hF, hX, hY, hSW, hEW⟩ := formedFrom_formed (by omega) (by omega) h
  have hsx2 : 2 ≤ s.sizeX := by rw [hX]; exact hsx
  have hsy2 : 2 ≤ s.sizeY := by rw [hY]; exact hsy
  have hn : 2 ≤ s.sizeX.toNat * s.sizeY.toNat :=
    formed_two_tiles hF (by omega) (by omega)
  obtain ⟨s2, r2b, heq, hDS2, hX2, hY2, hIE2, hWO2, hD2, hSW2, hEW2, hmono, hlmono,
    hedge, hconn2, hdead⟩ := makeMazeBraided_spec hF hn (-1) (by omega) (by omega) r2
  rw [heq] at hb
  have h2 := Except.ok.inj hb
  injection h2 with h2a h2b
  rw [← h2a]
  exact hdead rfl hsx2 hsy2

/-- Claim C7: with an explicit seed, `generate_maze` ignores the ambient
stream entirely: two runs with identical arguments return identical results,
in particular identical symbolic grids in mode `"list"`. -/
theorem C7_seeded_determinism (w h : Int) (algo : String)
    (st : Option (List (String × Int))) (sw ew : String) (k : Int)
    (g1 g2 : RNG) (fuel : Nat) :
    generate_maze w h algo st "list" sw ew (some k) g1 fuel =
    generate_maze w h algo st "list" sw ew (some k) g2 fuel := rfl

theorem detVal_index (g : Pos → DetCell) (dist : List (Pos × Int)) (W H : Int)
    (p : Pos) : (detVal g dist W H p).index = (g p).index := rfl

/-- Claim C8: for one and the same formed maze, the three export grids have
`(2·sizeY+1)` rows of `(2·sizeX+1)` cells each, and a coordinate is a wall in
one grid exactly when it is a wall in the other two. -/
theorem C8_export_agreement {sx sy : Int} (hsx : 1 ≤ sx) (hsy : 1 ≤ sy)
    {sw ew : String} {wh wl : Int} {r : RNG} {fuel : Nat} {s : MS} {r' : RNG}
    (h : FormedFrom sx sy sw ew wh wl r fuel s r')
    {L : List (List Char)} {D : List (List DVal)} {T : List (List DetCell)}
    (hL : get_maze_as_list s = .ok L) (hD : get_maze_with_distances s = .ok D)
    (hT : get_maze_detailed_info s = .ok T) :
    (L.length = (s.sizeY * 2 + 1).toNat ∧ D.length = (s.sizeY * 2 + 1).toNat ∧
     T.length = (s.sizeY * 2 + 1).toNat) ∧
    ((∀ row ∈ L, row.length = (s.sizeX * 2 + 1).toNat) ∧
     (∀ row ∈ D, row.length = (s.sizeX * 2 + 1).toNat) ∧
     (∀ row ∈ T, row.length = (s.sizeX * 2 + 1).toNat)) ∧
    (∀ i j : Nat, j < (s.sizeY * 2 + 1).toNat → i < (s.sizeX * 2 + 1).toNat →
      (((D.getD j []).getD i (.ch '?') = DVal.ch '#') ↔
        (L.getD j []).getD i '?' = '#') ∧
      (((T.getD j []).getD i dfltDet).index = '#' ↔
        (L.getD j []).getD i '?' = '#')) := by
  obtain ⟨hF, hX, hY, hSW, hEW⟩ := formedFrom_formed hsx hsy h
  rw [get_maze_as_list, if_neg (by rw [hF.done]; simp)] at hL
  have hLe : L = matGrid s (symGrid s) := (Except.ok.inj hL).symm
  rw [get_maze_with_distances, if_neg (by rw [hF.done]; simp)] at hD
  simp only [] at hD
  split at hD
  · exact absurd hD (by simp)
  · rename_i sp hsp
    have hDe := (Except.ok.inj hD).symm
    rw [get_maze_detailed_info, if_neg (by rw [hF.done]; simp)] at hT
    simp only [] at hT
    split at hT
    · exact absurd hT (by simp)
    · rename_i sp2 hsp2
      have hTe := (Except.ok.inj hT).symm
      have hwalls : ∀ e2 ∈ bfsD (distMark s).1 (s.sizeX * 2 + 1) (s.sizeY * 2 + 1)
          ((s.sizeX * 2 + 1) * (s.sizeY * 2 + 1) + 2).toNat [(sp, 0)] [sp] [],
          (distMark s).1 e2.1 ≠ '#' := by
        refine bfsD_no_wall _ _ _ _ _ _ _ ?_ ?_
        · intro e2 he2
          rw [List.mem_singleton] at he2
          rw [he2]
          exact distMark_start s hsp
        · intro e2 he2
          exact absurd he2 (List.not_mem_nil e2)
      have hAgree := detMark_agree s (formed_HT hF)
      refine ⟨⟨?_, ?_, ?_⟩, ⟨?_, ?_, ?_⟩, ?_⟩
      · rw [hLe, length_matGrid]
      · rw [hDe, length_matGrid]
      · rw [hTe, length_matGrid]
      · rw [hLe]
        exact row_length_matGrid s _
      · rw [hDe]
        exact row_length_matGrid s _
      · rw [hTe]
        exact row_length_matGrid s _
      · intro i j hj hi
        constructor
        · rw [hLe, hDe, matGrid_getD _ _ _ _ hj hi, matGrid_getD _ _ _ _ hj hi,
            distVal_char _ _ hwalls, distMark_fst]
        · rw [hLe, hTe, matGrid_getD _ _ _ _ hj hi, matGrid_getD _ _ _ _ hj hi,
            detVal_index, hAgree.idx]

/-- Claim C9 (amended): with both dimensions at least `2`, the `Any`
candidate list is exactly the set of boundary tiles, each counted once; on
degenerate `1×n`/`n×1` grids tiles repeat (see the counterexample). -/
theorem C9_any_wall_tiles {m : MS} (hsx : 2 ≤ m.sizeX) (hsy : 2 ≤ m.sizeY) :
    (get_wall_tiles m "Any").Nodup ∧
    (∀ p : Pos, p ∈ get_wall_tiles m "Any" ↔ InGrid m p ∧ Boundary m p) :=
  ⟨get_wall_tiles_any_nodup hsx hsy,
   fun _ => mem_get_wall_tiles_any (by omega) (by omega)⟩

/-- Claim C9, witness: the amended statement at a `2×2` maze. -/
theorem C9_any_wall_tiles_witness :
    (2 : Int) ≤ (initMaze 2 2).sizeX ∧ (get_wall_tiles (initMaze 2 2) "Any").Nodup :=
  ⟨by decide, (C9_any_wall_tiles (m := initMaze 2 2) (by decide) (by decide)).1⟩

/-- Claim C9, counterexample to the original statement: on a `1×1` maze the
single boundary tile appears twice in the `Any` candidate list. -/
theorem C9_any_duplicates : ¬ (get_wall_tiles (initMaze 1 1) "Any").Nodup := by decide

/-- Claim C10 (amended): `weightLow` and `weightBraid` overrides reach the
algorithms, but because the default dictionary spells its high-weight key
`weighHigh`, a `weightHigh` override is ignored (the high weight stays 99)
and only the misspelled key changes it. -/
theorem C10_algorithm_settings (v : Int) :
    growTreeArgs (some [("weightLow", v)]) = (99, v) ∧
    braidArg (some [("weightBraid", v)]) = v ∧
    growTreeArgs (some [("weighHigh", v)]) = (v, 97) ∧
    growTreeArgs (some [("weightHigh", v)]) = (99, 97) :=
  ⟨rfl, rfl, rfl, rfl⟩

/-- Claim C10, counterexample to the original statement: supplying
`weightHigh` does not override the high weight. -/
theorem C10_weightHigh_ignored : (growTreeArgs (some [("weightHigh", 5)])).1 ≠ 5 := by
  decide

/-- A concrete formation run: Prim's variant on an empty `2×2` maze with the
identity stream. -/
def wit22 : Option (Except MErr (MS × RNG)) :=
  makeMazeSimple { initMaze 2 2 with start_wall := "Any", end_wall := "Any" } rId 60

/-- The formed maze of the concrete run. -/
def witS : MS := okState wit22

/-- The stream left over by the concrete run. -/
def witR : RNG := okRng wit22

/-- Dead-end removal on the concrete formed maze. -/
def witB : Except MErr (MS × RNG) := makeMazeBraided witS (-1) witR

/-- The braided maze of the concrete run. -/
def witSB : MS := okStateE witB

/-- Claim C1, witness: the concrete `2×2` formation is connected. -/
theorem C1_spanning_tree_braid_witness : (1 : Int) ≤ 2 ∧ ConnectedMaze witS :=
  ⟨by decide,
   (C1_spanning_tree_braid (by decide) (by decide)
     (show FormedFrom 2 2 "Any" "Any" 99 97 rId 60 witS witR from Or.inl rfl)).1.1⟩

/-- Claim C2, witness: the concrete `2×2` formation has symmetric
connections. -/
theorem C2_symmetric_connections_witness :
    (1 : Int) ≤ 2 ∧
    ∀ p d, d ∈ witS.conn p → InGrid witS (target p d) → d.opp ∈ witS.conn (target p d) :=
  ⟨by decide,
   (C2_symmetric_connections (by decide) (by decide)
     (show FormedFrom 2 2 "Any" "Any" 99 97 rId 60 witS witR from Or.inl rfl)).1.1⟩

/-- Claim C4, witness: the concrete `2×2` formation has the entry/exit
shape. -/
theorem C4_entry_exit_unique_witness : (1 : Int) ≤ 2 ∧ EntryExitSpec witS :=
  ⟨by decide,
   C4_entry_exit_unique (by decide) (by decide)
     (show FormedFrom 2 2 "Any" "Any" 99 97 rId 60 witS witR from Or.inl rfl)⟩

/-- Claim C6, witness: dead-end removal on the concrete `2×2` maze leaves no
tile with exactly one connection. -/
theorem C6_no_dead_ends_witness :
    (2 : Int) ≤ 2 ∧ ∀ p, InGrid witSB p → (witSB.conn p).length ≠ 1 :=
  ⟨by decide,
   C6_no_dead_ends (by decide) (by decide)
     (show FormedFrom 2 2 "Any" "Any" 99 97 rId 60 witS witR from Or.inl rfl)
     (show makeMazeBraided witS (-1) witR = .ok (witSB, okRngE witB) from rfl)⟩

/-- Claim C8, witness: the three exports of the concrete `2×2` maze, with the
symbolic grid's row count evaluated. -/
theorem C8_export_agreement_witness :
    (1 : Int) ≤ 2 ∧
    (okList (get_maze_as_list witS) []).length = (witS.sizeY * 2 + 1).toNat :=
  ⟨by decide,
   (C8_export_agreement (by decide) (by decide)
     (show FormedFrom 2 2 "Any" "Any" 99 97 rId 60 witS witR from Or.inl rfl)
     (show get_maze_as_list witS = .ok (okList (get_maze_as_list witS) []) from rfl)
     (show get_maze_with_distances witS =
       .ok (okList (get_maze_with_distances witS) []) from rfl)
     (show get_maze_detailed_info witS =
       .ok (okList (get_maze_detailed_info witS) []) from rfl)).1.1⟩
